import Mathlib

/-!
# CustomShell: process tree and supervisor handlers

A shallow embedding of `src/proc_tree.c`, `src/common.c`, `src/handlers.c`,
`src/message.c`, `src/child.c`, `src/prmall.c`, `src/ptree.c` and `src/plist.c`.

Conventions of the embedding.

* A C string is the list of its characters before the terminating NUL.
* `pid_t` is a 32 bit signed integer and `long` a 64 bit signed integer; both are
  embedded in `Int`, conversions are written out (`to_pid_t`, `clamp_long`).
* A `proc_node *` that points into a tree is the list of child indices leading from
  the root to the node; `NULL` is `none`.
* `malloc`, `realloc` and `asprintf` are assumed to succeed (the `asprintf` of
  `child_clone`, whose failure is a branch of its own, apart); the capacity field
  `children_size` of a node is allocation bookkeeping and is not part of the model:
  the `children` array is the list of its first `children_count` entries.
-/

namespace CustomShell

/-! ## libc: `printf("%ld")`, `atol`, `strtok` -/

/-- Output of `printf("%ld", n)`. -/
def fmt_ld : Int → List Char
  | Int.ofNat n => Nat.toDigits 10 n
  | Int.negSucc n => '-' :: Nat.toDigits 10 (n + 1)

/-- The C locale `isspace`. -/
def isspace (c : Char) : Bool :=
  c = ' ' || (9 ≤ c.toNat && c.toNat ≤ 13)

/-- The C locale `isdigit`. -/
def isdigit (c : Char) : Bool :=
  48 ≤ c.toNat && c.toNat ≤ 57

/-- Value of the longest prefix of decimal digits. -/
def digits_value (s : List Char) : Nat :=
  (s.takeWhile isdigit).foldl (fun acc c => 10 * acc + (c.toNat - 48)) 0

/-- Saturation to the range of `long`, as `strtol` does on overflow. -/
def clamp_long (x : Int) : Int :=
  if x < -(2 ^ 63) then -(2 ^ 63) else if 2 ^ 63 ≤ x then 2 ^ 63 - 1 else x

/-- The function `atol`: leading white space, an optional sign, then decimal digits. -/
def atol (s : List Char) : Int :=
  match s.dropWhile isspace with
  | '-' :: r => clamp_long (-(digits_value r : Int))
  | '+' :: r => clamp_long (digits_value r)
  | r => clamp_long (digits_value r)

/-- Conversion of a `long` to `pid_t` (two's complement, 32 bits). -/
def to_pid_t (x : Int) : Int :=
  (x + 2 ^ 31) % 2 ^ 32 - 2 ^ 31

/-- The values a `pid_t` can hold. -/
def pid_t_range (x : Int) : Prop :=
  -(2 ^ 31) ≤ x ∧ x < 2 ^ 31

/-- One call of `strtok` on the not yet consumed input: skip delimiters, then cut
the token at the next delimiter. Returns the token and the input left for the next
call, `none` when no token is left. -/
def strtok (delimiters : List Char) (s : List Char) : Option (List Char × List Char) :=
  match s.dropWhile (fun c => delimiters.contains c) with
  | [] => none
  | c :: r =>
    some ((c :: r).takeWhile (fun c => !delimiters.contains c),
          ((c :: r).dropWhile (fun c => !delimiters.contains c)).tail)

/-! ## common.c -/

/-- The `while (current_token != NULL)` loop of `tokenize`. Every round consumes at
least one character, the first argument bounds the number of rounds. -/
def tokenize_loop (delimiters : List Char) : Nat → List Char → List (List Char)
  | 0, _ => []
  | fuel + 1, s =>
    match strtok delimiters s with
    | none => []
    | some (tok, rest) => tok :: tokenize_loop delimiters fuel rest

/-- The function `tokenize` of `common.c`: the tokens found, in order
(`tokens_count` is the length of the result). -/
def tokenize (str : List Char) (delimiters : List Char) : List (List Char) :=
  tokenize_loop delimiters (str.length + 1) str

/-! ## proc_tree.c: data model -/

/-- The struct `proc_node`. -/
inductive proc_node where
  | mk (pid : Int) (ppid : Int) (name : List Char) (children : List proc_node) : proc_node

namespace proc_node

/-- Field `pid`. -/
def pid : proc_node → Int
  | mk p _ _ _ => p

/-- Field `ppid`. -/
def ppid : proc_node → Int
  | mk _ q _ _ => q

/-- Field `name`. -/
def name : proc_node → List Char
  | mk _ _ n _ => n

/-- Field `children` (the first `children_count` entries). -/
def children : proc_node → List proc_node
  | mk _ _ _ cs => cs

end proc_node

/-- The function `proc_node_init`: a new node without children. -/
def proc_node_init (pid ppid : Int) (name : List Char) : proc_node :=
  proc_node.mk pid ppid name []

/-- The function `proc_node_tostr`: `<pid>;<ppid>;<name>`. -/
def proc_node_tostr (node : proc_node) : List Char :=
  fmt_ld node.pid ++ ';' :: (fmt_ld node.ppid ++ ';' :: node.name)

/-- The function `proc_node_fromstr`: a node when the string has exactly three
`;`-separated tokens, `NULL` otherwise. -/
def proc_node_fromstr (node_str : List Char) : Option proc_node :=
  match tokenize node_str [';'] with
  | [t0, t1, t2] => some (proc_node_init (to_pid_t (atol t0)) (to_pid_t (atol t1)) t2)
  | _ => none

/-! ## proc_tree.c: pointers into a tree -/

/-- The node a pointer points at (`none` for a pointer that leaves the tree). -/
def deref : proc_node → List Nat → Option proc_node
  | n, [] => some n
  | proc_node.mk _ _ _ cs, i :: r =>
    match cs[i]? with
    | some c => deref c r
    | none => none

/-- The tree after the node pointed at has been overwritten by `f` applied to it. -/
def update : proc_node → List Nat → (proc_node → proc_node) → proc_node
  | n, [], f => f n
  | proc_node.mk p q nm cs, i :: r, f =>
    match cs[i]? with
    | some c => proc_node.mk p q nm (cs.set i (update c r f))
    | none => proc_node.mk p q nm cs

/-- Assignment to the `children` array (and `children_count`) of a node. -/
def set_children (cs : List proc_node) (n : proc_node) : proc_node :=
  proc_node.mk n.pid n.ppid n.name cs

/-! ## proc_tree.c: search -/

mutual
/-- The function `proc_node_find_by_pid`: the pointer returned, `none` for `NULL`. -/
def proc_node_find_by_pid : proc_node → Int → Option (List Nat)
  | proc_node.mk p _ _ cs, pid =>
    if p = pid then some [] else find_by_pid_loop cs 0 pid
/-- The `for` loop of `proc_node_find_by_pid` from index `i` on, over the children
not yet visited. -/
def find_by_pid_loop : List proc_node → Nat → Int → Option (List Nat)
  | [], _, _ => none
  | c :: cs, i, pid =>
    match proc_node_find_by_pid c pid with
    | some r => some (i :: r)
    | none => find_by_pid_loop cs (i + 1) pid
end

mutual
/-- The function `proc_node_find_by_name`: the pointer returned, `none` for `NULL`. -/
def proc_node_find_by_name : proc_node → List Char → Option (List Nat)
  | proc_node.mk _ _ nm cs, name =>
    if nm = name then some [] else find_by_name_loop cs 0 name
/-- The `for` loop of `proc_node_find_by_name` from index `i` on. -/
def find_by_name_loop : List proc_node → Nat → List Char → Option (List Nat)
  | [], _, _ => none
  | c :: cs, i, name =>
    match proc_node_find_by_name c name with
    | some r => some (i :: r)
    | none => find_by_name_loop cs (i + 1) name
end

/-! ## proc_tree.c: add and remove -/

/-- The function `proc_node_add`: the value returned and the tree afterwards. -/
def proc_node_add (root : proc_node) (node : proc_node) : Int × proc_node :=
  match proc_node_find_by_pid root node.ppid with
  | none => (-1, root)
  | some parent =>
    (0, update root parent (fun p =>
      set_children (p.children ++ [proc_node_init node.pid node.ppid node.name]) p))

/-- The search of the `for` loop of `remove_child`: the first index `i` with
`children[i]->pid == pid`. -/
def remove_child_index : List proc_node → Int → Option Nat
  | [], _ => none
  | c :: cs, pid => if c.pid = pid then some 0 else (remove_child_index cs pid).map (· + 1)

/-- The function `remove_child` on the node pointed at by `node`: the child found
is destroyed with its subtree and the children after it move one position left. -/
def remove_child (root : proc_node) (node : Option (List Nat)) (pid : Int) : Int × proc_node :=
  match node with
  | none => (1, root)
  | some ptr =>
    match deref root ptr with
    | none => (1, root)
    | some n =>
      match remove_child_index n.children pid with
      | none => (1, root)
      | some i => (0, update root ptr (fun m => set_children (m.children.eraseIdx i) m))

/-- The function `proc_node_remove`: the value returned and the tree afterwards.
The second `if (node == NULL)` of the source tests `node` again, which is not `NULL`
there; a `NULL` parent is handled by `remove_child`. -/
def proc_node_remove (root : proc_node) (pid : Int) : Int × proc_node :=
  match proc_node_find_by_pid root pid with
  | none => (1, root)
  | some ptr =>
    match deref root ptr with
    | none => (1, root)
    | some node =>
      if node.children.length ≠ 0 then (1, root)
      else remove_child root (proc_node_find_by_pid root node.ppid) pid

/-! ## proc_tree.c: enumeration -/

mutual
/-- The function `proc_node_get_array_rec` on the state `(*array, *size, *count)`;
`*array` is the list of the entries written so far. -/
def proc_node_get_array_rec :
    proc_node → List proc_node × Nat × Nat → List proc_node × Nat × Nat
  | proc_node.mk p q nm cs, (array, size, count) =>
    let size1 := if count = size then (if size = 0 then 10 else 2 * size) else size
    get_array_rec_loop cs (array ++ [proc_node_init p q nm], size1, count + 1)
/-- The `for` loop of `proc_node_get_array_rec` over the children. -/
def get_array_rec_loop :
    List proc_node → List proc_node × Nat × Nat → List proc_node × Nat × Nat
  | [], st => st
  | c :: cs, st => get_array_rec_loop cs (proc_node_get_array_rec c st)
end

/-- The function `proc_node_get_array`: the array returned and `*count`. -/
def proc_node_get_array (root : proc_node) : List proc_node × Nat :=
  match proc_node_get_array_rec root ([], 0, 0) with
  | (array, _, count) => (array, count)

/-! ## Pre-order traversal -/

mutual
/-- The nodes of a tree in pre-order: a node, then the subtrees of its children
from the first child to the last. -/
def preorder : proc_node → List proc_node
  | proc_node.mk p q nm cs => proc_node.mk p q nm cs :: preorder_children cs
/-- Pre-order of a sequence of sibling subtrees. -/
def preorder_children : List proc_node → List proc_node
  | [] => []
  | c :: cs => preorder c ++ preorder_children cs
end

/-- Copy of a node without its children. -/
def childless_copy (n : proc_node) : proc_node :=
  proc_node_init n.pid n.ppid n.name

/-- The fields of a node that are stored in the node itself: `pid`, `ppid`, `name`
and `children_count`. -/
def node_fields (n : proc_node) : Int × Int × List Char × Nat :=
  (n.pid, n.ppid, n.name, n.children.length)

mutual
/-- Pre-order search for the first node satisfying `P`: the common shape of
`proc_node_find_by_pid` and `proc_node_find_by_name`. -/
def find_first (P : proc_node → Bool) : proc_node → Option (List Nat)
  | proc_node.mk p q nm cs =>
    if P (proc_node.mk p q nm cs) then some [] else find_first_loop P cs 0
/-- The loop of `find_first` over the children from index `i` on. -/
def find_first_loop (P : proc_node → Bool) : List proc_node → Nat → Option (List Nat)
  | [], _ => none
  | c :: cs, i =>
    match find_first P c with
    | some r => some (i :: r)
    | none => find_first_loop P cs (i + 1)
end

mutual
/-- Number of nodes of a tree. -/
def node_count : proc_node → Nat
  | proc_node.mk _ _ _ cs => 1 + node_count_children cs
/-- Number of nodes of a sequence of sibling subtrees. -/
def node_count_children : List proc_node → Nat
  | [] => 0
  | c :: cs => node_count c + node_count_children cs
end

/-! ## Invariants of the tree -/

/-- The pids of the nodes of a tree, in pre-order. -/
def pids (t : proc_node) : List Int :=
  (preorder t).map proc_node.pid

/-- The names of the nodes of a tree, in pre-order. -/
def names (t : proc_node) : List (List Char) :=
  (preorder t).map proc_node.name

mutual
/-- I2 as a check: every child has the pid of its parent as ppid, in the whole tree. -/
def parenthood : proc_node → Bool
  | proc_node.mk p _ _ cs => parenthood_children p cs
/-- The check of `parenthood` for the children of a node with pid `p`. -/
def parenthood_children : Int → List proc_node → Bool
  | _, [] => true
  | p, c :: cs => decide (c.ppid = p) && parenthood c && parenthood_children p cs
end

/-- I2 in terms of pointers: the node at `r ++ [i]` has the pid of the node at `r` as
ppid. -/
def parenthood_at (t : proc_node) : Prop :=
  ∀ r i par n, deref t r = some par → deref t (r ++ [i]) = some n → n.ppid = par.pid

/-- No node that has children has the pid of one of its proper ancestors. -/
def unshadowed (t : proc_node) : Prop :=
  ∀ r s n m, deref t r = some n → deref t (r ++ s) = some m → s ≠ [] →
    m.children ≠ [] → m.pid ≠ n.pid

/-- The order in which a pre-order traversal reaches the nodes pointed at: `r` is
reached no later than `s`. -/
def ptr_le : List Nat → List Nat → Bool
  | [], _ => true
  | _ :: _, [] => false
  | i :: r, j :: s => decide (i < j) || (decide (i = j) && ptr_le r s)

/-! ## Sequences of calls of the tree interface -/

/-- A call that may change the tree. -/
inductive tree_call where
  | add (node : proc_node) : tree_call
  | remove (pid : Int) : tree_call

/-- The tree after one call, whatever the call returned. -/
def run_call (root : proc_node) : tree_call → proc_node
  | tree_call.add node => (proc_node_add root node).2
  | tree_call.remove pid => (proc_node_remove root pid).2

/-- The tree after a sequence of calls. -/
def run_calls (root : proc_node) (calls : List tree_call) : proc_node :=
  calls.foldl run_call root

/-! ## message.h, handlers.c, pmanager.c -/

/-- The struct `message_t`. -/
structure message_t where
  pid_sender : Int
  type : List Char
  content : List Char

/-- Message type `MSG_ADD`. -/
def MSG_ADD : List Char := ['a']
/-- Message type `MSG_REMOVE`. -/
def MSG_REMOVE : List Char := ['r']
/-- Message type `MSG_INFO`. -/
def MSG_INFO : List Char := ['i']
/-- Message type `MSG_ERROR`. -/
def MSG_ERROR : List Char := ['e']
/-- Message type `MSG_SUCCESS`. -/
def MSG_SUCCESS : List Char := ['s']
/-- Message type `MSG_LIST`. -/
def MSG_LIST : List Char := ['l']
/-- Message type `MSG_SPAWN`. -/
def MSG_SPAWN : List Char := ['p']

/-- What a handler does on the bus, in order: a call `message_send(pid, type, content)`
(`content` is `none` for `NULL`), or a call `message_wait(sender)` whose result is
discarded. Failures of `message_send` are only reported on `stderr` and are not part of
the model. -/
inductive action where
  | send (pid : Int) (type : List Char) (content : Option (List Char)) : action
  | wait (sender : Int) : action

/-- The function `msg_add_handler`: the tree afterwards and the calls on the bus. -/
def msg_add_handler (msg : message_t) (root : proc_node) : proc_node × List action :=
  match proc_node_fromstr msg.content with
  | none => (root, [action.send msg.pid_sender MSG_ERROR none])
  | some new_proc =>
    if (proc_node_add root new_proc).1 ≠ 0 then
      ((proc_node_add root new_proc).2, [action.send msg.pid_sender MSG_ERROR none])
    else
      ((proc_node_add root new_proc).2, [action.send msg.pid_sender MSG_SUCCESS none])

/-- The function `msg_info_handler`: the tree is only read. -/
def msg_info_handler (msg : message_t) (root : proc_node) : proc_node × List action :=
  match (proc_node_find_by_name root msg.content).bind (deref root) with
  | none => (root, [action.send msg.pid_sender MSG_ERROR (some "process not found".toList)])
  | some proc => (root, [action.send msg.pid_sender MSG_INFO (some (proc_node_tostr proc))])

/-- The function `msg_remove_handler`: the sender is the process to remove. -/
def msg_remove_handler (msg : message_t) (root : proc_node) : proc_node × List action :=
  if (proc_node_remove root msg.pid_sender).1 = 0 then
    ((proc_node_remove root msg.pid_sender).2, [action.send msg.pid_sender MSG_SUCCESS none])
  else
    ((proc_node_remove root msg.pid_sender).2,
      [action.send msg.pid_sender MSG_ERROR
        (some "failed to remove process from tree".toList)])

/-- The function `msg_list_handler`: one `INFO` and one wait for every entry of the
array, then the final `OK`. The array of a node is never `NULL` (it holds the node
itself), so the branch `procs == NULL` is not taken. -/
def msg_list_handler (msg : message_t) (root : proc_node) : proc_node × List action :=
  match (proc_node_find_by_name root msg.content).bind (deref root) with
  | none => (root, [action.send msg.pid_sender MSG_ERROR (some "process not found".toList)])
  | some initial_node =>
    (root,
      ((proc_node_get_array initial_node).1.take (proc_node_get_array initial_node).2).flatMap
        (fun proc => [action.send msg.pid_sender MSG_INFO (some (proc_node_tostr proc)),
                      action.wait msg.pid_sender])
      ++ [action.send msg.pid_sender MSG_SUCCESS none])

/-- The function `message_handler` of `pmanager.c` for a message that was read
(`msg != NULL`), on the tree `proc_tree_root`. -/
def message_handler (msg : message_t) (root : proc_node) : proc_node × List action :=
  if msg.type = MSG_ADD then msg_add_handler msg root
  else if msg.type = MSG_INFO then msg_info_handler msg root
  else if msg.type = MSG_REMOVE then msg_remove_handler msg root
  else if msg.type = MSG_LIST then msg_list_handler msg root
  else (root, [action.send msg.pid_sender MSG_ERROR (some "unrecognized message type".toList)])

/-- The tree of the supervisor after it has handled a sequence of messages. -/
def handle_all (root : proc_node) (msgs : List message_t) : proc_node :=
  msgs.foldl (fun t msg => (message_handler msg t).1) root

/-! ## Protocol around the supervisor -/

/-- The sender of an `ADD` has probed the name before: at the time the message is
handled `proc_node_find_by_name` finds no node with the name of the payload (an `INFO`
request for it would be answered `ERR`). Other messages need no probe. -/
def probed (root : proc_node) (msg : message_t) : Bool :=
  if msg.type = MSG_ADD then
    match proc_node_fromstr msg.content with
    | some node => (proc_node_find_by_name root node.name).isNone
    | none => true
  else true

/-- Every `ADD` of the sequence was probed, each against the tree it is handled on. -/
def all_probed : proc_node → List message_t → Bool
  | _, [] => true
  | root, msg :: msgs => probed root msg && all_probed (message_handler msg root).1 msgs

/-- The handler answered with a single `OK`. -/
def replied_ok : List action → Bool
  | [action.send _ type none] => decide (type = MSG_SUCCESS)
  | _ => false

/-- The register of P1 after one message: an `ADD` answered `OK` enters the pid of its
payload, a `REMOVE` answered `OK` strikes one entry of the sender out. -/
def register (root : proc_node) (live : List Int) (msg : message_t) : List Int :=
  if replied_ok (message_handler msg root).2 then
    if msg.type = MSG_ADD then
      match proc_node_fromstr msg.content with
      | some node => node.pid :: live
      | none => live
    else if msg.type = MSG_REMOVE then live.erase msg.pid_sender
    else live
  else live

/-- The register after a sequence of messages handled from the tree `root` on. -/
def registered : proc_node → List Int → List message_t → List Int
  | _, live, [] => live
  | root, live, msg :: msgs =>
    registered (message_handler msg root).1 (register root live msg) msgs

/-! ## message.c -/

/-- The byte that ends a frame. -/
def NUL : Char := Char.ofNat 0

/-- The globals `unread_flag` and `message_sender` of `message.c` in one process,
together with the FIFO behind `fd` as this process finds it: `pipe` holds the bytes not
yet read, oldest first. A write appends a whole buffer or fails (the frames are shorter
than the atomic write size of a FIFO). The frames the process itself sends are meant
for their receivers and are not kept in `pipe`. -/
structure bus where
  pipe : List Char
  unread_flag : Bool
  message_sender : Int

/-- The handler `set_unread_flag` of `SIGUSR1`, for a signal raised by `si_pid`. -/
def set_unread_flag (si_pid : Int) (b : bus) : bus :=
  bus.mk b.pipe true si_pid

/-- The function `reset_unread_flag`. -/
def reset_unread_flag (b : bus) : bus :=
  bus.mk b.pipe false b.message_sender

/-- The function `message_unread`. -/
def message_unread (b : bus) : Bool :=
  b.unread_flag

/-- The function `set_message_sender`. -/
def set_message_sender (pid : Int) (b : bus) : bus :=
  bus.mk b.pipe b.unread_flag pid

/-- The function `get_message_sender`. -/
def get_message_sender (b : bus) : Int :=
  b.message_sender

/-- The function `message_init` (the allocations succeed). -/
def message_init (pid_sender : Int) (type content : List Char) : message_t :=
  message_t.mk pid_sender type content

/-- The string `msg_str` that `message_send` builds with
`asprintf("%ld:%s:%s", getpid(), type, content_ok)` in the process `self`. -/
def message_str (self : Int) (type : List Char) (content : Option (List Char)) : List Char :=
  fmt_ld self ++ ':' ::
    (type ++ ':' :: (match content with
      | none => "NULL".toList
      | some c => c))

/-- The function `message_send` run by the process `self` on the FIFO content `pipe`:
the status returned, the FIFO afterwards and the process that got `SIGUSR1`.
`write_ok` and `kill_ok` tell whether `write` and `kill` succeed; `write` is given
`strlen(msg_str) + 1` bytes, the string and its terminator, and `kill` is only called
after a successful `write`. -/
def message_send (self : Int) (pipe : List Char) (write_ok kill_ok : Bool) (pid : Int)
    (type : List Char) (content : Option (List Char)) : Int × List Char × Option Int :=
  if write_ok then
    if kill_ok then (0, pipe ++ (message_str self type content ++ [NUL]), some pid)
    else (-1, pipe ++ (message_str self type content ++ [NUL]), none)
  else (-1, pipe, none)

/-- The reading loop of `message_read`, one byte at a time up to the first NUL or the
end of the FIFO: the string read, the FIFO afterwards and the flag `str_end`. -/
def read_until_nul : List Char → List Char × List Char × Bool
  | [] => ([], [], false)
  | c :: rest =>
    if c = NUL then ([], rest, true)
    else ((c :: (read_until_nul rest).1), (read_until_nul rest).2.1, (read_until_nul rest).2.2)

/-- The function `message_read`: the message returned (`none` for `NULL`) and the
globals and FIFO afterwards. When the end of the string was not reached the function
returns before `reset_unread_flag()` and `set_message_sender(-1)`. -/
def message_read (b : bus) : Option message_t × bus :=
  match read_until_nul b.pipe with
  | (_, rest, false) => (none, bus.mk rest b.unread_flag b.message_sender)
  | (msg_str, rest, true) =>
    ((match tokenize msg_str [':'] with
      | [f0, f1, f2] => some (message_init (to_pid_t (atol f0)) f1 f2)
      | _ => none),
     set_message_sender (-1) (reset_unread_flag (bus.mk rest b.unread_flag b.message_sender)))

/-- A signal `SIGUSR1` that reaches the process: `si_pid` raised it after the bytes
`bytes` were written to the FIFO (a frame when the signal comes from `message_send`). -/
structure nudge where
  si_pid : Int
  bytes : List Char

/-- The FIFO gets the bytes, then the handler of `SIGUSR1` runs. -/
def deliver (n : nudge) (b : bus) : bus :=
  set_unread_flag n.si_pid (bus.mk (b.pipe ++ n.bytes) b.unread_flag b.message_sender)

/-- The condition of the `while` loop of `message_wait`. -/
def keeps_waiting (sender : Int) (b : bus) : Bool :=
  !message_unread b || (decide (sender ≠ get_message_sender b) && decide (sender ≠ -1))

/-- The function `message_wait(sender)` against the signals that will reach the
process, in order: every `sigsuspend` returns after the next signal. The result is
what `message_read` returns and the signals not yet delivered; `none` when the loop
never ends because the signals run out. -/
def message_wait (sender : Int) : bus → List nudge → Option ((Option message_t × bus) × List nudge)
  | b, [] => if keeps_waiting sender b then none else some (message_read b, [])
  | b, n :: ns =>
    if keeps_waiting sender b then message_wait sender (deliver n b) ns
    else some (message_read b, n :: ns)

/-- A handler run against the bus: the calls of `message_send` it gets to make, in
order, whether it returns, and the bus and signals left. A `wait` stands for
`message_wait`; the message it returns is discarded. -/
def run_actions : List action → bus → List nudge → List action × Bool × bus × List nudge
  | [], b, ns => ([], true, b, ns)
  | action.send pid type content :: rest, b, ns =>
    (action.send pid type content :: (run_actions rest b ns).1, (run_actions rest b ns).2)
  | action.wait sender :: rest, b, ns =>
    match message_wait sender b ns with
    | none => ([], false, b, [])
    | some (r, ns1) => run_actions rest r.2 ns1

/-- A call `message_send(pid, type, content)` made by the process `self`. -/
structure send_call where
  self : Int
  pid : Int
  type : List Char
  content : Option (List Char)

/-- The FIFO after the calls were made in order, all with success. -/
def write_all (pipe : List Char) (calls : List send_call) : List Char :=
  calls.foldl (fun p c => (message_send c.self p true true c.pid c.type c.content).2.1) pipe

/-- The results of `n` calls of `message_read` in a row, and the bus afterwards. -/
def read_n : Nat → bus → List (Option message_t) × bus
  | 0, b => ([], b)
  | n + 1, b => ((message_read b).1 :: (read_n n (message_read b).2).1,
                 (read_n n (message_read b).2).2)

/-- The seven message types of `message.h`. -/
def message_types : List (List Char) :=
  [MSG_ADD, MSG_REMOVE, MSG_INFO, MSG_ERROR, MSG_SUCCESS, MSG_LIST, MSG_SPAWN]

/-- A payload that survives the framing: absent, or a string that is not empty and
has no `:` (and, as every C string, no NUL). -/
def payload_ok : Option (List Char) → Bool
  | none => true
  | some c => !c.isEmpty && !c.contains ':' && !c.contains NUL

/-- The `sep`-separated fields of a text: the pieces between the separators, empty
pieces included, so that `n` separators give `n + 1` fields. -/
def fields (sep : Char) : List Char → List (List Char)
  | [] => [[]]
  | c :: s =>
    if c = sep then [] :: fields sep s
    else match fields sep s with
      | f :: fs => (c :: f) :: fs
      | [] => [[c]]

/-- The messages sent and the waits made by `msg_list_handler` from its loop on: for
every entry of the array `procs` one `INFO` with the string of the entry and one
`message_wait(msg->pid_sender)`, then the final `OK`. -/
def list_trace (pid_sender : Int) (procs : List proc_node) : List action :=
  procs.flatMap
    (fun proc => [action.send pid_sender MSG_INFO (some (proc_node_tostr proc)),
                  action.wait pid_sender])
  ++ [action.send pid_sender MSG_SUCCESS none]

/-- The state of the messaging layer after the signals `ns` have been handled one
after the other. -/
def deliver_all (ns : List nudge) (b : bus) : bus :=
  ns.foldl (fun b n => deliver n b) b

/-! ## child.c -/

/-- What a process other than the supervisor does, in order: a call of `message_send`
(whatever it returns), a call of `message_wait`, a call of `fork` with the value it
returned in this process, a call `kill(pid, SIGTERM)`, a call of `exit`. Texts
written to `stdout` and `stderr` by `child.c` and `prmall.c` are not part of the
model. -/
inductive event where
  | send (pid : Int) (type : List Char) (content : Option (List Char)) : event
  | wait (sender : Int) : event
  | fork (result : Int) : event
  | kill (pid : Int) : event
  | exit (status : Int) : event

/-- Conversion to `int` (two's complement, 32 bits). -/
def to_int (x : Int) : Int :=
  (x + 2 ^ 31) % 2 ^ 32 - 2 ^ 31

/-- The globals of `child.c`. -/
structure child_state where
  clones_count : Int
  pid_pmanager : Int
  child_name : List Char
  sigterm_flag : Bool
  sigterm_sender : Int

/-- The handler `sigterm_handler`, for a signal raised by `si_pid`. -/
def sigterm_handler (si_pid : Int) (st : child_state) : child_state :=
  child_state.mk st.clones_count st.pid_pmanager st.child_name true si_pid

/-- The function `get_sigterm_sender`. -/
def get_sigterm_sender (st : child_state) : Int :=
  st.sigterm_sender

/-- The function `set_sigterm_flag`. -/
def set_sigterm_flag (flag : Bool) (st : child_state) : child_state :=
  child_state.mk st.clones_count st.pid_pmanager st.child_name flag st.sigterm_sender

/-- The function `get_sigterm_flag`. -/
def get_sigterm_flag (st : child_state) : Bool :=
  st.sigterm_flag

/-- The function `resume_process`. -/
def resume_process (pid : Int) : List event :=
  [event.send pid MSG_SUCCESS none]

/-- The function `child_set_name`. -/
def child_set_name (name : List Char) (st : child_state) : child_state :=
  child_state.mk st.clones_count st.pid_pmanager name st.sigterm_flag st.sigterm_sender

/-- What `child_terminate` meets: whether `message_send` of the `REMOVE` returned 0,
the senders of the `SIGTERM` signals handled while `message_wait` was suspended, and
the value returned by `message_wait(pid_pmanager)`. -/
structure terminate_env where
  remove_sent : Bool
  sigterm_during_wait : List Int
  response : Option message_t

/-- The function `child_terminate`: the globals afterwards and what the process did;
`none` when `response` is `NULL`, which the function dereferences. A trace that ends
in `event.exit` is the trace of a process that is gone. -/
def child_terminate (st : child_state) (env : terminate_env) :
    Option (child_state × List event) :=
  if env.remove_sent then
    match env.response with
    | none => none
    | some response =>
      if response.type = MSG_SUCCESS then
        some (env.sigterm_during_wait.foldl (fun s pid => sigterm_handler pid s) st,
          [event.send st.pid_pmanager MSG_REMOVE none, event.wait st.pid_pmanager] ++
          resume_process (get_sigterm_sender
            (env.sigterm_during_wait.foldl (fun s pid => sigterm_handler pid s) st)) ++
          [event.exit 0])
      else
        some (set_sigterm_flag false
            (env.sigterm_during_wait.foldl (fun s pid => sigterm_handler pid s) st),
          [event.send st.pid_pmanager MSG_REMOVE none, event.wait st.pid_pmanager] ++
          resume_process (get_sigterm_sender
            (env.sigterm_during_wait.foldl (fun s pid => sigterm_handler pid s) st)))
  else
    some (st, event.send st.pid_pmanager MSG_REMOVE none ::
      resume_process (get_sigterm_sender st))

/-- What `child_clone` meets: whether `asprintf` built the name, whether `message_send`
of the `INFO` probe returned 0, the value returned by the first `message_wait`, the
values returned by `fork` and `getpid`, whether `message_send` of the `ADD` returned 0,
and the value returned by the `message_wait` of `send_proc_to_pmanager`. -/
structure clone_env where
  name_built : Bool
  info_sent : Bool
  info_response : Option message_t
  fork_result : Int
  self_pid : Int
  add_sent : Bool
  add_response : Option message_t

/-- The function `send_proc_to_pmanager`: the value returned and what the process
did. -/
def send_proc_to_pmanager (st : child_state) (name : List Char) (pid ppid : Int)
    (env : clone_env) : Int × List event :=
  if env.add_sent then
    match env.add_response with
    | none =>
      (-1, [event.send st.pid_pmanager MSG_ADD
              (some (proc_node_tostr (proc_node_init pid ppid name))),
            event.wait st.pid_pmanager])
    | some response =>
      (if response.type = MSG_SUCCESS then 0 else -1,
        [event.send st.pid_pmanager MSG_ADD
           (some (proc_node_tostr (proc_node_init pid ppid name))),
         event.wait st.pid_pmanager])
  else
    (-1, [event.send st.pid_pmanager MSG_ADD
            (some (proc_node_tostr (proc_node_init pid ppid name)))])

/-- The name `child_clone` builds for the clone: `"%s_%i"` of `child_name` and
`clones_count + 1`. -/
def clone_name (st : child_state) : List Char :=
  st.child_name ++ '_' :: fmt_ld (to_int (st.clones_count + 1))

/-- The function `child_clone(sender)`: the globals afterwards and what the process
did; `none` when the response to the probe is `NULL`, which the function dereferences.
For `fork_result = 0` the result is that of the new process. -/
def child_clone (st : child_state) (sender : Int) (env : clone_env) :
    Option (child_state × List event) :=
  if !env.name_built then some (st, resume_process sender)
  else if !env.info_sent then
    some (st, event.send st.pid_pmanager MSG_INFO (some (clone_name st)) ::
      resume_process sender)
  else
    match env.info_response with
    | none => none
    | some response =>
      if response.type = MSG_INFO then
        some (st, [event.send st.pid_pmanager MSG_INFO (some (clone_name st)),
                   event.wait st.pid_pmanager] ++ resume_process sender)
      else if env.fork_result = -1 then
        some (st, [event.send st.pid_pmanager MSG_INFO (some (clone_name st)),
                   event.wait st.pid_pmanager, event.fork env.fork_result])
      else if env.fork_result = 0 then
        some (child_set_name (clone_name st)
            (child_state.mk 0 st.pid_pmanager st.child_name st.sigterm_flag st.sigterm_sender),
          [event.send st.pid_pmanager MSG_INFO (some (clone_name st)),
           event.wait st.pid_pmanager, event.fork env.fork_result])
      else if
        (send_proc_to_pmanager st (clone_name st) env.fork_result env.self_pid env).1 ≠ 0
      then
        some (st, [event.send st.pid_pmanager MSG_INFO (some (clone_name st)),
                   event.wait st.pid_pmanager, event.fork env.fork_result] ++
          (send_proc_to_pmanager st (clone_name st) env.fork_result env.self_pid env).2 ++
          [event.kill env.fork_result] ++ resume_process sender)
      else
        some (child_state.mk (to_int (st.clones_count + 1)) st.pid_pmanager st.child_name
            st.sigterm_flag st.sigterm_sender,
          [event.send st.pid_pmanager MSG_INFO (some (clone_name st)),
           event.wait st.pid_pmanager, event.fork env.fork_result] ++
          (send_proc_to_pmanager st (clone_name st) env.fork_result env.self_pid env).2 ++
          resume_process sender)

/-- What one round of the loop of `child_init` meets after `sigsuspend` has returned:
the surroundings of `child_terminate`, the values of `message_unread()` and
`message_read()`, and the surroundings of `child_clone`. -/
structure wake_env where
  term : terminate_env
  unread : Bool
  msg : Option message_t
  clone : clone_env

/-- The process is gone: its trace ends in a call of `exit`. -/
def exited (evs : List event) : Bool :=
  match evs.getLast? with
  | some (event.exit _) => true
  | _ => false

/-- One round of the `while (1)` loop of `child_init` from the return of `sigsuspend`
on (the handlers of the signals have run): `child_terminate` if the flag is set, then
the message, if any; `none` when `message_read` returns `NULL`, which the loop
dereferences. -/
def child_init_round (st : child_state) (env : wake_env) : Option (child_state × List event) :=
  match (if get_sigterm_flag st then child_terminate st env.term else some (st, [])) with
  | none => none
  | some (st1, evs) =>
    if exited evs then some (st1, evs)
    else if env.unread then
      match env.msg with
      | none => none
      | some msg =>
        if msg.type = MSG_SPAWN then
          match child_clone st1 msg.pid_sender env.clone with
          | none => none
          | some (st2, evs2) => some (st2, evs ++ evs2)
        else some (st1, evs)
    else some (st1, evs)

/-- A sequence of `SPAWN` requests handled by one process, each with the pid of its
sender and what `child_clone` meets. -/
def spawn_all : child_state → List (Int × clone_env) → Option (child_state × List event)
  | st, [] => some (st, [])
  | st, (sender, env) :: rest =>
    match child_clone st sender env with
    | none => none
    | some (st1, evs) =>
      match spawn_all st1 rest with
      | none => none
      | some (st2, evs2) => some (st2, evs ++ evs2)

/-- The supervisor answered the `ADD` of this spawn with `OK`: the process came as far
as `send_proc_to_pmanager`, and the response it waited for has the type
`MSG_SUCCESS`. -/
def add_answered_ok (env : clone_env) : Bool :=
  env.name_built && env.info_sent &&
  (match env.info_response with
   | none => false
   | some response => decide (response.type ≠ MSG_INFO)) &&
  decide (env.fork_result ≠ -1) && decide (env.fork_result ≠ 0) && env.add_sent &&
  (match env.add_response with
   | none => false
   | some response => decide (response.type = MSG_SUCCESS))

/-! ## prmall.c, ptree.c, plist.c -/

/-- The function `add_process_to_tree` of `prmall.c` and `ptree.c` on `*root`: the
first node received becomes the tree, a later one is added with `proc_node_add`, whose
result is not looked at. `none` when `*root` is not `NULL` and `proc_node_fromstr`
returns `NULL`, which `proc_node_add` dereferences. -/
def add_process_to_tree (root : Option proc_node) (proc_str : List Char) :
    Option (Option proc_node) :=
  match root with
  | none => some (proc_node_fromstr proc_str)
  | some r =>
    match proc_node_fromstr proc_str with
    | none => none
    | some new_node => some (some (proc_node_add r new_node).2)

mutual
/-- The function `kill_proc_tree` of `prmall.c` on a node that is not `NULL`:
`ppid` is the value of `getppid()` and `kill_ok pid` tells whether
`kill(pid, SIGTERM)` returns 0. -/
def kill_proc_tree (ppid : Int) (kill_ok : Int → Bool) : proc_node → List event
  | proc_node.mk p _ _ cs =>
    kill_proc_tree_loop ppid kill_ok cs ++
      (if p ≠ ppid then
        (if kill_ok p then [event.kill p, event.wait p] else [event.kill p])
       else [])
/-- The `for` loop of `kill_proc_tree` over the children. -/
def kill_proc_tree_loop (ppid : Int) (kill_ok : Int → Bool) : List proc_node → List event
  | [] => []
  | c :: cs => kill_proc_tree ppid kill_ok c ++ kill_proc_tree_loop ppid kill_ok cs
end

/-- One round of the loop `while (!list_end && !error)` of the three programs as the
process meets it: the value returned by `message_wait(getppid())` and, for the round
of an `INFO`, whether `message_send` of the acknowledgement returned 0. -/
structure round where
  response : Option message_t
  ack_sent : Bool

/-- The loop `while (!list_end && !error)` of `main` in `prmall.c` and in `ptree.c`
(the two are the same text), from the tree `proc_tree_root` on: the tree at the end,
what the process did, and how the loop ended: `some true` for `list_end`, `some false`
for `error`, `none` when `message_wait` does not return any more. The outer `none`
is the failure of `add_process_to_tree`. -/
def receive_tree (ppid : Int) :
    Option proc_node → List round → Option (Option proc_node × List event × Option Bool)
  | root, [] => some (root, [event.wait ppid], none)
  | root, r :: rs =>
    match r.response with
    | none => some (root, [event.wait ppid], some false)
    | some response =>
      if response.type = MSG_INFO then
        match add_process_to_tree root response.content with
        | none => none
        | some root1 =>
          if r.ack_sent then
            match receive_tree ppid root1 rs with
            | none => none
            | some (root2, evs, ending) =>
              some (root2, event.wait ppid :: event.send ppid MSG_SUCCESS none :: evs, ending)
          else
            some (root1, [event.wait ppid, event.send ppid MSG_SUCCESS none], some false)
      else if response.type = MSG_SUCCESS then some (root, [event.wait ppid], some true)
      else some (root, [event.wait ppid], some false)

/-- The function `main` of `prmall.c` from the request on (the FIFO is open):
`proc_name` is the argument, `list_sent` tells whether `message_send` of the `LIST`
returned 0. The result is what the process did, `none` on the failure of
`add_process_to_tree`. `EXIT_SUCCESS` is 0 and `EXIT_FAILURE` is 1. -/
def prmall_main (ppid : Int) (kill_ok : Int → Bool) (proc_name : List Char) (list_sent : Bool)
    (rounds : List round) : Option (List event) :=
  if list_sent then
    match receive_tree ppid none rounds with
    | none => none
    | some (root, evs, some true) =>
      some (event.send ppid MSG_LIST (some proc_name) :: evs ++
        (match root with
         | none => []
         | some t => kill_proc_tree ppid kill_ok t) ++ [event.exit 0])
    | some (_, evs, some false) =>
      some (event.send ppid MSG_LIST (some proc_name) :: evs ++ [event.exit 1])
    | some (_, evs, none) => some (event.send ppid MSG_LIST (some proc_name) :: evs)
  else some [event.send ppid MSG_LIST (some proc_name), event.exit 1]

/-- The byte `BCS_CBL` of `proc_tree.c`. -/
def BCS_CBL : List Char := [Char.ofNat 0x6D]
/-- The bytes `BORDER_MODE` of `proc_tree.c`. -/
def BORDER_MODE : List Char := [Char.ofNat 0x1b, '(', '0']
/-- The bytes `NORMAL_MODE` of `proc_tree.c`. -/
def NORMAL_MODE : List Char := [Char.ofNat 0x1b, '(', 'B']

mutual
/-- The function `proc_node_print_tree_rec` on a node that is not `NULL`: the bytes
written to `stdout`. -/
def proc_node_print_tree_rec : proc_node → Nat → List Char
  | proc_node.mk _ _ nm cs, depth =>
    List.replicate depth '\t' ++
      ((if depth = 0 then nm else BORDER_MODE ++ BCS_CBL ++ NORMAL_MODE ++ ' ' :: nm) ++
        print_tree_rec_loop cs (depth + 1))
/-- The `for` loop of `proc_node_print_tree_rec` over the children. -/
def print_tree_rec_loop : List proc_node → Nat → List Char
  | [], _ => []
  | c :: cs, depth => '\n' :: (proc_node_print_tree_rec c depth ++ print_tree_rec_loop cs depth)
end

/-- The function `proc_node_print_tree`: the bytes written to `stdout`; for `NULL`
only the final line feed. -/
def proc_node_print_tree (root : Option proc_node) : List Char :=
  (match root with
   | none => []
   | some r => proc_node_print_tree_rec r 0) ++ ['\n']

/-- The function `main` of `ptree.c` from the request on: the bytes written to
`stdout` and what the process did, `none` on the failure of `add_process_to_tree`. -/
def ptree_main (ppid : Int) (list_sent : Bool) (rounds : List round) :
    Option (List Char × List event) :=
  if list_sent then
    match receive_tree ppid none rounds with
    | none => none
    | some (root, evs, some true) =>
      some (proc_node_print_tree root,
        event.send ppid MSG_LIST (some "pmanager".toList) :: evs ++ [event.exit 0])
    | some (_, evs, some false) =>
      some ([], event.send ppid MSG_LIST (some "pmanager".toList) :: evs ++ [event.exit 1])
    | some (_, evs, none) =>
      some ([], event.send ppid MSG_LIST (some "pmanager".toList) :: evs)
  else some ([], [event.send ppid MSG_LIST (some "pmanager".toList), event.exit 1])

/-- Output of `printf` for a left-justified conversion of minimal width `width`
(`%-6ld`, `%-20s`) of the text `s`. -/
def ljust (width : Nat) (s : List Char) : List Char :=
  s ++ List.replicate (width - s.length) ' '

/-- The function `print_proc_entry` of `plist.c`: the rows written to `stdout`, none
when `proc_node_fromstr` returns `NULL`. -/
def print_proc_entry (proc_str : List Char) : List (List Char) :=
  match proc_node_fromstr proc_str with
  | none => []
  | some proc =>
    [ljust 6 (fmt_ld proc.pid) ++ ' ' :: (ljust 6 (fmt_ld proc.ppid) ++
      ' ' :: (ljust 20 proc.name ++ ['\n']))]

/-- The loop `while (!list_end && !error)` of `main` in `plist.c`: the rows written
to `stdout`, what the process did, and the status of `exit`, `none` when
`message_wait` does not return any more. -/
def plist_loop (ppid : Int) : List round → List (List Char) × List event × Option Int
  | [] => ([], [event.wait ppid], none)
  | r :: rs =>
    match r.response with
    | none => ([], [event.wait ppid, event.exit 1], some 1)
    | some response =>
      if response.type = MSG_INFO then
        if r.ack_sent then
          (print_proc_entry response.content ++ (plist_loop ppid rs).1,
            event.wait ppid :: event.send ppid MSG_SUCCESS none :: (plist_loop ppid rs).2.1,
            (plist_loop ppid rs).2.2)
        else
          (print_proc_entry response.content,
            [event.wait ppid, event.send ppid MSG_SUCCESS none, event.exit 1], some 1)
      else if response.type = MSG_SUCCESS then ([], [event.wait ppid, event.exit 0], some 0)
      else ([], [event.wait ppid, event.exit 1], some 1)

/-- The header row of `plist.c`: `printf("%-6s %-6s %-20s\n\n", "PID", "PPID", "NAME")`. -/
def plist_header : List Char :=
  ljust 6 "PID".toList ++ ' ' :: (ljust 6 "PPID".toList ++ ' ' ::
    (ljust 20 "NAME".toList ++ ['\n', '\n']))

/-- The function `main` of `plist.c` from the request on: what is written to `stdout`
(one entry for every call of `printf`), what the process did, and the status of
`exit`. -/
def plist_main (ppid : Int) (list_sent : Bool) (rounds : List round) :
    List (List Char) × List event × Option Int :=
  if list_sent then
    (plist_header :: (plist_loop ppid rounds).1,
      event.send ppid MSG_LIST (some "pmanager".toList) :: (plist_loop ppid rounds).2.1,
      (plist_loop ppid rounds).2.2)
  else ([], [event.send ppid MSG_LIST (some "pmanager".toList), event.exit 1], some 1)

/-! ## The two ends of a `LIST` request -/

/-- The frame a process finds for a call `message_send(pid, type, content)` made by
the process `self`, with the signal that comes with it. -/
def frame_nudge (self : Int) (type : List Char) (content : Option (List Char)) : nudge :=
  nudge.mk self (message_str self type content ++ [NUL])

/-- The frames and signals the receiver finds for the calls of `message_send` in the
trace of a handler of the supervisor `self`. -/
def frames (self : Int) : List action → List nudge
  | [] => []
  | action.send _ type content :: rest => frame_nudge self type content :: frames self rest
  | action.wait _ :: rest => frames self rest

/-- The values returned by `n` calls `message_wait(sender)` in a row, as far as they
return. -/
def wait_n (sender : Int) : Nat → bus → List nudge → List (Option message_t)
  | 0, _, _ => []
  | n + 1, b, ns =>
    match message_wait sender b ns with
    | none => []
    | some (r, ns1) => r.1 :: wait_n sender n r.2 ns1

/-- The rounds of a process whose acknowledgements are all sent. -/
def rounds_of (responses : List (Option message_t)) : List round :=
  responses.map (fun r => round.mk r true)

/-! ## Post-order, rebuilding and removal of a subtree -/

mutual
/-- The nodes of a tree in post-order: the subtrees of the children from the first
child to the last, then the node. -/
def postorder : proc_node → List proc_node
  | proc_node.mk p q nm cs => postorder_children cs ++ [proc_node.mk p q nm cs]
/-- Post-order of a sequence of sibling subtrees. -/
def postorder_children : List proc_node → List proc_node
  | [] => []
  | c :: cs => postorder c ++ postorder_children cs
end

/-- The pids `kill_proc_tree` sends `SIGTERM` to, in order. -/
def signalled : List event → List Int
  | [] => []
  | event.kill pid :: rest => pid :: signalled rest
  | _ :: rest => signalled rest

/-- The local tree after `add_process_to_tree` was called for every string of the
list, in order; `none` on a failure. -/
def rebuild : Option proc_node → List (List Char) → Option (Option proc_node)
  | root, [] => some root
  | root, s :: rest =>
    match add_process_to_tree root s with
    | none => none
    | some root1 => rebuild root1 rest

/-- The strings of the `INFO` messages in the trace of a handler. -/
def info_payloads : List action → List (List Char)
  | [] => []
  | action.send _ type (some content) :: rest =>
    if type = MSG_INFO then content :: info_payloads rest else info_payloads rest
  | _ :: rest => info_payloads rest

/-- The `REMOVE` message the process `pid` sends from `child_terminate`, as the
supervisor reads it. -/
def remove_request (pid : Int) : message_t :=
  message_t.mk pid MSG_REMOVE ['N', 'U', 'L', 'L']

/-- Every message of the sequence is answered with `OK`, each on the tree left by the
messages before it. -/
def all_replied_ok : proc_node → List message_t → Bool
  | _, [] => true
  | root, msg :: msgs =>
    replied_ok (message_handler msg root).2 && all_replied_ok (message_handler msg root).1 msgs

/-- The tree without the subtree pointed at; for the root itself, the root without
children. -/
def without_subtree (root : proc_node) : List Nat → proc_node
  | [] => set_children [] root
  | i :: r =>
    update root ((i :: r).dropLast)
      (fun m => set_children (m.children.eraseIdx ((i :: r).getLast (List.cons_ne_nil i r))) m)

/-- A name that passes through `proc_node_tostr`, a frame and `proc_node_fromstr`:
not empty, without `;`, `:` and NUL. -/
def name_ok (name : List Char) : Bool :=
  !name.isEmpty && !name.contains ';' && !name.contains ':' && !name.contains NUL

/-- A `pid_t` value, as a check. -/
def pid_ok (x : Int) : Bool :=
  decide (-(2 ^ 31) ≤ x) && decide (x < 2 ^ 31)

/-- Every node of the tree has fields that pass through a frame. -/
def tree_ok (t : proc_node) : Bool :=
  (preorder t).all (fun n => pid_ok n.pid && pid_ok n.ppid && name_ok n.name)

mutual
/-- The names of a tree in pre-order, each with its depth below the root of the tree,
which has the depth `depth`. -/
def depth_names : proc_node → Nat → List (Nat × List Char)
  | proc_node.mk _ _ nm cs, depth => (depth, nm) :: depth_names_children cs (depth + 1)
/-- The same for a sequence of sibling subtrees. -/
def depth_names_children : List proc_node → Nat → List (Nat × List Char)
  | [], _ => []
  | c :: cs, depth => depth_names c depth ++ depth_names_children cs depth
end

/-- One line of the output of `proc_node_print_tree`: as many tabs as the depth, then
the name, after the corner glyph and a blank when the depth is not 0. -/
def tree_line (entry : Nat × List Char) : List Char :=
  List.replicate entry.1 '\t' ++
    (if entry.1 = 0 then entry.2 else BORDER_MODE ++ BCS_CBL ++ NORMAL_MODE ++ ' ' :: entry.2)

/-- The row `print_proc_entry` writes for a node. -/
def plist_row (n : proc_node) : List Char :=
  ljust 6 (fmt_ld n.pid) ++ ' ' :: (ljust 6 (fmt_ld n.ppid) ++ ' ' :: (ljust 20 n.name ++ ['\n']))

/-- The tree after `proc_node_add` was called for every node of the list, in order,
whatever the calls returned. -/
def add_all (root : proc_node) (nodes : List proc_node) : proc_node :=
  nodes.foldl (fun t n => (proc_node_add t n).2) root

/-- The fields `(pid, ppid, name)` of a node pass through `proc_node_tostr` and
`proc_node_fromstr`: two `pid_t` values and a name that is not empty and has no `;`. -/
def fields_ok (f : Int × Int × List Char) : Prop :=
  (pid_t_range f.1 ∧ pid_t_range f.2.1) ∧ f.2.2 ≠ [] ∧ ';' ∉ f.2.2

/-- What the caller of a `LIST` reads when the frames of the supervisor `self` reach
it unchanged: one `INFO` for every string of the stream, then the final `OK`. -/
def list_responses (self : Int) (payloads : List (List Char)) : List (Option message_t) :=
  payloads.map (fun s => some (message_t.mk self MSG_INFO s)) ++
    [some (message_t.mk self MSG_SUCCESS ['N', 'U', 'L', 'L'])]

/-! # Lemmas and theorems -/

/-! ## Decimal output and its parsing -/

theorem digitChar_facts (d : Nat) (h : d < 10) :
    isdigit (Nat.digitChar d) = true ∧ (Nat.digitChar d).toNat - 48 = d := by
  interval_cases d <;> exact ⟨rfl, rfl⟩

theorem isdigit_not_special (c : Char) (h : isdigit c = true) :
    isspace c = false ∧ c ≠ '-' ∧ c ≠ '+' ∧ c ≠ ';' := by
  simp only [isdigit, Bool.and_eq_true, decide_eq_true_eq] at h
  refine ⟨?_, ?_, ?_, ?_⟩
  · simp only [isspace, Bool.or_eq_false_iff, decide_eq_false_iff_not, Bool.and_eq_false_imp,
      decide_eq_true_eq]
    refine ⟨?_, fun _ => by omega⟩
    rintro rfl
    revert h; decide
  all_goals (rintro rfl; revert h; decide)

/-- Digits written by `Nat.toDigitsCore` in front of the accumulator. -/
theorem toDigitsCore_spec : ∀ (fuel n : Nat) (ds : List Char), n < fuel →
    ∃ l : List Char, Nat.toDigitsCore 10 fuel n ds = l ++ ds ∧ l ≠ [] ∧
      (∀ c ∈ l, isdigit c = true) ∧
      l.foldl (fun acc c => 10 * acc + (c.toNat - 48)) 0 = n := by
  intro fuel
  induction fuel with
  | zero => intro n ds h; omega
  | succ fuel ih =>
    intro n ds h
    have hd := digitChar_facts (n % 10) (Nat.mod_lt _ (by decide))
    simp only [Nat.toDigitsCore]
    by_cases h0 : n / 10 = 0
    · refine ⟨[Nat.digitChar (n % 10)], by simp [h0], by simp, ?_, ?_⟩
      · intro c hc
        simp only [List.mem_singleton] at hc
        rw [hc]; exact hd.1
      · simp only [List.foldl_cons, List.foldl_nil, hd.2]
        omega
    · obtain ⟨l, hl, hne, hdig, hval⟩ := ih (n / 10) (Nat.digitChar (n % 10) :: ds) (by omega)
      refine ⟨l ++ [Nat.digitChar (n % 10)], by simp [h0, hl], by simp, ?_, ?_⟩
      · intro c hc
        rcases List.mem_append.1 hc with hc | hc
        · exact hdig c hc
        · simp only [List.mem_singleton] at hc
          rw [hc]; exact hd.1
      · simp only [List.foldl_append, List.foldl_cons, List.foldl_nil, hval, hd.2]
        omega

theorem toDigits_spec (n : Nat) :
    Nat.toDigits 10 n ≠ [] ∧ (∀ c ∈ Nat.toDigits 10 n, isdigit c = true) ∧
      digits_value (Nat.toDigits 10 n) = n := by
  obtain ⟨l, hl, hne, hdig, hval⟩ := toDigitsCore_spec (n + 1) n [] (by omega)
  have e : Nat.toDigits 10 n = l := by simp [Nat.toDigits, hl]
  rw [e]
  refine ⟨hne, hdig, ?_⟩
  have ht : l.takeWhile isdigit = l := List.takeWhile_eq_self_iff.2 hdig
  simp only [digits_value, ht, hval]

theorem atol_digits (l : List Char) (hne : l ≠ []) (hdig : ∀ c ∈ l, isdigit c = true) :
    atol l = clamp_long (digits_value l) := by
  cases l with
  | nil => exact absurd rfl hne
  | cons c r =>
    have hc := isdigit_not_special c (hdig c (List.mem_cons_self _ _))
    have hdrop : (c :: r).dropWhile isspace = c :: r := by
      simp [List.dropWhile_cons, hc.1]
    simp only [atol, hdrop]
    split
    · rename_i heq; exact absurd (List.cons.inj heq).1 hc.2.1
    · rename_i heq; exact absurd (List.cons.inj heq).1 hc.2.2.1
    · rfl

theorem atol_minus_digits (l : List Char) :
    atol ('-' :: l) = clamp_long (-(digits_value l : Int)) := by
  have hdrop : ('-' :: l).dropWhile isspace = '-' :: l := by
    simp [List.dropWhile_cons, isspace]
  simp only [atol, hdrop]

theorem to_pid_t_clamp_long (x : Int) (h : pid_t_range x) : to_pid_t (clamp_long x) = x := by
  obtain ⟨h1, h2⟩ := h
  have e : clamp_long x = x := by
    unfold clamp_long
    rw [if_neg (by omega), if_neg (by omega)]
  rw [e]
  unfold to_pid_t
  omega

/-- Reading back a printed `pid_t`. -/
theorem atol_fmt_ld (x : Int) (h : pid_t_range x) : to_pid_t (atol (fmt_ld x)) = x := by
  cases x with
  | ofNat n =>
    obtain ⟨hne, hdig, hval⟩ := toDigits_spec n
    simp only [fmt_ld]
    rw [atol_digits _ hne hdig, hval]
    exact to_pid_t_clamp_long _ h
  | negSucc n =>
    obtain ⟨hne, hdig, hval⟩ := toDigits_spec (n + 1)
    simp only [fmt_ld]
    rw [atol_minus_digits, hval]
    have e : (-((n + 1 : Nat) : Int)) = Int.negSucc n := by
      simp [Int.negSucc_eq]
    rw [e]
    exact to_pid_t_clamp_long _ h

theorem fmt_ld_ne_nil (x : Int) : fmt_ld x ≠ [] := by
  cases x with
  | ofNat n => exact (toDigits_spec n).1
  | negSucc n => simp [fmt_ld]

theorem fmt_ld_no_semicolon (x : Int) : ';' ∉ fmt_ld x := by
  cases x with
  | ofNat n =>
    intro hm
    exact (isdigit_not_special _ ((toDigits_spec n).2.1 _ hm)).2.2.2 rfl
  | negSucc n =>
    intro hm
    simp only [fmt_ld, List.mem_cons] at hm
    rcases hm with hm | hm
    · revert hm; decide
    · exact (isdigit_not_special _ ((toDigits_spec (n + 1)).2.1 _ hm)).2.2.2 rfl

/-! ## Tokens -/

theorem strtok_nil (d : List Char) : strtok d [] = none := rfl

/-- A delimiter-free, non-empty token followed by a delimiter. -/
theorem strtok_token_delim (d tok rest : List Char) (c : Char) (hc : c ∈ d)
    (hne : tok ≠ []) (hfree : ∀ x ∈ tok, x ∉ d) :
    strtok d (tok ++ c :: rest) = some (tok, rest) := by
  cases tok with
  | nil => exact absurd rfl hne
  | cons a t =>
    have ha : d.contains a = false := by
      simpa using hfree a (List.mem_cons_self _ _)
    have hdrop : ((a :: t) ++ c :: rest).dropWhile (fun x => d.contains x) =
        (a :: t) ++ c :: rest :=
      List.dropWhile_cons_of_neg (by show ¬ d.contains a = true; rw [ha]; decide)
    have hfree2 : ∀ x ∈ a :: t, (!d.contains x) = true := by
      intro x hx; simpa using hfree x hx
    have hcc : (!d.contains c) = false := by simpa using hc
    have htake : ((a :: t) ++ c :: rest).takeWhile (fun x => !d.contains x) = a :: t := by
      rw [List.takeWhile_append_of_pos hfree2,
        List.takeWhile_cons_of_neg (by show ¬ (!d.contains c) = true; rw [hcc]; decide)]
      exact List.append_nil _
    have hdrop2 : ((a :: t) ++ c :: rest).dropWhile (fun x => !d.contains x) = c :: rest := by
      rw [List.dropWhile_append_of_pos hfree2]
      exact List.dropWhile_cons_of_neg (by show ¬ (!d.contains c) = true; rw [hcc]; decide)
    have key : strtok d (a :: (t ++ c :: rest)) =
        some ((a :: (t ++ c :: rest)).takeWhile (fun x => !d.contains x),
          ((a :: (t ++ c :: rest)).dropWhile (fun x => !d.contains x)).tail) := by
      have hd2 : (a :: (t ++ c :: rest)).dropWhile (fun x => d.contains x) =
          a :: (t ++ c :: rest) := hdrop
      simp only [strtok, hd2]
    have e : (a :: t) ++ c :: rest = a :: (t ++ c :: rest) := rfl
    rw [e, key, ← e, htake, hdrop2]
    rfl

/-- A delimiter-free, non-empty token at the end of the input. -/
theorem strtok_token_end (d tok : List Char) (hne : tok ≠ []) (hfree : ∀ x ∈ tok, x ∉ d) :
    strtok d tok = some (tok, []) := by
  cases tok with
  | nil => exact absurd rfl hne
  | cons a t =>
    have ha : d.contains a = false := by
      simpa using hfree a (List.mem_cons_self _ _)
    have hdrop : (a :: t).dropWhile (fun x => d.contains x) = a :: t :=
      List.dropWhile_cons_of_neg (by show ¬ d.contains a = true; rw [ha]; decide)
    have hfree2 : ∀ x ∈ a :: t, (!d.contains x) = true := by
      intro x hx; simpa using hfree x hx
    have htake : (a :: t).takeWhile (fun x => !d.contains x) = a :: t :=
      List.takeWhile_eq_self_iff.2 hfree2
    have hdrop2 : (a :: t).dropWhile (fun x => !d.contains x) = [] :=
      List.dropWhile_eq_nil_iff.2 hfree2
    simp only [strtok, hdrop, htake, hdrop2, List.tail_nil]

/-- Three delimiter-free, non-empty fields joined by one delimiter each. -/
theorem tokenize_three (d a b c : List Char) (s : Char) (hs : s ∈ d)
    (ha : a ≠ []) (hb : b ≠ []) (hc : c ≠ [])
    (fa : ∀ x ∈ a, x ∉ d) (fb : ∀ x ∈ b, x ∉ d) (fc : ∀ x ∈ c, x ∉ d) :
    tokenize (a ++ s :: (b ++ s :: c)) d = [a, b, c] := by
  have hlen : ∃ k, (a ++ s :: (b ++ s :: c)).length + 1 = k + 4 := by
    refine ⟨(a ++ s :: (b ++ s :: c)).length - 3, ?_⟩
    have h1 := List.length_pos.2 ha
    simp only [List.length_append, List.length_cons]
    omega
  obtain ⟨k, hk⟩ := hlen
  unfold tokenize
  rw [hk]
  simp only [tokenize_loop, strtok_token_delim d a _ s hs ha fa,
    strtok_token_delim d b _ s hs hb fb, strtok_token_end d c hc fc, strtok_nil]
/-! ## Induction on trees, pointers -/

theorem proc_node_induction {P : proc_node → Prop}
    (h : ∀ p q nm cs, (∀ c ∈ cs, P c) → P (proc_node.mk p q nm cs)) : ∀ t, P t := by
  intro t
  refine @proc_node.rec P (fun cs => ∀ c ∈ cs, P c)
    (fun p q nm cs ih => h p q nm cs ih) ?_ ?_ t
  · intro c hc
    cases hc
  · intro c cs ihc ihcs x hx
    rcases List.mem_cons.1 hx with e | hx
    · rw [e]; exact ihc
    · exact ihcs x hx

theorem proc_node_eta (t : proc_node) :
    proc_node.mk t.pid t.ppid t.name t.children = t := by
  cases t; rfl

theorem preorder_eq (t : proc_node) : preorder t = t :: preorder_children t.children := by
  cases t; rfl

theorem preorder_children_eq (cs : List proc_node) :
    preorder_children cs = cs.flatMap preorder := by
  induction cs with
  | nil => rfl
  | cons c cs ih => simp only [preorder_children, ih, List.flatMap_cons]

theorem deref_nil (t : proc_node) : deref t [] = some t := by
  cases t; rfl

theorem deref_cons (t : proc_node) (i : Nat) (r : List Nat) :
    deref t (i :: r) = (t.children[i]?).bind (fun c => deref c r) := by
  cases t with
  | mk p q nm cs =>
    simp only [deref, proc_node.children]
    cases cs[i]? <;> rfl

theorem deref_append (t : proc_node) (p s : List Nat) :
    deref t (p ++ s) = (deref t p).bind (fun n => deref n s) := by
  induction p generalizing t with
  | nil => simp [deref_nil]
  | cons i r ih =>
    simp only [List.cons_append, deref_cons]
    cases t.children[i]? with
    | none => rfl
    | some c => simp only [Option.some_bind, Option.bind_eq_bind, ih]

theorem update_nil (t : proc_node) (f : proc_node → proc_node) : update t [] f = f t := by
  cases t; rfl

theorem update_cons_some (t : proc_node) (i : Nat) (r : List Nat) (f : proc_node → proc_node)
    (c : proc_node) (h : t.children[i]? = some c) :
    update t (i :: r) f = set_children (t.children.set i (update c r f)) t := by
  cases t with
  | mk p q nm cs =>
    simp only [proc_node.children] at h
    simp only [update, h, set_children, proc_node.children, proc_node.pid, proc_node.ppid,
      proc_node.name]

theorem update_cons_none (t : proc_node) (i : Nat) (r : List Nat) (f : proc_node → proc_node)
    (h : t.children[i]? = none) : update t (i :: r) f = t := by
  cases t with
  | mk p q nm cs =>
    simp only [proc_node.children] at h
    simp only [update, h]

theorem update_of_deref_none (t : proc_node) (p : List Nat) (f : proc_node → proc_node)
    (h : deref t p = none) : update t p f = t := by
  induction p generalizing t with
  | nil => simp [deref_nil] at h
  | cons i r ih =>
    rw [deref_cons] at h
    cases hc : t.children[i]? with
    | none => exact update_cons_none t i r f hc
    | some c =>
      rw [hc] at h
      have hcr : deref c r = none := by simpa using h
      rw [update_cons_some t i r f c hc, ih c hcr]
      have hi : i < t.children.length := (List.getElem?_eq_some.1 hc).1
      have : t.children.set i c = t.children := by
        apply List.ext_getElem?
        intro j
        by_cases hj : i = j
        · subst hj; simp [List.getElem?_set, hi, hc]
        · simp [List.getElem?_set, hj]
      rw [this]
      cases t; rfl

@[simp] theorem set_children_fields (cs : List proc_node) (n : proc_node) :
    (set_children cs n).pid = n.pid ∧ (set_children cs n).ppid = n.ppid ∧
    (set_children cs n).name = n.name ∧ (set_children cs n).children = cs :=
  ⟨rfl, rfl, rfl, rfl⟩

/-- Reading below the pointer that was written through. -/
theorem deref_update_append (t : proc_node) (p s : List Nat) (f : proc_node → proc_node)
    (n : proc_node) (h : deref t p = some n) :
    deref (update t p f) (p ++ s) = deref (f n) s := by
  induction p generalizing t with
  | nil =>
    rw [deref_nil] at h
    cases h
    simp [update_nil]
  | cons i r ih =>
    rw [deref_cons] at h
    cases hc : t.children[i]? with
    | none => rw [hc] at h; cases h
    | some c =>
      rw [hc] at h
      have hcr : deref c r = some n := by simpa using h
      have hi : i < t.children.length := (List.getElem?_eq_some.1 hc).1
      rw [update_cons_some t i r f c hc, List.cons_append, deref_cons]
      simp only [set_children_fields, List.getElem?_set, hi, if_true, Option.some_bind,
        Option.bind_eq_bind]
      simpa using ih c hcr

theorem deref_update_same (t : proc_node) (p : List Nat) (f : proc_node → proc_node)
    (n : proc_node) (h : deref t p = some n) : deref (update t p f) p = some (f n) := by
  have := deref_update_append t p [] f n h
  simpa [deref_nil] using this

/-- Reading at a pointer that does not pass through the pointer written through: the
fields stored in the node are unchanged. -/
theorem deref_update_other (t : proc_node) (p r : List Nat) (f : proc_node → proc_node)
    (h : ¬ p <+: r) :
    (deref (update t p f) r).map node_fields = (deref t r).map node_fields := by
  induction r generalizing t p with
  | nil =>
    cases p with
    | nil => exact absurd (List.prefix_refl _) h
    | cons i p1 =>
      simp only [deref_nil, Option.map_some']
      cases hc : t.children[i]? with
      | none => rw [update_cons_none t i p1 f hc]
      | some c =>
        rw [update_cons_some t i p1 f c hc]
        simp [node_fields]
  | cons j r1 ih =>
    cases p with
    | nil => exact absurd (List.nil_prefix) h
    | cons i p1 =>
      cases hc : t.children[i]? with
      | none => rw [update_cons_none t i p1 f hc]
      | some c =>
        have hi : i < t.children.length := (List.getElem?_eq_some.1 hc).1
        rw [update_cons_some t i p1 f c hc, deref_cons, deref_cons]
        by_cases hij : i = j
        · subst hij
          have hp : ¬ p1 <+: r1 := fun hp => h ((List.prefix_cons_inj i).2 hp)
          simp only [set_children_fields, List.getElem?_set, hi, if_true, hc, Option.some_bind,
            Option.bind_eq_bind]
          simpa using ih c p1 hp
        · simp only [set_children_fields, List.getElem?_set, hij, if_false]
/-! ## Search -/

theorem find_first_eq (P : proc_node → Bool) (t : proc_node) :
    find_first P t = if P t then some [] else find_first_loop P t.children 0 := by
  cases t; rfl

theorem find_by_pid_loop_eq (pid : Int) (cs : List proc_node)
    (h : ∀ c ∈ cs, proc_node_find_by_pid c pid = find_first (fun n => decide (n.pid = pid)) c) :
    ∀ i, find_by_pid_loop cs i pid = find_first_loop (fun n => decide (n.pid = pid)) cs i := by
  induction cs with
  | nil => intro i; rfl
  | cons c cs ih =>
    intro i
    simp only [find_by_pid_loop, find_first_loop, h c (List.mem_cons_self _ _),
      ih (fun x hx => h x (List.mem_cons_of_mem _ hx))]

theorem find_by_pid_eq (pid : Int) :
    ∀ t, proc_node_find_by_pid t pid = find_first (fun n => decide (n.pid = pid)) t := by
  apply proc_node_induction
  intro p q nm cs ih
  simp only [proc_node_find_by_pid, find_first, find_by_pid_loop_eq pid cs ih 0, proc_node.pid,
    decide_eq_true_eq]

theorem find_by_name_loop_eq (name : List Char) (cs : List proc_node)
    (h : ∀ c ∈ cs,
      proc_node_find_by_name c name = find_first (fun n => decide (n.name = name)) c) :
    ∀ i, find_by_name_loop cs i name =
      find_first_loop (fun n => decide (n.name = name)) cs i := by
  induction cs with
  | nil => intro i; rfl
  | cons c cs ih =>
    intro i
    simp only [find_by_name_loop, find_first_loop, h c (List.mem_cons_self _ _),
      ih (fun x hx => h x (List.mem_cons_of_mem _ hx))]

theorem find_by_name_eq (name : List Char) :
    ∀ t, proc_node_find_by_name t name = find_first (fun n => decide (n.name = name)) t := by
  apply proc_node_induction
  intro p q nm cs ih
  simp only [proc_node_find_by_name, find_first, find_by_name_loop_eq name cs ih 0,
    proc_node.name, decide_eq_true_eq]

/-- The loop stops at the first child in which the search succeeds. -/
theorem find_first_loop_some (P : proc_node → Bool) (cs : List proc_node) :
    ∀ (i : Nat) (p : List Nat), find_first_loop P cs i = some p →
      ∃ j c r, cs[j]? = some c ∧ find_first P c = some r ∧ p = (i + j) :: r ∧
        ∀ j1 c1, j1 < j → cs[j1]? = some c1 → find_first P c1 = none := by
  induction cs with
  | nil => intro i p h; cases h
  | cons c cs ih =>
    intro i p h
    simp only [find_first_loop] at h
    cases hc : find_first P c with
    | some r =>
      rw [hc] at h
      refine ⟨0, c, r, List.getElem?_cons_zero, hc, ?_, ?_⟩
      · simpa using (Option.some.inj h).symm
      · intro j1 c1 hj; omega
    | none =>
      rw [hc] at h
      obtain ⟨j, c2, r, h1, h2, h3, h4⟩ := ih (i + 1) p h
      refine ⟨j + 1, c2, r, by simpa using h1, h2, by rw [h3]; congr 1; omega, ?_⟩
      intro j1 c1 hj hj1
      cases j1 with
      | zero =>
        simp only [List.getElem?_cons_zero, Option.some.injEq] at hj1
        rw [← hj1]; exact hc
      | succ j2 =>
        exact h4 j2 c1 (by omega) (by simpa using hj1)

theorem find_first_loop_none (P : proc_node → Bool) (cs : List proc_node) :
    ∀ (i : Nat), find_first_loop P cs i = none ↔ ∀ c ∈ cs, find_first P c = none := by
  induction cs with
  | nil => intro i; simp [find_first_loop]
  | cons c cs ih =>
    intro i
    simp only [find_first_loop, List.mem_cons, forall_eq_or_imp]
    cases hc : find_first P c with
    | some r => simp
    | none => simpa using ih (i + 1)

/-- The pointer returned points at a node that satisfies the predicate. -/
theorem find_first_deref (P : proc_node → Bool) :
    ∀ t p, find_first P t = some p → ∃ n, deref t p = some n ∧ P n = true := by
  apply proc_node_induction
  intro pd q nm cs ih p h
  rw [find_first_eq] at h
  by_cases hP : P (proc_node.mk pd q nm cs) = true
  · rw [if_pos hP] at h
    cases h
    exact ⟨_, deref_nil _, hP⟩
  · rw [if_neg hP] at h
    obtain ⟨j, c, r, h1, h2, h3, -⟩ := find_first_loop_some P _ 0 p h
    simp only [proc_node.children] at h1
    obtain ⟨n, hn, hPn⟩ := ih c (List.getElem?_mem h1) r h2
    refine ⟨n, ?_, hPn⟩
    rw [h3, deref_cons]
    simp only [Nat.zero_add, proc_node.children, h1, Option.some_bind, Option.bind_eq_bind, hn]

/-- The search fails exactly when no node satisfies the predicate. -/
theorem find_first_none (P : proc_node → Bool) :
    ∀ t, find_first P t = none ↔ ∀ r n, deref t r = some n → P n = false := by
  apply proc_node_induction
  intro pd q nm cs ih
  rw [find_first_eq]
  constructor
  · intro h r n hr
    by_cases hP : P (proc_node.mk pd q nm cs) = true
    · rw [if_pos hP] at h; cases h
    · rw [if_neg hP] at h
      cases r with
      | nil =>
        rw [deref_nil] at hr
        cases hr
        simpa using hP
      | cons i r1 =>
        rw [deref_cons] at hr
        simp only [proc_node.children] at hr h
        cases hc : cs[i]? with
        | none => rw [hc] at hr; cases hr
        | some c =>
          rw [hc] at hr
          have hm : c ∈ cs := List.getElem?_mem hc
          exact (ih c hm).1 ((find_first_loop_none P cs 0).1 h c hm) r1 n (by simpa using hr)
  · intro h
    have hP : ¬ P (proc_node.mk pd q nm cs) = true := by
      simpa using h [] _ (deref_nil _)
    rw [if_neg hP]
    simp only [proc_node.children]
    refine (find_first_loop_none P cs 0).2 (fun c hc => (ih c hc).2 (fun r n hr => ?_))
    obtain ⟨i, hi, hci⟩ := List.getElem_of_mem hc
    refine h (i :: r) n ?_
    rw [deref_cons]
    simp only [proc_node.children, List.getElem?_eq_getElem hi, hci, Option.some_bind,
      Option.bind_eq_bind, hr]

theorem find_first_isSome (P : proc_node → Bool) (t : proc_node) :
    (∃ p, find_first P t = some p) ↔ ∃ r n, deref t r = some n ∧ P n = true := by
  constructor
  · rintro ⟨p, hp⟩
    obtain ⟨n, hn, hPn⟩ := find_first_deref P t p hp
    exact ⟨p, n, hn, hPn⟩
  · rintro ⟨r, n, hr, hPn⟩
    cases h : find_first P t with
    | some p => exact ⟨p, rfl⟩
    | none =>
      have := (find_first_none P t).1 h r n hr
      rw [this] at hPn; cases hPn
/-! ## Search and pre-order -/

theorem preorder_children_find (P : proc_node → Bool) (cs : List proc_node) :
    ∀ (j : Nat) (c n : proc_node), cs[j]? = some c →
      (∀ j1 c1, j1 < j → cs[j1]? = some c1 → (preorder c1).find? P = none) →
      (preorder c).find? P = some n → (preorder_children cs).find? P = some n := by
  induction cs with
  | nil => intro j c n h; cases h
  | cons a cs ih =>
    intro j c n hj hnone hc
    simp only [preorder_children, List.find?_append]
    cases j with
    | zero =>
      simp only [List.getElem?_cons_zero, Option.some.injEq] at hj
      rw [hj, hc]; rfl
    | succ j2 =>
      rw [hnone 0 a (by omega) List.getElem?_cons_zero]
      show (preorder_children cs).find? P = some n
      exact ih j2 c n (by simpa using hj)
        (fun j1 c1 h1 h2 => hnone (j1 + 1) c1 (by omega) (by simpa using h2)) hc

theorem preorder_children_find_none (P : proc_node → Bool) (cs : List proc_node)
    (h : ∀ c ∈ cs, (preorder c).find? P = none) : (preorder_children cs).find? P = none := by
  induction cs with
  | nil => rfl
  | cons a cs ih =>
    simp only [preorder_children, List.find?_append, h a (List.mem_cons_self _ _)]
    show (preorder_children cs).find? P = none
    exact ih (fun c hc => h c (List.mem_cons_of_mem _ hc))

/-- The node found is the first node of the pre-order traversal that satisfies the
predicate. -/
theorem find_first_preorder (P : proc_node → Bool) :
    ∀ t, (find_first P t).bind (deref t) = (preorder t).find? P := by
  apply proc_node_induction
  intro pd q nm cs ih
  rw [find_first_eq, preorder_eq]
  by_cases hP : P (proc_node.mk pd q nm cs) = true
  · rw [if_pos hP, List.find?_cons_of_pos _ hP]
    simp [deref_nil]
  · rw [if_neg hP, List.find?_cons_of_neg _ hP]
    simp only [proc_node.children]
    cases hl : find_first_loop P cs 0 with
    | none =>
      have hn := (find_first_loop_none P cs 0).1 hl
      rw [preorder_children_find_none P cs (fun c hc => by rw [← ih c hc, hn c hc]; rfl)]
      rfl
    | some p =>
      obtain ⟨j, c, r, h1, h2, h3, h4⟩ := find_first_loop_some P cs 0 p hl
      obtain ⟨n, hn, -⟩ := find_first_deref P c r h2
      have hc : (preorder c).find? P = some n := by
        rw [← ih c (List.getElem?_mem h1), h2]; exact hn
      rw [preorder_children_find P cs j c n h1 ?_ hc]
      · rw [h3]
        simp only [Option.some_bind, Option.bind_eq_bind, Nat.zero_add, deref_cons,
          proc_node.children, h1, hn]
      · intro j1 c1 hj hc1
        rw [← ih c1 (List.getElem?_mem hc1), h4 j1 c1 hj hc1]; rfl

/-- The nodes of the pre-order traversal are the nodes pointers point at. -/
theorem mem_preorder :
    ∀ t n, n ∈ preorder t ↔ ∃ r, deref t r = some n := by
  apply proc_node_induction
  intro pd q nm cs ih n
  rw [preorder_eq]
  simp only [proc_node.children, List.mem_cons, preorder_children_eq, List.mem_flatMap]
  constructor
  · rintro (h | ⟨c, hc, hn⟩)
    · exact ⟨[], by rw [h, deref_nil]⟩
    · obtain ⟨r, hr⟩ := (ih c hc n).1 hn
      obtain ⟨i, hi⟩ := List.getElem?_of_mem hc
      refine ⟨i :: r, ?_⟩
      rw [deref_cons]
      simp only [proc_node.children, hi, Option.some_bind, Option.bind_eq_bind, hr]
  · rintro ⟨r, hr⟩
    cases r with
    | nil =>
      rw [deref_nil] at hr
      exact Or.inl (Option.some.inj hr).symm
    | cons i r1 =>
      rw [deref_cons] at hr
      simp only [proc_node.children] at hr
      cases hc : cs[i]? with
      | none => rw [hc] at hr; cases hr
      | some c =>
        rw [hc] at hr
        exact Or.inr ⟨c, List.getElem?_mem hc,
          (ih c (List.getElem?_mem hc) n).2 ⟨r1, by simpa using hr⟩⟩
/-! ## The loop of `tokenize` terminates within its bound -/

theorem strtok_rest_length (d s tok rest : List Char) (h : strtok d s = some (tok, rest)) :
    rest.length < s.length := by
  unfold strtok at h
  split at h
  · cases h
  · rename_i c r heq
    simp only [Option.some.injEq, Prod.mk.injEq] at h
    have h1 : (c :: r).length ≤ s.length := by
      rw [← heq]; exact (List.dropWhile_sublist _).length_le
    have h2 : ((c :: r).dropWhile (fun c => !d.contains c)).length ≤ (c :: r).length :=
      (List.dropWhile_sublist _).length_le
    rw [← h.2, List.length_tail]
    simp only [List.length_cons] at h1 h2
    omega

/-- More rounds than `strlen(str) + 1` never change the tokens found: the loop has
left through `current_token == NULL` before the bound is reached. -/
theorem tokenize_loop_fuel (d : List Char) :
    ∀ (f1 f2 : Nat) (s : List Char), s.length < f1 → s.length < f2 →
      tokenize_loop d f1 s = tokenize_loop d f2 s := by
  intro f1
  induction f1 with
  | zero => intro f2 s h; omega
  | succ f1 ih =>
    intro f2 s h1 h2
    cases f2 with
    | zero => omega
    | succ f2 =>
      simp only [tokenize_loop]
      cases hs : strtok d s with
      | none => rfl
      | some tr =>
        obtain ⟨tok, rest⟩ := tr
        have := strtok_rest_length d s tok rest hs
        simp only
        rw [ih f2 rest (by omega) (by omega)]

/-! ## C1 -/

theorem fromstr_tostr (n : proc_node) (hpid : pid_t_range n.pid) (hppid : pid_t_range n.ppid)
    (hne : n.name ≠ []) (hsemi : ';' ∉ n.name) :
    proc_node_fromstr (proc_node_tostr n) = some (proc_node_init n.pid n.ppid n.name) := by
  have hfree : ∀ (l : List Char), ';' ∉ l → ∀ x ∈ l, x ∉ [';'] := by
    intro l hl x hx hx2
    simp only [List.mem_singleton] at hx2
    rw [hx2] at hx
    exact hl hx
  have ht : tokenize (proc_node_tostr n) [';'] = [fmt_ld n.pid, fmt_ld n.ppid, n.name] :=
    tokenize_three [';'] (fmt_ld n.pid) (fmt_ld n.ppid) n.name ';' (List.mem_singleton_self _)
      (fmt_ld_ne_nil _) (fmt_ld_ne_nil _) hne (hfree _ (fmt_ld_no_semicolon _))
      (hfree _ (fmt_ld_no_semicolon _)) (hfree _ hsemi)
  unfold proc_node_fromstr
  rw [ht]
  simp only [atol_fmt_ld _ hpid, atol_fmt_ld _ hppid]

/-- C1 (as amended): for every node whose pid and ppid are values of `pid_t` and whose
name is non-empty and contains no `;`, `proc_node_fromstr` applied to the string
produced by `proc_node_tostr` returns a node with the same pid, the same ppid and the
same name (and no children). -/
theorem C1_fromstr_tostr_roundtrip (n : proc_node) (hpid : pid_t_range n.pid)
    (hppid : pid_t_range n.ppid) (hne : n.name ≠ []) (hsemi : ';' ∉ n.name) :
    ∃ m, proc_node_fromstr (proc_node_tostr n) = some m ∧
      m.pid = n.pid ∧ m.ppid = n.ppid ∧ m.name = n.name ∧ m.children = [] :=
  ⟨_, fromstr_tostr n hpid hppid hne hsemi, rfl, rfl, rfl, rfl⟩

/-- C1, witness: the node `(2, 1, "a")` with one child. -/
theorem C1_fromstr_tostr_roundtrip_witness :
    (pid_t_range 2 ∧ pid_t_range 1 ∧ ['a'] ≠ [] ∧ ';' ∉ ['a']) ∧
    ∃ m, proc_node_fromstr
        (proc_node_tostr (proc_node.mk 2 1 ['a'] [proc_node.mk 3 2 ['b'] []])) = some m ∧
      m.pid = 2 ∧ m.ppid = 1 ∧ m.name = ['a'] ∧ m.children = [] :=
  ⟨⟨⟨by decide, by decide⟩, ⟨by decide, by decide⟩, by decide, by decide⟩,
    C1_fromstr_tostr_roundtrip (proc_node.mk 2 1 ['a'] [proc_node.mk 3 2 ['b'] []])
      ⟨by decide, by decide⟩ ⟨by decide, by decide⟩ (by decide) (by decide)⟩

/-- C1, counterexample: the node with pid 2, ppid 1 and name `a;b` is printed as
`2;1;a;b`, which has four tokens, and `proc_node_fromstr` returns `NULL`. -/
theorem C1_counterexample :
    proc_node_tostr (proc_node.mk 2 1 ['a', ';', 'b'] []) = ['2', ';', '1', ';', 'a', ';', 'b'] ∧
    proc_node_fromstr (proc_node_tostr (proc_node.mk 2 1 ['a', ';', 'b'] [])) = none :=
  ⟨rfl, rfl⟩
/-! ## C6 -/

/-- C6: `proc_node_find_by_pid` (respectively `proc_node_find_by_name`) returns the
first node of the pre-order traversal of the tree whose pid (respectively name) equals
the key, and returns `NULL` exactly when no node of the tree matches. -/
theorem C6_find_returns_first_in_preorder (root : proc_node) (pid : Int) (name : List Char) :
    ((proc_node_find_by_pid root pid).bind (deref root) =
        (preorder root).find? (fun n => decide (n.pid = pid))) ∧
    (proc_node_find_by_pid root pid = none ↔ ∀ n ∈ preorder root, n.pid ≠ pid) ∧
    ((proc_node_find_by_name root name).bind (deref root) =
        (preorder root).find? (fun n => decide (n.name = name))) ∧
    (proc_node_find_by_name root name = none ↔ ∀ n ∈ preorder root, n.name ≠ name) := by
  refine ⟨?_, ?_, ?_, ?_⟩
  · rw [find_by_pid_eq]; exact find_first_preorder _ root
  · rw [find_by_pid_eq, find_first_none]
    simp only [decide_eq_false_iff_not, mem_preorder]
    exact ⟨fun h n ⟨r, hr⟩ => h r n hr, fun h r n hr => h n ⟨r, hr⟩⟩
  · rw [find_by_name_eq]; exact find_first_preorder _ root
  · rw [find_by_name_eq, find_first_none]
    simp only [decide_eq_false_iff_not, mem_preorder]
    exact ⟨fun h n ⟨r, hr⟩ => h r n hr, fun h r n hr => h n ⟨r, hr⟩⟩

/-! ## C7 -/

theorem get_array_rec_loop_spec (cs : List proc_node)
    (h : ∀ c ∈ cs, ∀ st : List proc_node × Nat × Nat,
      (proc_node_get_array_rec c st).1 = st.1 ++ (preorder c).map childless_copy ∧
      (proc_node_get_array_rec c st).2.2 = st.2.2 + node_count c) :
    ∀ st : List proc_node × Nat × Nat,
      (get_array_rec_loop cs st).1 = st.1 ++ (preorder_children cs).map childless_copy ∧
      (get_array_rec_loop cs st).2.2 = st.2.2 + node_count_children cs := by
  induction cs with
  | nil => intro st; simp [get_array_rec_loop, preorder_children, node_count_children]
  | cons c cs ih =>
    intro st
    have hc := h c (List.mem_cons_self _ _) st
    have hcs := ih (fun x hx => h x (List.mem_cons_of_mem _ hx)) (proc_node_get_array_rec c st)
    simp only [get_array_rec_loop, preorder_children, node_count_children, List.map_append]
    rw [hcs.1, hcs.2, hc.1, hc.2]
    exact ⟨by rw [List.append_assoc], by omega⟩

theorem get_array_rec_spec :
    ∀ (t : proc_node) (st : List proc_node × Nat × Nat),
      (proc_node_get_array_rec t st).1 = st.1 ++ (preorder t).map childless_copy ∧
      (proc_node_get_array_rec t st).2.2 = st.2.2 + node_count t := by
  apply proc_node_induction
  intro p q nm cs ih st
  obtain ⟨array, size, count⟩ := st
  have hl := get_array_rec_loop_spec cs ih
  simp only [proc_node_get_array_rec, preorder, node_count, List.map_cons]
  refine ⟨?_, ?_⟩
  · rw [(hl _).1]
    simp [childless_copy, proc_node.pid, proc_node.ppid, proc_node.name]
  · rw [(hl _).2]
    simp only
    omega

theorem node_count_eq_length :
    ∀ t, node_count t = (preorder t).length := by
  apply proc_node_induction
  intro p q nm cs ih
  have : node_count_children cs = (preorder_children cs).length := by
    induction cs with
    | nil => rfl
    | cons c cs ih2 =>
      simp only [node_count_children, preorder_children, List.length_append]
      rw [ih c (List.mem_cons_self _ _), ih2 (fun x hx => ih x (List.mem_cons_of_mem _ hx))]
  simp only [node_count, preorder, this, List.length_cons]
  omega

/-- C7: `proc_node_get_array(start)` returns the nodes of the subtree rooted at `start`
in pre-order, each node once, as childless copies carrying the same pid, ppid and
name; the returned count is the number of nodes of the subtree (and the number of
entries of the array). -/
theorem C7_get_array_preorder_copies (start : proc_node) :
    (proc_node_get_array start).1 = (preorder start).map childless_copy ∧
    (proc_node_get_array start).2 = node_count start ∧
    (proc_node_get_array start).2 = (proc_node_get_array start).1.length ∧
    (∀ (i : Nat) (n : proc_node), (preorder start)[i]? = some n →
      ∃ m : proc_node, (proc_node_get_array start).1[i]? = some m ∧
        m.pid = n.pid ∧ m.ppid = n.ppid ∧ m.name = n.name ∧ m.children = []) := by
  have h := get_array_rec_spec start ([], 0, 0)
  have h1 : (proc_node_get_array start).1 = (preorder start).map childless_copy := by
    simpa [proc_node_get_array] using h.1
  have h2 : (proc_node_get_array start).2 = node_count start := by
    simpa [proc_node_get_array] using h.2
  refine ⟨h1, h2, ?_, ?_⟩
  · rw [h2, h1, List.length_map, node_count_eq_length]
  · intro i n hi
    refine ⟨childless_copy n, ?_, rfl, rfl, rfl, rfl⟩
    rw [h1, List.getElem?_map, hi]
    rfl
/-! ## C3, C4: `proc_node_add` -/

theorem find_by_pid_deref (root : proc_node) (pid : Int) (ptr : List Nat)
    (h : proc_node_find_by_pid root pid = some ptr) :
    ∃ n, deref root ptr = some n ∧ n.pid = pid := by
  rw [find_by_pid_eq] at h
  obtain ⟨n, hn, hP⟩ := find_first_deref _ root ptr h
  exact ⟨n, hn, by simpa using hP⟩

theorem find_by_pid_none (root : proc_node) (pid : Int) :
    proc_node_find_by_pid root pid = none ↔ ∀ n ∈ preorder root, n.pid ≠ pid := by
  rw [find_by_pid_eq, find_first_none]
  simp only [decide_eq_false_iff_not, mem_preorder]
  exact ⟨fun h n ⟨r, hr⟩ => h r n hr, fun h r n hr => h n ⟨r, hr⟩⟩

theorem add_none (root node : proc_node) (h : proc_node_find_by_pid root node.ppid = none) :
    proc_node_add root node = (-1, root) := by
  simp only [proc_node_add, h]

theorem add_some (root node : proc_node) (ptr : List Nat)
    (h : proc_node_find_by_pid root node.ppid = some ptr) :
    proc_node_add root node = (0, update root ptr (fun p =>
      set_children (p.children ++ [proc_node_init node.pid node.ppid node.name]) p)) := by
  simp only [proc_node_add, h]

/-- C3: `proc_node_add(root, node)` returns -1 and leaves the tree unchanged when no
node of the tree has pid equal to `node.ppid`; otherwise it returns 0, the new node
(carrying the pid, ppid and name of `node`) is the last child of the node found by
`proc_node_find_by_pid(root, node.ppid)`, the existing children of that parent keep
their order, and every other node of the tree keeps its fields. -/
theorem C3_add_appends_last_child (root node : proc_node) :
    ((∀ n ∈ preorder root, n.pid ≠ node.ppid) → proc_node_add root node = (-1, root)) ∧
    ((∃ n ∈ preorder root, n.pid = node.ppid) →
      ∃ ptr parent, proc_node_find_by_pid root node.ppid = some ptr ∧
        deref root ptr = some parent ∧
        (proc_node_add root node).1 = 0 ∧
        deref (proc_node_add root node).2 ptr =
          some (proc_node.mk parent.pid parent.ppid parent.name
            (parent.children ++ [proc_node_init node.pid node.ppid node.name])) ∧
        ∀ r, ¬ ptr <+: r →
          (deref (proc_node_add root node).2 r).map node_fields =
            (deref root r).map node_fields) := by
  constructor
  · intro h
    exact add_none root node ((find_by_pid_none root node.ppid).2 h)
  · rintro ⟨n, hn, hpid⟩
    cases hf : proc_node_find_by_pid root node.ppid with
    | none => exact absurd hpid ((find_by_pid_none root node.ppid).1 hf n hn)
    | some ptr =>
      obtain ⟨parent, hparent, -⟩ := find_by_pid_deref root node.ppid ptr hf
      refine ⟨ptr, parent, rfl, hparent, ?_, ?_, ?_⟩
      · rw [add_some root node ptr hf]
      · rw [add_some root node ptr hf]
        exact deref_update_same root ptr _ parent hparent
      · intro r hr
        rw [add_some root node ptr hf]
        exact deref_update_other root ptr r _ hr

/-- C3, both cases at concrete inputs: adding under pid 9 to the root-only tree with
pid 1 fails, adding `(3, 1, "b")` to the tree `1 → 2` appends a second child. -/
theorem C3_add_appends_last_child_witness :
    proc_node_add (proc_node.mk 1 0 ['p'] []) (proc_node.mk 2 9 ['a'] []) =
      (-1, proc_node.mk 1 0 ['p'] []) ∧
    ∃ ptr parent,
      proc_node_find_by_pid (proc_node.mk 1 0 ['p'] [proc_node.mk 2 1 ['a'] []]) 1 = some ptr ∧
      deref (proc_node.mk 1 0 ['p'] [proc_node.mk 2 1 ['a'] []]) ptr = some parent ∧
      (proc_node_add (proc_node.mk 1 0 ['p'] [proc_node.mk 2 1 ['a'] []])
        (proc_node.mk 3 1 ['b'] [])).1 = 0 ∧
      deref (proc_node_add (proc_node.mk 1 0 ['p'] [proc_node.mk 2 1 ['a'] []])
        (proc_node.mk 3 1 ['b'] [])).2 ptr =
        some (proc_node.mk parent.pid parent.ppid parent.name
          (parent.children ++ [proc_node_init 3 1 ['b']])) :=
  ⟨(C3_add_appends_last_child (proc_node.mk 1 0 ['p'] []) (proc_node.mk 2 9 ['a'] [])).1
      (by decide),
    by
      obtain ⟨ptr, parent, h1, h2, h3, h4, -⟩ :=
        (C3_add_appends_last_child (proc_node.mk 1 0 ['p'] [proc_node.mk 2 1 ['a'] []])
          (proc_node.mk 3 1 ['b'] [])).2 ⟨_, List.mem_cons_self _ _, rfl⟩
      exact ⟨ptr, parent, h1, h2, h3, h4⟩⟩

/-- C4 (as amended): after a successful `proc_node_add(root, node)` the child appended
to the parent is a new node made by `proc_node_init`: it carries the pid, ppid and
name of `node` and has no children; it is a copy of `node` when `node` has no
children. -/
theorem C4_add_appends_childless_copy (root node : proc_node)
    (h : (proc_node_add root node).1 = 0) :
    ∃ ptr parent child, proc_node_find_by_pid root node.ppid = some ptr ∧
      deref root ptr = some parent ∧
      deref (proc_node_add root node).2 (ptr ++ [parent.children.length]) = some child ∧
      child.pid = node.pid ∧ child.ppid = node.ppid ∧ child.name = node.name ∧
      child.children = [] ∧ (node.children = [] → child = node) := by
  cases hf : proc_node_find_by_pid root node.ppid with
  | none =>
    rw [add_none root node hf] at h
    have h0 : (-1 : Int) = 0 := h
    exact absurd h0 (by decide)
  | some ptr =>
    obtain ⟨parent, hparent, -⟩ := find_by_pid_deref root node.ppid ptr hf
    refine ⟨ptr, parent, proc_node_init node.pid node.ppid node.name, rfl, hparent, ?_,
      rfl, rfl, rfl, rfl, ?_⟩
    · rw [add_some root node ptr hf]
      simp only
      rw [deref_update_append root ptr _ _ parent hparent, deref_cons]
      simp [deref_nil]
    · intro hc
      cases node with
      | mk p q nm cs =>
        simp only [proc_node.children] at hc
        rw [hc]; rfl

/-- C4, witness: adding `(2, 1, "a")` with a child `(3, 2, "b")` to the root-only tree
with pid 1. -/
theorem C4_add_appends_childless_copy_witness :
    (proc_node_add (proc_node.mk 1 0 ['p'] [])
      (proc_node.mk 2 1 ['a'] [proc_node.mk 3 2 ['b'] []])).1 = 0 ∧
    ∃ ptr parent child,
      proc_node_find_by_pid (proc_node.mk 1 0 ['p'] []) 1 = some ptr ∧
      deref (proc_node.mk 1 0 ['p'] []) ptr = some parent ∧
      deref (proc_node_add (proc_node.mk 1 0 ['p'] [])
        (proc_node.mk 2 1 ['a'] [proc_node.mk 3 2 ['b'] []])).2
          (ptr ++ [parent.children.length]) = some child ∧
      child.pid = 2 ∧ child.ppid = 1 ∧ child.name = ['a'] ∧ child.children = [] :=
  ⟨rfl, by
    obtain ⟨ptr, parent, child, h1, h2, h3, h4, h5, h6, h7, -⟩ :=
      C4_add_appends_childless_copy (proc_node.mk 1 0 ['p'] [])
        (proc_node.mk 2 1 ['a'] [proc_node.mk 3 2 ['b'] []]) rfl
    exact ⟨ptr, parent, child, h1, h2, h3, h4, h5, h6, h7⟩⟩

/-- C4, counterexample: adding the node `(2, 1, "a")` that has the child `(3, 2, "b")`
to the root-only tree with pid 1 succeeds, and the child appended to the root has no
children: the subtree of the argument is not copied. -/
theorem C4_counterexample :
    proc_node_add (proc_node.mk 1 0 ['p'] [])
        (proc_node.mk 2 1 ['a'] [proc_node.mk 3 2 ['b'] []]) =
      (0, proc_node.mk 1 0 ['p'] [proc_node.mk 2 1 ['a'] []]) ∧
    (proc_node.mk 2 1 ['a'] []).children = [] ∧
    (proc_node.mk 2 1 ['a'] [proc_node.mk 3 2 ['b'] []]).children =
      [proc_node.mk 3 2 ['b'] []] :=
  ⟨rfl, rfl, rfl⟩
/-! ## Order of the search -/

theorem ptr_le_cases : ∀ (a b : List Nat), ptr_le a b = true →
    a = b ∨ (∃ s, s ≠ [] ∧ b = a ++ s) ∨
      ∃ c x y u v, x < y ∧ a = c ++ x :: u ∧ b = c ++ y :: v := by
  intro a
  induction a with
  | nil =>
    intro b _
    cases b with
    | nil => exact Or.inl rfl
    | cons j s => exact Or.inr (Or.inl ⟨j :: s, by simp, rfl⟩)
  | cons i r ih =>
    intro b h
    cases b with
    | nil => simp [ptr_le] at h
    | cons j s =>
      simp only [ptr_le, Bool.or_eq_true, decide_eq_true_eq, Bool.and_eq_true] at h
      rcases h with h | ⟨h1, h2⟩
      · exact Or.inr (Or.inr ⟨[], i, j, r, s, h, rfl, rfl⟩)
      · subst h1
        rcases ih s h2 with e | ⟨t, ht, e⟩ | ⟨c, x, y, u, v, hxy, e1, e2⟩
        · exact Or.inl (by rw [e])
        · exact Or.inr (Or.inl ⟨t, ht, by rw [e]; rfl⟩)
        · exact Or.inr (Or.inr ⟨i :: c, x, y, u, v, hxy, by rw [e1]; rfl, by rw [e2]; rfl⟩)

theorem ptr_le_append_left (c a b : List Nat) : ptr_le (c ++ a) (c ++ b) = ptr_le a b := by
  induction c with
  | nil => rfl
  | cons k c ih => simp [ptr_le, ih]

theorem ptr_le_singleton (i j : Nat) : ptr_le [i] [j] = true ↔ i ≤ j := by
  simp only [ptr_le, Bool.and_true, Bool.or_eq_true, decide_eq_true_eq]
  omega

/-- The pointer returned by a search is reached no later than any node that satisfies
the predicate. -/
theorem find_first_le (P : proc_node → Bool) :
    ∀ t p, find_first P t = some p →
      ∀ r n, deref t r = some n → P n = true → ptr_le p r = true := by
  apply proc_node_induction
  intro pd q nm cs ih p h r n hr hPn
  rw [find_first_eq] at h
  by_cases hP : P (proc_node.mk pd q nm cs) = true
  · rw [if_pos hP] at h
    cases h
    rfl
  · rw [if_neg hP] at h
    obtain ⟨j, c, r0, h1, h2, h3, h4⟩ := find_first_loop_some P _ 0 p h
    simp only [proc_node.children] at h1 h4
    cases r with
    | nil =>
      rw [deref_nil] at hr
      cases hr
      exact absurd hPn hP
    | cons i r1 =>
      rw [deref_cons] at hr
      simp only [proc_node.children] at hr
      cases hc : cs[i]? with
      | none => rw [hc] at hr; cases hr
      | some c1 =>
        rw [hc] at hr
        have hr1 : deref c1 r1 = some n := by simpa using hr
        rw [h3]
        simp only [Nat.zero_add, ptr_le, Bool.or_eq_true, decide_eq_true_eq, Bool.and_eq_true]
        rcases Nat.lt_trichotomy j i with hlt | heq | hgt
        · exact Or.inl hlt
        · subst heq
          rw [h1] at hc
          cases hc
          exact Or.inr ⟨rfl, ih c (List.getElem?_mem h1) r0 h2 r1 n hr1 hPn⟩
        · have := (find_first_none P c1).1 (h4 i c1 hgt hc) r1 n hr1
          rw [this] at hPn
          cases hPn

theorem find_by_pid_le (root : proc_node) (pid : Int) (ptr : List Nat)
    (h : proc_node_find_by_pid root pid = some ptr) (r : List Nat) (n : proc_node)
    (hr : deref root r = some n) (hn : n.pid = pid) : ptr_le ptr r = true := by
  rw [find_by_pid_eq] at h
  exact find_first_le _ root ptr h r n hr (by simpa using hn)

/-! ## `remove_child` -/

theorem remove_child_index_some (pid : Int) (cs : List proc_node) :
    ∀ j, remove_child_index cs pid = some j →
      ∃ c, cs[j]? = some c ∧ c.pid = pid ∧
        ∀ j1 c1, j1 < j → cs[j1]? = some c1 → c1.pid ≠ pid := by
  induction cs with
  | nil => intro j h; cases h
  | cons a cs ih =>
    intro j h
    simp only [remove_child_index] at h
    by_cases ha : a.pid = pid
    · rw [if_pos ha] at h
      cases h
      exact ⟨a, List.getElem?_cons_zero, ha, fun j1 c1 hj => by omega⟩
    · rw [if_neg ha] at h
      cases hr : remove_child_index cs pid with
      | none => rw [hr] at h; cases h
      | some j0 =>
        rw [hr] at h
        simp only [Option.map_some', Option.some.injEq] at h
        obtain ⟨c, hc, hpid, hlt⟩ := ih j0 hr
        subst h
        refine ⟨c, by simpa using hc, hpid, ?_⟩
        intro j1 c1 hj hc1
        cases j1 with
        | zero =>
          simp only [List.getElem?_cons_zero, Option.some.injEq] at hc1
          rw [← hc1]; exact ha
        | succ j2 => exact hlt j2 c1 (by omega) (by simpa using hc1)

theorem remove_child_index_none (pid : Int) (cs : List proc_node) :
    remove_child_index cs pid = none ↔ ∀ c ∈ cs, c.pid ≠ pid := by
  induction cs with
  | nil => simp [remove_child_index]
  | cons a cs ih =>
    simp only [remove_child_index, List.mem_cons, forall_eq_or_imp]
    by_cases ha : a.pid = pid
    · simp [ha]
    · simp [ha, ih]
/-! ## `proc_node_remove` -/

theorem remove_of_found (root : proc_node) (pid : Int) (ptr pptr : List Nat)
    (node par : proc_node) (j : Nat)
    (h1 : proc_node_find_by_pid root pid = some ptr) (h2 : deref root ptr = some node)
    (h3 : node.children = []) (h4 : proc_node_find_by_pid root node.ppid = some pptr)
    (h5 : deref root pptr = some par) (h6 : remove_child_index par.children pid = some j) :
    proc_node_remove root pid =
      (0, update root pptr (fun m => set_children (m.children.eraseIdx j) m)) := by
  simp only [proc_node_remove, h1, h2, h3, h4, remove_child, h5, h6, List.length_nil, ne_eq,
    not_true_eq_false, if_false]

/-- Either the removal fails and returns the tree as it was, or all lookups of the
source succeeded and one child of the parent found was erased. -/
theorem remove_cases (root : proc_node) (pid : Int) :
    proc_node_remove root pid = (1, root) ∨
    ∃ ptr node pptr par j,
      proc_node_find_by_pid root pid = some ptr ∧ deref root ptr = some node ∧
      node.children = [] ∧ proc_node_find_by_pid root node.ppid = some pptr ∧
      deref root pptr = some par ∧ remove_child_index par.children pid = some j ∧
      proc_node_remove root pid =
        (0, update root pptr (fun m => set_children (m.children.eraseIdx j) m)) := by
  cases h1 : proc_node_find_by_pid root pid with
  | none => left; simp only [proc_node_remove, h1]
  | some ptr =>
    cases h2 : deref root ptr with
    | none => left; simp only [proc_node_remove, h1, h2]
    | some node =>
      by_cases h3 : node.children = []
      · cases h4 : proc_node_find_by_pid root node.ppid with
        | none =>
          left
          simp only [proc_node_remove, h1, h2, h3, h4, remove_child, List.length_nil, ne_eq,
            not_true_eq_false, if_false]
        | some pptr =>
          cases h5 : deref root pptr with
          | none =>
            left
            simp only [proc_node_remove, h1, h2, h3, h4, remove_child, h5, List.length_nil,
              ne_eq, not_true_eq_false, if_false]
          | some par =>
            cases h6 : remove_child_index par.children pid with
            | none =>
              left
              simp only [proc_node_remove, h1, h2, h3, h4, remove_child, h5, h6,
                List.length_nil, ne_eq, not_true_eq_false, if_false]
            | some j =>
              right
              exact ⟨ptr, node, pptr, par, j, rfl, h2, h3, h4, h5, h6,
                remove_of_found root pid ptr pptr node par j h1 h2 h3 h4 h5 h6⟩
      · left
        have : node.children.length ≠ 0 := fun h => h3 (List.length_eq_zero.1 h)
        simp only [proc_node_remove, h1, h2, this, ne_eq, not_false_eq_true, if_true]

theorem deref_of_append (t : proc_node) (p s : List Nat) (n : proc_node)
    (h : deref t (p ++ s) = some n) : ∃ m, deref t p = some m ∧ deref m s = some n := by
  rw [deref_append] at h
  cases hp : deref t p with
  | none => rw [hp] at h; cases h
  | some m => rw [hp] at h; exact ⟨m, rfl, by simpa using h⟩

theorem deref_singleton (t : proc_node) (i : Nat) : deref t [i] = t.children[i]? := by
  rw [deref_cons]
  cases t.children[i]? with
  | none => rfl
  | some c => simp [deref_nil]

theorem deref_childless (t : proc_node) (h : t.children = []) (r : List Nat) (n : proc_node)
    (hr : deref t r = some n) : r = [] := by
  cases r with
  | nil => rfl
  | cons i r1 =>
    rw [deref_cons, h] at hr
    cases hr

/-- In a tree that satisfies `parenthood_at` and `unshadowed`, the child that
`remove_child` erases is the node that `proc_node_remove` looked up. -/
theorem remove_target (root : proc_node) (pid : Int) (hI2 : parenthood_at root)
    (hJ : unshadowed root) (ptr pptr : List Nat) (node par : proc_node) (j : Nat)
    (h1 : proc_node_find_by_pid root pid = some ptr) (h2 : deref root ptr = some node)
    (h3 : node.children = []) (h4 : proc_node_find_by_pid root node.ppid = some pptr)
    (h5 : deref root pptr = some par) (h6 : remove_child_index par.children pid = some j) :
    ptr = pptr ++ [j] := by
  obtain ⟨y, hy, hypid, hfirst⟩ := remove_child_index_some pid par.children j h6
  obtain ⟨node1, hn1, hnpid⟩ := find_by_pid_deref root pid ptr h1
  rw [h2] at hn1; cases hn1
  obtain ⟨par1, hp1, hppid⟩ := find_by_pid_deref root node.ppid pptr h4
  rw [h5] at hp1; cases hp1
  have hyd : deref root (pptr ++ [j]) = some y := by
    rw [deref_append, h5]
    simpa [deref_singleton] using hy
  rcases List.eq_nil_or_concat ptr with e | ⟨px, i, e⟩
  · -- the node looked up is the root: it has no children, so no child can be erased
    subst e
    rw [deref_nil] at h2; cases h2
    have := deref_childless root h3 pptr par h5
    subst this
    rw [deref_nil] at h5; cases h5
    rw [h3] at hy; cases hy
  · rw [List.concat_eq_append] at e
    subst e
    obtain ⟨pxn, hpx, hpxi⟩ := deref_of_append root px [i] node h2
    have hq : node.ppid = pxn.pid := hI2 px i pxn node hpx h2
    have hle1 : ptr_le pptr px = true := find_by_pid_le root node.ppid pptr h4 px pxn hpx hq.symm
    have hle2 : ptr_le (px ++ [i]) (pptr ++ [j]) = true :=
      find_by_pid_le root pid (px ++ [i]) h1 (pptr ++ [j]) y hyd hypid
    rcases ptr_le_cases pptr px hle1 with e | ⟨s, hs, e⟩ | ⟨c, x, z, u, v, hxz, e1, e2⟩
    · subst e
      rw [ptr_le_append_left, ptr_le_singleton] at hle2
      rw [h5] at hpx; cases hpx
      rw [deref_singleton] at hpxi
      have hji : ¬ i < j := fun hlt => hfirst i node hlt hpxi hnpid
      have : i = j := by omega
      rw [this]
    · subst e
      have hc : pxn.children ≠ [] := by
        rw [deref_singleton] at hpxi
        intro h0; rw [h0] at hpxi; cases hpxi
      exact absurd (hq.symm.trans hppid.symm) (hJ pptr s par pxn h5 hpx hs hc)
    · subst e1 e2
      rw [List.append_assoc, List.append_assoc, ptr_le_append_left] at hle2
      simp only [List.cons_append, ptr_le, Bool.or_eq_true, decide_eq_true_eq,
        Bool.and_eq_true] at hle2
      omega
/-! ## The checks `parenthood` and `Nodup (pids t)` in terms of pointers -/

theorem parenthood_children_iff (p : Int) (cs : List proc_node) :
    parenthood_children p cs = true ↔ ∀ c ∈ cs, c.ppid = p ∧ parenthood c = true := by
  induction cs with
  | nil => simp [parenthood_children]
  | cons a cs ih =>
    simp only [parenthood_children, Bool.and_eq_true, decide_eq_true_eq, ih, List.mem_cons,
      forall_eq_or_imp, and_assoc]

theorem parenthood_eq (t : proc_node) :
    parenthood t = parenthood_children t.pid t.children := by
  cases t; rfl

theorem parenthood_at_of_parenthood :
    ∀ (r : List Nat) (t : proc_node), parenthood t = true →
      ∀ i par n, deref t r = some par → deref t (r ++ [i]) = some n → n.ppid = par.pid := by
  intro r
  induction r with
  | nil =>
    intro t ht i par n hpar hn
    rw [deref_nil] at hpar; cases hpar
    rw [List.nil_append, deref_singleton] at hn
    rw [parenthood_eq, parenthood_children_iff] at ht
    exact (ht n (List.getElem?_mem hn)).1
  | cons k r ih =>
    intro t ht i par n hpar hn
    rw [deref_cons] at hpar
    rw [List.cons_append, deref_cons] at hn
    cases hc : t.children[k]? with
    | none => rw [hc] at hpar; cases hpar
    | some c =>
      rw [hc] at hpar hn
      rw [parenthood_eq, parenthood_children_iff] at ht
      exact ih c (ht c (List.getElem?_mem hc)).2 i par n (by simpa using hpar) (by simpa using hn)

theorem pids_eq (t : proc_node) :
    pids t = t.pid :: (preorder_children t.children).map proc_node.pid := by
  cases t; rfl

theorem mem_preorder_children (cs : List proc_node) (i : Nat) (c n : proc_node) (r : List Nat)
    (hc : cs[i]? = some c) (hn : deref c r = some n) : n ∈ preorder_children cs := by
  rw [preorder_children_eq, List.mem_flatMap]
  exact ⟨c, List.getElem?_mem hc, (mem_preorder c n).2 ⟨r, hn⟩⟩

theorem distinct_children (cs : List proc_node)
    (ih : ∀ c ∈ cs, (pids c).Nodup → ∀ r1 r2 n1 n2,
      deref c r1 = some n1 → deref c r2 = some n2 → n1.pid = n2.pid → r1 = r2)
    (hnd : ((preorder_children cs).map proc_node.pid).Nodup) :
    ∀ (i j : Nat) (ci cj : proc_node) (r1 r2 : List Nat) (n1 n2 : proc_node),
      cs[i]? = some ci → cs[j]? = some cj →
      deref ci r1 = some n1 → deref cj r2 = some n2 → n1.pid = n2.pid →
      i = j ∧ r1 = r2 := by
  induction cs with
  | nil => intro i j ci cj r1 r2 n1 n2 hi; cases hi
  | cons a cs ih2 =>
    simp only [preorder_children, List.map_append, List.nodup_append] at hnd
    obtain ⟨hA, hB, hAB⟩ := hnd
    have ih3 := ih2 (fun c hc => ih c (List.mem_cons_of_mem _ hc)) hB
    intro i j ci cj r1 r2 n1 n2 hi hj h1 h2 hpid
    have inA : ∀ (r : List Nat) (n : proc_node), deref a r = some n →
        n.pid ∈ (preorder a).map proc_node.pid :=
      fun r n h => List.mem_map.2 ⟨n, (mem_preorder a n).2 ⟨r, h⟩, rfl⟩
    have inB : ∀ (k : Nat) (c : proc_node) (r : List Nat) (n : proc_node),
        cs[k]? = some c → deref c r = some n →
        n.pid ∈ (preorder_children cs).map proc_node.pid :=
      fun k c r n hk h => List.mem_map.2 ⟨n, mem_preorder_children cs k c n r hk h, rfl⟩
    cases i with
    | zero =>
      simp only [List.getElem?_cons_zero, Option.some.injEq] at hi
      subst hi
      cases j with
      | zero =>
        simp only [List.getElem?_cons_zero, Option.some.injEq] at hj
        subst hj
        exact ⟨rfl, ih a (List.mem_cons_self _ _) hA r1 r2 n1 n2 h1 h2 hpid⟩
      | succ j =>
        have hj2 : cs[j]? = some cj := by simpa using hj
        exact absurd (hpid ▸ inB j cj r2 n2 hj2 h2) (hAB (inA r1 n1 h1))
    | succ i =>
      have hi2 : cs[i]? = some ci := by simpa using hi
      cases j with
      | zero =>
        simp only [List.getElem?_cons_zero, Option.some.injEq] at hj
        subst hj
        exact absurd (inB i ci r1 n1 hi2 h1) (hAB (hpid ▸ inA r2 n2 h2))
      | succ j =>
        have hj2 : cs[j]? = some cj := by simpa using hj
        obtain ⟨e1, e2⟩ := ih3 i j ci cj r1 r2 n1 n2 hi2 hj2 h1 h2 hpid
        exact ⟨by rw [e1], e2⟩

/-- With pairwise distinct pids, a pid determines the pointer. -/
theorem distinct_pids_ptr :
    ∀ t, (pids t).Nodup → ∀ r1 r2 n1 n2,
      deref t r1 = some n1 → deref t r2 = some n2 → n1.pid = n2.pid → r1 = r2 := by
  apply proc_node_induction
  intro p q nm cs ih hnd r1 r2 n1 n2 h1 h2 hpid
  rw [pids_eq, List.nodup_cons] at hnd
  simp only [proc_node.children, proc_node.pid] at hnd
  obtain ⟨hroot, hrest⟩ := hnd
  have below : ∀ (i : Nat) (r : List Nat) (n : proc_node),
      deref (proc_node.mk p q nm cs) (i :: r) = some n →
      ∃ c, cs[i]? = some c ∧ deref c r = some n := by
    intro i r n h
    rw [deref_cons] at h
    simp only [proc_node.children] at h
    cases hc : cs[i]? with
    | none => rw [hc] at h; cases h
    | some c => rw [hc] at h; exact ⟨c, rfl, by simpa using h⟩
  cases r1 with
  | nil =>
    rw [deref_nil] at h1; cases h1
    cases r2 with
    | nil => rfl
    | cons j s =>
      obtain ⟨c, hc, hn⟩ := below j s n2 h2
      exact absurd (List.mem_map.2 ⟨n2, mem_preorder_children cs j c n2 s hc hn, hpid.symm⟩)
        hroot
  | cons i s1 =>
    obtain ⟨c1, hc1, hn1⟩ := below i s1 n1 h1
    cases r2 with
    | nil =>
      rw [deref_nil] at h2; cases h2
      exact absurd (List.mem_map.2 ⟨n1, mem_preorder_children cs i c1 n1 s1 hc1 hn1, hpid⟩)
        hroot
    | cons j s2 =>
      obtain ⟨c2, hc2, hn2⟩ := below j s2 n2 h2
      obtain ⟨e1, e2⟩ := distinct_children cs ih hrest i j c1 c2 s1 s2 n1 n2 hc1 hc2 hn1 hn2 hpid
      rw [e1, e2]

theorem unshadowed_of_distinct (t : proc_node) (h : (pids t).Nodup) : unshadowed t := by
  intro r s n m hn hm hs _ hpid
  have := distinct_pids_ptr t h (r ++ s) r m n hm hn hpid
  exact hs (List.append_right_eq_self.1 this)
/-! ## C2 -/

/-- C2 (as amended): in a tree with pairwise distinct pids in which every non-root node
has the pid of its parent as ppid, `proc_node_remove(root, pid)` returns 0 if and only
if a node with that pid exists in the tree, is not the root and has no children. -/
theorem C2_remove_succeeds_iff_nonroot_leaf (root : proc_node) (pid : Int)
    (hd : (pids root).Nodup) (hp : parenthood root = true) :
    (proc_node_remove root pid).1 = 0 ↔
      ∃ r n, r ≠ [] ∧ deref root r = some n ∧ n.pid = pid ∧ n.children = [] := by
  have hI2 : parenthood_at root := fun r => parenthood_at_of_parenthood r root hp
  constructor
  · intro h
    rcases remove_cases root pid with e | ⟨ptr, node, pptr, par, j, h1, h2, h3, h4, h5, h6, -⟩
    · rw [e] at h
      have h0 : (1 : Int) = 0 := h
      exact absurd h0 (by decide)
    · have e := remove_target root pid hI2 (unshadowed_of_distinct root hd) ptr pptr node par j
        h1 h2 h3 h4 h5 h6
      obtain ⟨n1, hn1, hnpid⟩ := find_by_pid_deref root pid ptr h1
      rw [h2] at hn1; cases hn1
      exact ⟨ptr, node, by rw [e]; simp, h2, hnpid, h3⟩
  · rintro ⟨r, n, hr, hn, hpid, hc⟩
    cases h1 : proc_node_find_by_pid root pid with
    | none =>
      exact absurd hpid ((find_by_pid_none root pid).1 h1 n ((mem_preorder root n).2 ⟨r, hn⟩))
    | some ptr =>
      obtain ⟨n1, hn1, hn1pid⟩ := find_by_pid_deref root pid ptr h1
      have e := distinct_pids_ptr root hd ptr r n1 n hn1 hn (hn1pid.trans hpid.symm)
      subst e
      rw [hn] at hn1; cases hn1
      rcases List.eq_nil_or_concat ptr with e | ⟨px, i, e⟩
      · exact absurd e hr
      · rw [List.concat_eq_append] at e
        subst e
        obtain ⟨pxn, hpx, hpxi⟩ := deref_of_append root px [i] n hn
        have hq : n.ppid = pxn.pid := hI2 px i pxn n hpx hn
        cases h4 : proc_node_find_by_pid root n.ppid with
        | none =>
          exact absurd hq.symm
            ((find_by_pid_none root n.ppid).1 h4 pxn ((mem_preorder root pxn).2 ⟨px, hpx⟩))
        | some pptr =>
          obtain ⟨par, hpar, hparpid⟩ := find_by_pid_deref root n.ppid pptr h4
          have e := distinct_pids_ptr root hd pptr px par pxn hpar hpx (hparpid.trans hq)
          subst e
          rw [hpx] at hpar; cases hpar
          rw [deref_singleton] at hpxi
          cases h6 : remove_child_index pxn.children pid with
          | none =>
            exact absurd hpid
              ((remove_child_index_none pid pxn.children).1 h6 n (List.getElem?_mem hpxi))
          | some j =>
            rw [remove_of_found root pid (pptr ++ [i]) pptr n pxn j h1 hn hc h4 hpx h6]

/-- C2, witness: the tree `1 → 2` and the pid 2. -/
theorem C2_remove_succeeds_iff_nonroot_leaf_witness :
    (pids (proc_node.mk 1 0 ['p'] [proc_node.mk 2 1 ['a'] []])).Nodup ∧
    parenthood (proc_node.mk 1 0 ['p'] [proc_node.mk 2 1 ['a'] []]) = true ∧
    ((proc_node_remove (proc_node.mk 1 0 ['p'] [proc_node.mk 2 1 ['a'] []]) 2).1 = 0 ↔
      ∃ r n, r ≠ [] ∧ deref (proc_node.mk 1 0 ['p'] [proc_node.mk 2 1 ['a'] []]) r = some n ∧
        n.pid = 2 ∧ n.children = []) :=
  ⟨by decide, by decide,
    C2_remove_succeeds_iff_nonroot_leaf (proc_node.mk 1 0 ['p'] [proc_node.mk 2 1 ['a'] []]) 2
      (by decide) (by decide)⟩

/-- C2, counterexample: in the root-only tree with pid 1 the node with pid 1 exists and
has no children, and `proc_node_remove(root, 1)` returns 1: the root has no parent to
be removed from. -/
theorem C2_counterexample :
    proc_node_remove (proc_node.mk 1 0 ['p'] []) 1 = (1, proc_node.mk 1 0 ['p'] []) ∧
    ∃ n ∈ preorder (proc_node.mk 1 0 ['p'] []), n.pid = 1 ∧ n.children = [] :=
  ⟨rfl, proc_node.mk 1 0 ['p'] [], List.mem_cons_self _ _, rfl, rfl⟩

/-! ## `proc_node_add` keeps the invariants -/

theorem find_by_pid_pid (root : proc_node) (pid : Int) (ptr : List Nat) (n : proc_node)
    (h : proc_node_find_by_pid root pid = some ptr) (hn : deref root ptr = some n) :
    n.pid = pid := by
  obtain ⟨m, hm, hpid⟩ := find_by_pid_deref root pid ptr h
  rw [hn] at hm; cases hm
  exact hpid

/-- The nodes of the tree after a child `c` without children was appended below `p`:
the new node, or a node of the tree before, with the same pid and ppid and, unless it
is the node at `p`, as many children. -/
theorem deref_append_child (t : proc_node) (p : List Nat) (par c : proc_node)
    (hp : deref t p = some par) (hc : c.children = []) (r : List Nat) (n1 : proc_node)
    (h : deref (update t p (fun m => set_children (m.children ++ [c]) m)) r = some n1) :
    (r = p ++ [par.children.length] ∧ n1 = c) ∨
    ∃ n, deref t r = some n ∧ n1.pid = n.pid ∧ n1.ppid = n.ppid ∧
      (r ≠ p → n1.children.length = n.children.length) := by
  by_cases hpre : p <+: r
  · obtain ⟨s, hs⟩ := hpre
    subst hs
    rw [deref_update_append t p s _ par hp] at h
    cases s with
    | nil =>
      rw [deref_nil] at h
      cases h
      exact Or.inr ⟨par, by simpa using hp, rfl, rfl, fun hne => absurd (by simp) hne⟩
    | cons i s1 =>
      rw [deref_cons] at h
      simp only [set_children_fields] at h
      rcases Nat.lt_trichotomy i par.children.length with hlt | heq | hgt
      · rw [List.getElem?_append_left hlt] at h
        refine Or.inr ⟨n1, ?_, rfl, rfl, fun _ => rfl⟩
        rw [deref_append, hp]
        simp only [Option.some_bind, Option.bind_eq_bind, deref_cons]
        exact h
      · subst heq
        rw [List.getElem?_append_right (Nat.le_refl _)] at h
        simp only [Nat.sub_self, List.getElem?_cons_zero, Option.some_bind,
          Option.bind_eq_bind] at h
        have hs1 := deref_childless c hc s1 n1 h
        subst hs1
        rw [deref_nil] at h
        exact Or.inl ⟨rfl, (Option.some.inj h).symm⟩
      · rw [List.getElem?_eq_none (by simp; omega)] at h
        cases h
  · have hf := deref_update_other t p r (fun m => set_children (m.children ++ [c]) m) hpre
    rw [h] at hf
    cases hn : deref t r with
    | none => rw [hn] at hf; cases hf
    | some n =>
      rw [hn] at hf
      simp only [Option.map_some', Option.some.injEq, node_fields, Prod.mk.injEq] at hf
      exact Or.inr ⟨n, rfl, hf.1, hf.2.1, fun _ => hf.2.2.2⟩

theorem deref_below_last (t : proc_node) (p s : List Nat) (par n : proc_node)
    (hp : deref t p = some par) (h : deref t (p ++ [par.children.length] ++ s) = some n) :
    False := by
  rw [List.append_assoc] at h
  obtain ⟨m, hm, hms⟩ := deref_of_append t p _ n h
  rw [hp] at hm; cases hm
  rw [List.singleton_append, deref_cons, List.getElem?_eq_none (Nat.le_refl _)] at hms
  cases hms

theorem add_parenthood_at (root node : proc_node) (h : parenthood_at root) :
    parenthood_at (proc_node_add root node).2 := by
  cases hf : proc_node_find_by_pid root node.ppid with
  | none => rw [add_none root node hf]; exact h
  | some p =>
    obtain ⟨par, hpar, hparpid⟩ := find_by_pid_deref root node.ppid p hf
    rw [add_some root node p hf]
    intro r i par1 n1 hr hri
    rcases deref_append_child root p par (proc_node_init node.pid node.ppid node.name) hpar rfl (r ++ [i]) n1 hri with
      ⟨e, hn1⟩ | ⟨n, hn, hpid, hppid, -⟩
    · obtain ⟨e1, -⟩ := List.append_inj' e rfl
      subst e1
      rw [deref_update_same root r _ par hpar] at hr
      cases hr
      rw [hn1]
      exact hparpid.symm
    · rcases deref_append_child root p par (proc_node_init node.pid node.ppid node.name) hpar rfl r par1 hr with
        ⟨e, -⟩ | ⟨par0, hpar0, hpid0, -, -⟩
      · subst e
        exact (deref_below_last root p [i] par n hpar hn).elim
      · rw [hppid, hpid0]
        exact h r i par0 n hpar0 hn

theorem ptr_le_append_nil (r s : List Nat) (hs : s ≠ []) : ptr_le (r ++ s) r = false := by
  have := ptr_le_append_left r s []
  rw [List.append_nil] at this
  rw [this]
  cases s with
  | nil => exact absurd rfl hs
  | cons a s1 => rfl

theorem add_unshadowed (root node : proc_node) (h : unshadowed root) :
    unshadowed (proc_node_add root node).2 := by
  cases hf : proc_node_find_by_pid root node.ppid with
  | none => rw [add_none root node hf]; exact h
  | some p =>
    obtain ⟨par, hpar, hparpid⟩ := find_by_pid_deref root node.ppid p hf
    rw [add_some root node p hf]
    intro r s n1 m1 hr hrs hs hm1 hpid
    rcases deref_append_child root p par (proc_node_init node.pid node.ppid node.name) hpar rfl (r ++ s) m1 hrs with
      ⟨-, e⟩ | ⟨m, hm, hmpid, -, hmlen⟩
    · rw [e] at hm1
      exact hm1 rfl
    · rcases deref_append_child root p par (proc_node_init node.pid node.ppid node.name) hpar rfl r n1 hr with
        ⟨e, -⟩ | ⟨n, hn, hnpid, -, -⟩
      · subst e
        exact deref_below_last root p s par m hpar hm
      · by_cases hp : r ++ s = p
        · subst hp
          rw [hpar] at hm; cases hm
          have hle := find_by_pid_le root node.ppid (r ++ s) hf r n hn
            (by rw [← hnpid, ← hpid, hmpid, hparpid])
          rw [ptr_le_append_nil r s hs] at hle
          cases hle
        · have hlen := hmlen hp
          have hmc : m.children ≠ [] := by
            intro h0
            rw [h0] at hlen
            exact hm1 (List.length_eq_zero.1 hlen)
          exact h r s n m hn hm hs hmc (by rw [← hmpid, ← hnpid]; exact hpid)
/-! ## `proc_node_remove` keeps the invariants -/

/-- After a child was erased below `p`, every pointer into the new tree corresponds to
a pointer into the old tree, parents to parents, and the nodes pointed at have the
same pid and ppid. -/
theorem erase_child_embeds (j : Nat) :
    ∀ (p : List Nat) (t par : proc_node), deref t p = some par →
      ∃ φ : List Nat → List Nat, φ [] = [] ∧
        (∀ r i, ∃ i1, φ (r ++ [i]) = φ r ++ [i1]) ∧
        ∀ r n1,
          deref (update t p (fun m => set_children (m.children.eraseIdx j) m)) r = some n1 →
          ∃ n, deref t (φ r) = some n ∧ n1.pid = n.pid ∧ n1.ppid = n.ppid ∧
            (n1.children ≠ [] → n.children ≠ []) := by
  intro p
  induction p with
  | nil =>
    intro t par _
    refine ⟨fun r => match r with
      | [] => []
      | i :: s => (if i < j then i else i + 1) :: s, rfl, ?_, ?_⟩
    · intro r i
      cases r with
      | nil => exact ⟨if i < j then i else i + 1, rfl⟩
      | cons k u => exact ⟨i, rfl⟩
    · intro r n1 h
      rw [update_nil] at h
      cases r with
      | nil =>
        rw [deref_nil] at h
        cases h
        refine ⟨t, deref_nil t, rfl, rfl, ?_⟩
        intro hne h0
        simp only [set_children_fields, h0, List.eraseIdx_nil] at hne
        exact hne rfl
      | cons i s =>
        refine ⟨n1, ?_, rfl, rfl, id⟩
        rw [deref_cons] at h
        simp only [set_children_fields, List.getElem?_eraseIdx] at h
        show deref t ((if i < j then i else i + 1) :: s) = some n1
        rw [deref_cons]
        by_cases hij : i < j
        · rw [if_pos hij] at h ⊢; exact h
        · rw [if_neg hij] at h ⊢; exact h
  | cons k p1 ih =>
    intro t par hp
    rw [deref_cons] at hp
    cases hc : t.children[k]? with
    | none => rw [hc] at hp; cases hp
    | some c =>
      rw [hc] at hp
      have hk : k < t.children.length := (List.getElem?_eq_some.1 hc).1
      obtain ⟨φc, hφ0, hφ1, hφ2⟩ := ih c par (by simpa using hp)
      refine ⟨fun r => match r with
        | [] => []
        | i :: s => if i = k then k :: φc s else i :: s, rfl, ?_, ?_⟩
      · intro r i
        cases r with
        | nil =>
          by_cases hik : i = k
          · exact ⟨k, by simp [hik, hφ0]⟩
          · exact ⟨i, by simp [hik]⟩
        | cons x u =>
          by_cases hxk : x = k
          · obtain ⟨i1, hi1⟩ := hφ1 u i
            exact ⟨i1, by simp [hxk, hi1]⟩
          · exact ⟨i, by simp [hxk]⟩
      · intro r n1 h
        rw [update_cons_some t k p1 _ c hc] at h
        cases r with
        | nil =>
          rw [deref_nil] at h
          cases h
          refine ⟨t, deref_nil t, rfl, rfl, ?_⟩
          intro _ h0
          rw [h0] at hk
          exact absurd hk (by simp)
        | cons i s =>
          rw [deref_cons] at h
          simp only [set_children_fields, List.getElem?_set] at h
          by_cases hik : i = k
          · subst hik
            simp only [if_true, hk, Option.some_bind, Option.bind_eq_bind] at h
            obtain ⟨n, hn, h1, h2, h3⟩ := hφ2 s n1 h
            refine ⟨n, ?_, h1, h2, h3⟩
            show deref t (if i = i then i :: φc s else i :: s) = some n
            rw [if_pos rfl, deref_cons, hc]
            exact hn
          · have hki : ¬ k = i := fun e => hik e.symm
            simp only [hki, if_false] at h
            refine ⟨n1, ?_, rfl, rfl, id⟩
            show deref t (if i = k then k :: φc s else i :: s) = some n1
            rw [if_neg hik, deref_cons]
            exact h

theorem embed_append (φ : List Nat → List Nat)
    (h : ∀ r i, ∃ i1, φ (r ++ [i]) = φ r ++ [i1]) :
    ∀ (s r : List Nat), ∃ s1, φ (r ++ s) = φ r ++ s1 ∧ (s ≠ [] → s1 ≠ []) := by
  intro s
  induction s with
  | nil => intro r; exact ⟨[], by simp, fun h0 => absurd rfl h0⟩
  | cons a s ih =>
    intro r
    obtain ⟨a1, ha1⟩ := h r a
    obtain ⟨s1, hs1, -⟩ := ih (r ++ [a])
    refine ⟨a1 :: s1, ?_, fun _ => by simp⟩
    have e : r ++ a :: s = (r ++ [a]) ++ s := by simp
    rw [e, hs1, ha1]
    simp

theorem remove_parenthood_at (root : proc_node) (pid : Int) (h : parenthood_at root) :
    parenthood_at (proc_node_remove root pid).2 := by
  rcases remove_cases root pid with e | ⟨ptr, node, pptr, par, j, -, -, -, -, h5, -, e⟩
  · rw [e]; exact h
  · rw [e]
    obtain ⟨φ, -, hφ1, hφ2⟩ := erase_child_embeds j pptr root par h5
    intro r i par1 n1 hr hri
    obtain ⟨par0, hpar0, hpid0, -, -⟩ := hφ2 r par1 hr
    obtain ⟨n, hn, -, hppid, -⟩ := hφ2 (r ++ [i]) n1 hri
    obtain ⟨i1, hi1⟩ := hφ1 r i
    rw [hi1] at hn
    rw [hppid, hpid0]
    exact h (φ r) i1 par0 n hpar0 hn

theorem remove_unshadowed (root : proc_node) (pid : Int) (h : unshadowed root) :
    unshadowed (proc_node_remove root pid).2 := by
  rcases remove_cases root pid with e | ⟨ptr, node, pptr, par, j, -, -, -, -, h5, -, e⟩
  · rw [e]; exact h
  · rw [e]
    obtain ⟨φ, -, hφ1, hφ2⟩ := erase_child_embeds j pptr root par h5
    intro r s n1 m1 hr hrs hs hm1 hpid
    obtain ⟨n, hn, hnpid, -, -⟩ := hφ2 r n1 hr
    obtain ⟨m, hm, hmpid, -, hmc⟩ := hφ2 (r ++ s) m1 hrs
    obtain ⟨s1, hs1, hs1ne⟩ := embed_append φ hφ1 s r
    rw [hs1] at hm
    exact h (φ r) s1 n m hn hm (hs1ne hs) (hmc hm1) (by rw [← hmpid, ← hnpid]; exact hpid)

theorem init_parenthood_at (pid ppid : Int) (name : List Char) :
    parenthood_at (proc_node_init pid ppid name) := by
  intro r i par n _ hri
  have := deref_childless (proc_node_init pid ppid name) rfl (r ++ [i]) n hri
  simp at this

theorem init_unshadowed (pid ppid : Int) (name : List Char) :
    unshadowed (proc_node_init pid ppid name) := by
  intro r s n m _ hrs hs _ _
  have := deref_childless (proc_node_init pid ppid name) rfl (r ++ s) m hrs
  simp only [List.append_eq_nil] at this
  exact hs this.2
/-! ## C8 -/

theorem run_call_invariants (root : proc_node) (call : tree_call)
    (h : parenthood_at root ∧ unshadowed root) :
    parenthood_at (run_call root call) ∧ unshadowed (run_call root call) := by
  cases call with
  | add node => exact ⟨add_parenthood_at root node h.1, add_unshadowed root node h.2⟩
  | remove pid => exact ⟨remove_parenthood_at root pid h.1, remove_unshadowed root pid h.2⟩

theorem run_calls_invariants (calls : List tree_call) :
    ∀ root, parenthood_at root ∧ unshadowed root →
      parenthood_at (run_calls root calls) ∧ unshadowed (run_calls root calls) := by
  induction calls with
  | nil => intro root h; exact h
  | cons call calls ih =>
    intro root h
    exact ih (run_call root call) (run_call_invariants root call h)

/-- C8: in every tree reached from the root-only tree by a sequence of `proc_node_add`
and `proc_node_remove` calls (with any arguments and any results), every non-root
node has the pid of its parent as ppid: the node at `r ++ [i]` is the child number
`i` of the node at `r`. -/
theorem C8_reachable_parenthood (pid ppid : Int) (name : List Char) (calls : List tree_call)
    (r : List Nat) (i : Nat) (parent n : proc_node)
    (hparent : deref (run_calls (proc_node_init pid ppid name) calls) r = some parent)
    (hn : deref (run_calls (proc_node_init pid ppid name) calls) (r ++ [i]) = some n) :
    n.ppid = parent.pid :=
  (run_calls_invariants calls (proc_node_init pid ppid name)
    ⟨init_parenthood_at pid ppid name, init_unshadowed pid ppid name⟩).1 r i parent n hparent hn

/-- C8, witness: root 1, then add 2 below 1, add 3 below 2, add 4 below 1, remove 3;
the node at `[0]` is 2 and its parent is the root. -/
theorem C8_reachable_parenthood_witness :
    deref (run_calls (proc_node_init 1 0 ['p'])
      [tree_call.add (proc_node.mk 2 1 ['a'] []), tree_call.add (proc_node.mk 3 2 ['b'] []),
       tree_call.add (proc_node.mk 4 1 ['c'] []), tree_call.remove 3]) ([] ++ [0]) =
      some (proc_node.mk 2 1 ['a'] []) ∧
    (proc_node.mk 2 1 ['a'] []).ppid =
      (proc_node.mk 1 0 ['p'] [proc_node.mk 2 1 ['a'] [], proc_node.mk 4 1 ['c'] []]).pid :=
  ⟨rfl, C8_reachable_parenthood 1 0 ['p']
    [tree_call.add (proc_node.mk 2 1 ['a'] []), tree_call.add (proc_node.mk 3 2 ['b'] []),
     tree_call.add (proc_node.mk 4 1 ['c'] []), tree_call.remove 3] [] 0
    (proc_node.mk 1 0 ['p'] [proc_node.mk 2 1 ['a'] [], proc_node.mk 4 1 ['c'] []])
    (proc_node.mk 2 1 ['a'] []) rfl rfl⟩
/-! ## C5 -/

/-- C5: in every tree the program builds, that is every tree reached from a root-only
tree by `proc_node_add` and `proc_node_remove` calls (and also in every tree with
pairwise distinct pids), when `proc_node_remove(root, pid)` succeeds the children
sequence of the parent of the target is the previous sequence with exactly the target
deleted and the order of the others kept, and every other node of the tree keeps its
fields; when it fails (in any tree) the whole tree is unchanged. -/
theorem C5_remove_erases_target_only (root : proc_node) (pid : Int)
    (h : (pids root).Nodup ∨
      ∃ p q nm calls, root = run_calls (proc_node_init p q nm) calls) :
    ((proc_node_remove root pid).1 = 0 →
      ∃ pp i parent target, proc_node_find_by_pid root pid = some (pp ++ [i]) ∧
        deref root pp = some parent ∧ parent.children[i]? = some target ∧
        deref (proc_node_remove root pid).2 pp =
          some (proc_node.mk parent.pid parent.ppid parent.name
            (parent.children.eraseIdx i)) ∧
        ∀ r, ¬ pp <+: r →
          (deref (proc_node_remove root pid).2 r).map node_fields =
            (deref root r).map node_fields) ∧
    ((proc_node_remove root pid).1 ≠ 0 → (proc_node_remove root pid).2 = root) := by
  rcases remove_cases root pid with e | ⟨ptr, node, pptr, par, j, h1, h2, h3, h4, h5, h6, e⟩
  · rw [e]
    refine ⟨fun h => ?_, fun _ => rfl⟩
    have h0 : (1 : Int) = 0 := h
    exact absurd h0 (by decide)
  · obtain ⟨y, hy, hypid, -⟩ := remove_child_index_some pid par.children j h6
    have hyd : deref root (pptr ++ [j]) = some y := by
      rw [deref_append, h5]
      simpa [deref_singleton] using hy
    have e2 : ptr = pptr ++ [j] := by
      rcases h with hd | ⟨p, q, nm, calls, hreach⟩
      · obtain ⟨n1, hn1, hnpid⟩ := find_by_pid_deref root pid ptr h1
        exact distinct_pids_ptr root hd ptr (pptr ++ [j]) n1 y hn1 hyd (hnpid.trans hypid.symm)
      · have hinv := run_calls_invariants calls (proc_node_init p q nm)
          ⟨init_parenthood_at p q nm, init_unshadowed p q nm⟩
        rw [← hreach] at hinv
        exact remove_target root pid hinv.1 hinv.2 ptr pptr node par j h1 h2 h3 h4 h5 h6
    subst e2
    rw [e]
    refine ⟨fun _ => ⟨pptr, j, par, y, h1, h5, hy, ?_, ?_⟩, fun h => absurd rfl h⟩
    · exact deref_update_same root pptr _ par h5
    · intro r hr
      exact deref_update_other root pptr r _ hr

/-- C5, witness: removing pid 3 from the tree `1 → {2, 3, 4}`, whose pids are distinct. -/
theorem C5_remove_erases_target_only_witness :
    (pids (proc_node.mk 1 0 ['p']
      [proc_node.mk 2 1 ['a'] [], proc_node.mk 3 1 ['b'] [], proc_node.mk 4 1 ['c'] []])).Nodup ∧
    (proc_node_remove (proc_node.mk 1 0 ['p']
      [proc_node.mk 2 1 ['a'] [], proc_node.mk 3 1 ['b'] [], proc_node.mk 4 1 ['c'] []]) 3).1 = 0 ∧
    ∃ pp i parent target,
      proc_node_find_by_pid (proc_node.mk 1 0 ['p']
        [proc_node.mk 2 1 ['a'] [], proc_node.mk 3 1 ['b'] [], proc_node.mk 4 1 ['c'] []]) 3 =
          some (pp ++ [i]) ∧
      deref (proc_node.mk 1 0 ['p']
        [proc_node.mk 2 1 ['a'] [], proc_node.mk 3 1 ['b'] [], proc_node.mk 4 1 ['c'] []]) pp =
          some parent ∧
      parent.children[i]? = some target ∧
      deref (proc_node_remove (proc_node.mk 1 0 ['p']
        [proc_node.mk 2 1 ['a'] [], proc_node.mk 3 1 ['b'] [], proc_node.mk 4 1 ['c'] []]) 3).2 pp =
          some (proc_node.mk parent.pid parent.ppid parent.name (parent.children.eraseIdx i)) :=
  ⟨by decide, rfl, by
    obtain ⟨pp, i, parent, target, h1, h2, h3, h4, -⟩ :=
      (C5_remove_erases_target_only (proc_node.mk 1 0 ['p']
        [proc_node.mk 2 1 ['a'] [], proc_node.mk 3 1 ['b'] [], proc_node.mk 4 1 ['c'] []]) 3
        (Or.inl (by decide))).1 rfl
    exact ⟨pp, i, parent, target, h1, h2, h3, h4⟩⟩

/-! ## Pre-order of an updated tree -/

theorem list_split_at (cs : List proc_node) :
    ∀ (k : Nat) (c : proc_node), cs[k]? = some c →
      ∃ A B, cs = A ++ c :: B ∧ cs.eraseIdx k = A ++ B ∧
        ∀ c1, cs.set k c1 = A ++ c1 :: B := by
  induction cs with
  | nil => intro k c h; cases h
  | cons a cs ih =>
    intro k c h
    cases k with
    | zero =>
      simp only [List.getElem?_cons_zero, Option.some.injEq] at h
      subst h
      exact ⟨[], cs, rfl, rfl, fun _ => rfl⟩
    | succ k =>
      obtain ⟨A, B, h1, h2, h3⟩ := ih k c (by simpa using h)
      refine ⟨a :: A, B, by rw [h1]; rfl, ?_, fun c1 => ?_⟩
      · simp only [List.eraseIdx_cons_succ, h2, List.cons_append]
      · simp only [List.set_cons_succ, h3, List.cons_append]

theorem preorder_children_append (A B : List proc_node) :
    preorder_children (A ++ B) = preorder_children A ++ preorder_children B := by
  simp only [preorder_children_eq, List.flatMap_append]

theorem preorder_children_cons (c : proc_node) (B : List proc_node) :
    preorder_children (c :: B) = preorder c ++ preorder_children B := rfl

/-- The pre-order list of a tree around the subtree at `p`, seen through a function `g`
of the fields `pid`, `ppid` and `name`: writing through `p` changes the part of the
subtree only. -/
theorem preorder_update {α : Type} (g : proc_node → α)
    (hg : ∀ cs m, g (set_children cs m) = g m) :
    ∀ (p : List Nat) (t n : proc_node), deref t p = some n →
      ∃ l1 l2, (preorder t).map g = l1 ++ (preorder n).map g ++ l2 ∧
        ∀ f, (preorder (update t p f)).map g = l1 ++ (preorder (f n)).map g ++ l2 := by
  intro p
  induction p with
  | nil =>
    intro t n h
    rw [deref_nil] at h
    cases h
    exact ⟨[], [], by simp, fun f => by simp [update_nil]⟩
  | cons k p1 ih =>
    intro t n h
    rw [deref_cons] at h
    cases hc : t.children[k]? with
    | none => rw [hc] at h; cases h
    | some c =>
      rw [hc] at h
      obtain ⟨l1, l2, h1, h2⟩ := ih c n (by simpa using h)
      obtain ⟨A, B, hAB, -, hset⟩ := list_split_at t.children k c hc
      refine ⟨g t :: (preorder_children A).map g ++ l1, l2 ++ (preorder_children B).map g,
        ?_, fun f => ?_⟩
      · rw [preorder_eq, hAB, preorder_children_append, preorder_children_cons]
        simp only [List.map_cons, List.map_append, h1, List.append_assoc, List.cons_append]
      · rw [update_cons_some t k p1 f c hc, preorder_eq]
        simp only [set_children_fields, hset, preorder_children_append, preorder_children_cons,
          List.map_cons, List.map_append, h2 f, hg, List.append_assoc, List.cons_append]

theorem preorder_childless (c : proc_node) (h : c.children = []) : preorder c = [c] := by
  rw [preorder_eq, h]; rfl

theorem pid_set_children (cs : List proc_node) (m : proc_node) :
    (set_children cs m).pid = m.pid := rfl

theorem name_set_children (cs : List proc_node) (m : proc_node) :
    (set_children cs m).name = m.name := rfl

/-- Appending a childless child adds its entry to the pre-order list. -/
theorem preorder_append_child {α : Type} (g : proc_node → α)
    (hg : ∀ cs m, g (set_children cs m) = g m) (t : proc_node) (p : List Nat)
    (par c : proc_node) (hp : deref t p = some par) (hc : c.children = []) :
    ((preorder (update t p (fun m => set_children (m.children ++ [c]) m))).map g).Perm
      (g c :: (preorder t).map g) := by
  obtain ⟨l1, l2, h1, h2⟩ := preorder_update g hg p t par hp
  rw [h1, h2]
  have e : (preorder (set_children (par.children ++ [c]) par)).map g =
      (preorder par).map g ++ [g c] := by
    rw [preorder_eq, preorder_eq par]
    simp only [set_children_fields, preorder_children_append, preorder_children_cons,
      preorder_childless c hc, List.map_cons, List.map_append, hg, List.cons_append]
    simp [preorder_children]
  rw [e]
  have : (l1 ++ ((preorder par).map g ++ [g c]) ++ l2).Perm
      (g c :: (l1 ++ (preorder par).map g ++ l2)) := by
    rw [show l1 ++ ((preorder par).map g ++ [g c]) ++ l2 =
      (l1 ++ (preorder par).map g) ++ g c :: l2 by simp]
    rw [show l1 ++ (preorder par).map g ++ l2 = (l1 ++ (preorder par).map g) ++ l2 by simp]
    exact List.perm_middle
  exact this

theorem preorder_children_eraseIdx (cs : List proc_node) :
    ∀ j, (preorder_children (cs.eraseIdx j)).Sublist (preorder_children cs) := by
  induction cs with
  | nil => intro j; exact List.Sublist.refl _
  | cons a cs ih =>
    intro j
    cases j with
    | zero => exact List.sublist_append_right _ _
    | succ j =>
      simp only [List.eraseIdx_cons_succ, preorder_children]
      exact List.Sublist.append (List.Sublist.refl _) (ih j)

/-- Erasing a child leaves a sublist of the pre-order list. -/
theorem preorder_erase_child_sublist {α : Type} (g : proc_node → α)
    (hg : ∀ cs m, g (set_children cs m) = g m) (t : proc_node) (p : List Nat)
    (par : proc_node) (j : Nat) (hp : deref t p = some par) :
    ((preorder (update t p (fun m => set_children (m.children.eraseIdx j) m))).map g).Sublist
      ((preorder t).map g) := by
  obtain ⟨l1, l2, h1, h2⟩ := preorder_update g hg p t par hp
  rw [h1, h2]
  refine List.Sublist.append (List.Sublist.append (List.Sublist.refl _) ?_)
    (List.Sublist.refl _)
  rw [preorder_eq, preorder_eq par]
  simp only [set_children_fields, List.map_cons, hg]
  refine List.Sublist.cons₂ _ (List.Sublist.map g ?_)
  exact preorder_children_eraseIdx _ j

/-- Erasing a childless child removes its entry from the pre-order list. -/
theorem preorder_erase_childless {α : Type} (g : proc_node → α)
    (hg : ∀ cs m, g (set_children cs m) = g m) (t : proc_node) (p : List Nat)
    (par y : proc_node) (j : Nat) (hp : deref t p = some par)
    (hy : par.children[j]? = some y) (hyc : y.children = []) :
    ((preorder t).map g).Perm
      (g y :: (preorder (update t p (fun m => set_children (m.children.eraseIdx j) m))).map g) := by
  obtain ⟨l1, l2, h1, h2⟩ := preorder_update g hg p t par hp
  obtain ⟨A, B, hAB, hAB2, -⟩ := list_split_at par.children j y hy
  rw [h1, h2]
  have e1 : (preorder par).map g =
      g par :: ((preorder_children A).map g ++ g y :: (preorder_children B).map g) := by
    rw [preorder_eq, hAB, preorder_children_append, preorder_children_cons,
      preorder_childless y hyc]
    simp
  have e2 : (preorder (set_children (par.children.eraseIdx j) par)).map g =
      g par :: ((preorder_children A).map g ++ (preorder_children B).map g) := by
    rw [preorder_eq]
    simp only [set_children_fields, hAB2, preorder_children_append, List.map_cons,
      List.map_append, hg]
  rw [e1, e2]
  have : l1 ++ g par :: ((preorder_children A).map g ++ g y :: (preorder_children B).map g)
      ++ l2 = (l1 ++ g par :: (preorder_children A).map g) ++
        g y :: ((preorder_children B).map g ++ l2) := by simp
  rw [this]
  have : l1 ++ g par :: ((preorder_children A).map g ++ (preorder_children B).map g) ++ l2 =
      (l1 ++ g par :: (preorder_children A).map g) ++ ((preorder_children B).map g ++ l2) := by
    simp
  rw [this]
  exact List.perm_middle
/-! ## The supervisor -/

/-- The tree after `message_handler`: only `ADD` and `REMOVE` reach the tree. -/
theorem message_handler_tree (msg : message_t) (root : proc_node) :
    (message_handler msg root).1 =
      if msg.type = MSG_ADD then
        match proc_node_fromstr msg.content with
        | some node => (proc_node_add root node).2
        | none => root
      else if msg.type = MSG_REMOVE then (proc_node_remove root msg.pid_sender).2
      else root := by
  unfold message_handler
  by_cases h1 : msg.type = MSG_ADD
  · simp only [h1, if_true, msg_add_handler]
    cases proc_node_fromstr msg.content with
    | none => rfl
    | some node =>
      simp only
      split <;> rfl
  · simp only [h1, if_false]
    by_cases h2 : msg.type = MSG_INFO
    · have h3 : ¬ msg.type = MSG_REMOVE := by rw [h2]; decide
      simp only [h2, if_true, msg_info_handler]
      rw [← h2, if_neg h3]
      split <;> rfl
    · simp only [h2, if_false]
      by_cases h3 : msg.type = MSG_REMOVE
      · simp only [h3, if_true, msg_remove_handler]
        split <;> rfl
      · simp only [h3, if_false]
        by_cases h4 : msg.type = MSG_LIST
        · simp only [h4, if_true, msg_list_handler]
          split <;> rfl
        · simp only [h4, if_false]

theorem find_by_name_none (root : proc_node) (name : List Char) :
    proc_node_find_by_name root name = none ↔ name ∉ names root := by
  rw [find_by_name_eq, find_first_none]
  simp only [decide_eq_false_iff_not, names, List.mem_map, not_exists, not_and]
  exact ⟨fun h n hn => h _ n ((mem_preorder root n).1 hn).choose_spec,
    fun h r n hr => h n ((mem_preorder root n).2 ⟨r, hr⟩)⟩

theorem add_names (root node : proc_node) (h : (names root).Nodup)
    (hnew : node.name ∉ names root) : (names (proc_node_add root node).2).Nodup := by
  cases hf : proc_node_find_by_pid root node.ppid with
  | none => rw [add_none root node hf]; exact h
  | some p =>
    obtain ⟨par, hpar, -⟩ := find_by_pid_deref root node.ppid p hf
    rw [add_some root node p hf]
    have hperm := preorder_append_child proc_node.name name_set_children root p par
      (proc_node_init node.pid node.ppid node.name) hpar rfl
    exact (List.Perm.nodup_iff hperm).2 (List.nodup_cons.2 ⟨hnew, h⟩)

theorem remove_names (root : proc_node) (pid : Int) (h : (names root).Nodup) :
    (names (proc_node_remove root pid).2).Nodup := by
  rcases remove_cases root pid with e | ⟨ptr, node, pptr, par, j, -, -, -, -, h5, -, e⟩
  · rw [e]; exact h
  · rw [e]
    exact List.Nodup.sublist
      (preorder_erase_child_sublist proc_node.name name_set_children root pptr par j h5) h

theorem message_handler_names (msg : message_t) (root : proc_node) (h : (names root).Nodup)
    (hp : probed root msg = true) : (names (message_handler msg root).1).Nodup := by
  rw [message_handler_tree]
  unfold probed at hp
  by_cases h1 : msg.type = MSG_ADD
  · rw [if_pos h1] at hp ⊢
    cases hs : proc_node_fromstr msg.content with
    | none => exact h
    | some node =>
      rw [hs] at hp
      simp only [Option.isNone_iff_eq_none] at hp
      exact add_names root node h ((find_by_name_none root node.name).1 hp)
  · rw [if_neg h1]
    by_cases h3 : msg.type = MSG_REMOVE
    · rw [if_pos h3]; exact remove_names root msg.pid_sender h
    · rw [if_neg h3]; exact h

theorem handle_all_names (msgs : List message_t) :
    ∀ root, (names root).Nodup → all_probed root msgs = true →
      (names (handle_all root msgs)).Nodup := by
  induction msgs with
  | nil => intro root h _; exact h
  | cons msg msgs ih =>
    intro root h hp
    simp only [all_probed, Bool.and_eq_true] at hp
    exact ih (message_handler msg root).1 (message_handler_names msg root h hp.1) hp.2

/-- C9 (as amended): in every supervisor tree reached from the root-only tree by
handling a sequence of messages in which every `ADD` carries a name that
`proc_node_find_by_name` does not find in the tree at the time the message is handled
(the `INFO` probe of the sender would be answered `ERR`), all node names are pairwise
distinct. -/
theorem C9_probed_names_distinct (pid ppid : Int) (name : List Char) (msgs : List message_t)
    (h : all_probed (proc_node_init pid ppid name) msgs = true) :
    (names (handle_all (proc_node_init pid ppid name) msgs)).Nodup :=
  handle_all_names msgs (proc_node_init pid ppid name) (List.nodup_singleton _) h

/-- C9, witness: two `ADD` messages with the names `a` and `b`, then a `REMOVE`. -/
theorem C9_probed_names_distinct_witness :
    all_probed (proc_node_init 1 0 "pmanager".toList)
      [message_t.mk 2 MSG_ADD "2;1;a".toList, message_t.mk 3 MSG_ADD "3;2;b".toList,
       message_t.mk 3 MSG_REMOVE "NULL".toList] = true ∧
    (names (handle_all (proc_node_init 1 0 "pmanager".toList)
      [message_t.mk 2 MSG_ADD "2;1;a".toList, message_t.mk 3 MSG_ADD "3;2;b".toList,
       message_t.mk 3 MSG_REMOVE "NULL".toList])).Nodup :=
  ⟨by decide, C9_probed_names_distinct 1 0 "pmanager".toList
    [message_t.mk 2 MSG_ADD "2;1;a".toList, message_t.mk 3 MSG_ADD "3;2;b".toList,
     message_t.mk 3 MSG_REMOVE "NULL".toList] (by decide)⟩

/-- C9, counterexample: the supervisor answers both `ADD 2;1;a` and `ADD 3;1;a` with
`OK`, and the tree then has two nodes named `a`. -/
theorem C9_counterexample :
    handle_all (proc_node_init 1 0 "pmanager".toList)
      [message_t.mk 2 MSG_ADD "2;1;a".toList, message_t.mk 3 MSG_ADD "3;1;a".toList] =
      proc_node.mk 1 0 "pmanager".toList [proc_node.mk 2 1 ['a'] [], proc_node.mk 3 1 ['a'] []] ∧
    (message_handler (message_t.mk 3 MSG_ADD "3;1;a".toList)
      (proc_node.mk 1 0 "pmanager".toList [proc_node.mk 2 1 ['a'] []])).2 =
      [action.send 3 MSG_SUCCESS none] ∧
    ¬ (names (handle_all (proc_node_init 1 0 "pmanager".toList)
      [message_t.mk 2 MSG_ADD "2;1;a".toList, message_t.mk 3 MSG_ADD "3;1;a".toList])).Nodup :=
  ⟨rfl, rfl, by decide⟩
/-! ## C10 -/

theorem update_pid (t : proc_node) (p : List Nat) (f : proc_node → proc_node)
    (hf : ∀ m, (f m).pid = m.pid) : (update t p f).pid = t.pid := by
  cases p with
  | nil => rw [update_nil]; exact hf t
  | cons k p1 =>
    cases hc : t.children[k]? with
    | none => rw [update_cons_none t k p1 f hc]
    | some c => rw [update_cons_some t k p1 f c hc]; rfl

theorem pids_tail_perm (t1 t : proc_node) (b : Int) (hpid : t1.pid = t.pid)
    (h : (pids t1).Perm (b :: pids t)) : (pids t1).tail.Perm (b :: (pids t).tail) := by
  rw [pids_eq t1, pids_eq t, hpid] at h
  rw [pids_eq t1, pids_eq t]
  simp only [List.tail_cons]
  exact List.Perm.cons_inv (h.trans (List.Perm.swap _ _ _))

theorem add_pid (root node : proc_node) : (proc_node_add root node).2.pid = root.pid := by
  cases hf : proc_node_find_by_pid root node.ppid with
  | none => rw [add_none root node hf]
  | some p => rw [add_some root node p hf]; exact update_pid root p _ (fun _ => rfl)

theorem remove_pid (root : proc_node) (pid : Int) :
    (proc_node_remove root pid).2.pid = root.pid := by
  rcases remove_cases root pid with e | ⟨ptr, node, pptr, par, j, -, -, -, -, -, -, e⟩
  · rw [e]
  · rw [e]; exact update_pid root pptr _ (fun _ => rfl)

theorem add_status (root node : proc_node) :
    ((proc_node_add root node).1 ≠ 0 ∧ (proc_node_add root node).2 = root) ∨
    ((proc_node_add root node).1 = 0 ∧
      (pids (proc_node_add root node).2).tail.Perm (node.pid :: (pids root).tail)) := by
  cases hf : proc_node_find_by_pid root node.ppid with
  | none =>
    rw [add_none root node hf]
    exact Or.inl ⟨by show (-1 : Int) ≠ 0; decide, rfl⟩
  | some p =>
    obtain ⟨par, hpar, -⟩ := find_by_pid_deref root node.ppid p hf
    refine Or.inr ⟨by rw [add_some root node p hf], ?_⟩
    refine pids_tail_perm _ root node.pid (add_pid root node) ?_
    rw [add_some root node p hf]
    exact preorder_append_child proc_node.pid pid_set_children root p par
      (proc_node_init node.pid node.ppid node.name) hpar rfl

theorem remove_status (root : proc_node) (pid : Int) (hI2 : parenthood_at root)
    (hJ : unshadowed root) :
    ((proc_node_remove root pid).1 ≠ 0 ∧ (proc_node_remove root pid).2 = root) ∨
    ((proc_node_remove root pid).1 = 0 ∧
      (pids (proc_node_remove root pid).2).tail.Perm ((pids root).tail.erase pid)) := by
  rcases remove_cases root pid with e | ⟨ptr, node, pptr, par, j, h1, h2, h3, h4, h5, h6, e⟩
  · rw [e]
    exact Or.inl ⟨by show (1 : Int) ≠ 0; decide, rfl⟩
  · have ht := remove_target root pid hI2 hJ ptr pptr node par j h1 h2 h3 h4 h5 h6
    subst ht
    have hy : par.children[j]? = some node := by
      obtain ⟨m, hm, hmj⟩ := deref_of_append root pptr [j] node h2
      rw [h5] at hm; cases hm
      rw [deref_singleton] at hmj
      exact hmj
    have hnpid := find_by_pid_pid root pid _ node h1 h2
    have hperm := preorder_erase_childless proc_node.pid pid_set_children root pptr par node j
      h5 hy h3
    rw [hnpid] at hperm
    refine Or.inr ⟨by rw [e], ?_⟩
    have hp2 : (pids root).tail.Perm (pid :: (pids (proc_node_remove root pid).2).tail) := by
      refine pids_tail_perm root _ pid (remove_pid root pid).symm ?_
      rw [e]
      exact hperm
    have := (List.Perm.erase pid hp2).symm
    rwa [List.erase_cons_head] at this

theorem replied_ok_error (pid : Int) (content : Option (List Char)) :
    replied_ok [action.send pid MSG_ERROR content] = false := by
  cases content <;> rfl

/-- One message keeps the invariants, the pid of the root, and the agreement of the
register with the pids below the root. -/
theorem message_handler_step (msg : message_t) (root : proc_node) (live : List Int)
    (hI2 : parenthood_at root) (hJ : unshadowed root) (hlive : (pids root).tail.Perm live) :
    parenthood_at (message_handler msg root).1 ∧ unshadowed (message_handler msg root).1 ∧
    (message_handler msg root).1.pid = root.pid ∧
    (pids (message_handler msg root).1).tail.Perm (register root live msg) := by
  by_cases h1 : msg.type = MSG_ADD
  · have hm : message_handler msg root = msg_add_handler msg root := by
      simp only [message_handler, h1, if_true]
    unfold register
    rw [hm, if_pos h1]
    unfold msg_add_handler
    cases hs : proc_node_fromstr msg.content with
    | none =>
      refine ⟨hI2, hJ, rfl, ?_⟩
      simp only [replied_ok_error, Bool.false_eq_true, if_false]
      exact hlive
    | some node =>
      simp only
      rcases add_status root node with ⟨hst, htree⟩ | ⟨hst, hperm⟩
      · rw [if_pos hst, htree]
        refine ⟨hI2, hJ, rfl, ?_⟩
        simp only [replied_ok_error, Bool.false_eq_true, if_false]
        exact hlive
      · rw [if_neg (not_not.2 hst)]
        refine ⟨add_parenthood_at root node hI2, add_unshadowed root node hJ,
          add_pid root node, ?_⟩
        have : replied_ok [action.send msg.pid_sender MSG_SUCCESS none] = true := rfl
        rw [this, if_pos rfl]
        exact hperm.trans (List.Perm.cons _ hlive)
  · by_cases h3 : msg.type = MSG_REMOVE
    · have h2 : ¬ msg.type = MSG_INFO := by rw [h3]; decide
      have hm : message_handler msg root = msg_remove_handler msg root := by
        simp only [message_handler, if_neg h1, if_neg h2, if_pos h3]
      unfold register
      rw [hm, if_neg h1, if_pos h3]
      unfold msg_remove_handler
      rcases remove_status root msg.pid_sender hI2 hJ with ⟨hst, htree⟩ | ⟨hst, hperm⟩
      · rw [if_neg hst, htree]
        refine ⟨hI2, hJ, rfl, ?_⟩
        simp only [replied_ok_error, Bool.false_eq_true, if_false]
        exact hlive
      · rw [if_pos hst]
        refine ⟨remove_parenthood_at root _ hI2, remove_unshadowed root _ hJ,
          remove_pid root _, ?_⟩
        have : replied_ok [action.send msg.pid_sender MSG_SUCCESS none] = true := rfl
        rw [this, if_pos rfl]
        exact hperm.trans (List.Perm.erase _ hlive)
    · have ht : (message_handler msg root).1 = root := by
        rw [message_handler_tree, if_neg h1, if_neg h3]
      have hr : register root live msg = live := by
        unfold register
        rw [if_neg h1, if_neg h3]
        split <;> rfl
      rw [ht, hr]
      exact ⟨hI2, hJ, rfl, hlive⟩

theorem handle_all_registered (msgs : List message_t) :
    ∀ (root : proc_node) (live : List Int), parenthood_at root → unshadowed root →
      (pids root).tail.Perm live →
      (handle_all root msgs).pid = root.pid ∧
      (pids (handle_all root msgs)).tail.Perm (registered root live msgs) := by
  induction msgs with
  | nil => intro root live _ _ h; exact ⟨rfl, h⟩
  | cons msg msgs ih =>
    intro root live hI2 hJ hlive
    obtain ⟨h1, h2, h3, h4⟩ := message_handler_step msg root live hI2 hJ hlive
    obtain ⟨h5, h6⟩ := ih (message_handler msg root).1 (register root live msg) h1 h2 h4
    exact ⟨h5.trans h3, h6⟩

theorem find_by_pid_isSome (root : proc_node) (pid : Int) :
    (proc_node_find_by_pid root pid).isSome = true ↔ pid ∈ pids root := by
  rw [← not_iff_not]
  simp only [Bool.not_eq_true, Option.not_isSome, Option.isNone_iff_eq_none,
    find_by_pid_none, pids, List.mem_map, not_exists, not_and]

/-- C10: after the supervisor has handled any sequence of messages starting from the
root-only tree, for every pid other than the pid of the supervisor,
`proc_node_find_by_pid(root, pid)` returns a node if and only if the pid is in the
register: a node with that pid was added by an `ADD` answered `OK` and not struck out
since by a `REMOVE` of that pid answered `OK` (each successful `REMOVE` strikes out
one node). -/
theorem C10_find_by_pid_iff_registered (spid sppid : Int) (name : List Char)
    (msgs : List message_t) (pid : Int) (hpid : pid ≠ spid) :
    (proc_node_find_by_pid (handle_all (proc_node_init spid sppid name) msgs) pid).isSome = true ↔
      pid ∈ registered (proc_node_init spid sppid name) [] msgs := by
  obtain ⟨h1, h2⟩ := handle_all_registered msgs (proc_node_init spid sppid name) []
    (init_parenthood_at spid sppid name) (init_unshadowed spid sppid name) (List.Perm.refl _)
  rw [find_by_pid_isSome, ← List.Perm.mem_iff h2, pids_eq, h1]
  simp only [List.tail_cons, List.mem_cons]
  constructor
  · rintro (h | h)
    · exact absurd h hpid
    · exact h
  · exact Or.inr

/-- C10, witness: `ADD 2;1;a`, `ADD 3;2;b`, then a `REMOVE` from 3; afterwards pid 2 is
found and registered. -/
theorem C10_find_by_pid_iff_registered_witness :
    (2 : Int) ≠ 1 ∧
    ((proc_node_find_by_pid (handle_all (proc_node_init 1 0 ['p'])
      [message_t.mk 2 MSG_ADD "2;1;a".toList, message_t.mk 3 MSG_ADD "3;2;b".toList,
       message_t.mk 3 MSG_REMOVE "NULL".toList]) 2).isSome = true ↔
      2 ∈ registered (proc_node_init 1 0 ['p']) []
        [message_t.mk 2 MSG_ADD "2;1;a".toList, message_t.mk 3 MSG_ADD "3;2;b".toList,
         message_t.mk 3 MSG_REMOVE "NULL".toList]) :=
  ⟨by decide,
    C10_find_by_pid_iff_registered 1 0 ['p']
      [message_t.mk 2 MSG_ADD "2;1;a".toList, message_t.mk 3 MSG_ADD "3;2;b".toList,
       message_t.mk 3 MSG_REMOVE "NULL".toList] 2 (by decide)⟩
/-! ## C11: `message_send` -/

/-- C11: for every target, type and content, `message_send` writes to the FIFO (when
`write` succeeds) exactly the bytes of `<pid of the sender in decimal>:<type>:<content>`
followed by one NUL, where the content is the string `NULL` when it is absent; nothing
is written when `write` fails. The text has no NUL of its own when type and content
have none, and the seven types of `message.h` are the pairwise distinct one-letter
codes a, r, i, e, s, l, p for ADD, REMOVE, INFO, ERR, OK, LIST, SPAWN. -/
theorem C11_message_send_writes_frame (self : Int) (pipe : List Char) (kill_ok : Bool)
    (pid : Int) (type : List Char) (content : Option (List Char)) :
    (message_send self pipe true kill_ok pid type content).2.1 =
      pipe ++ (fmt_ld self ++ [':'] ++ type ++ [':'] ++ content.getD ['N', 'U', 'L', 'L']
        ++ [NUL]) ∧
    (message_send self pipe false kill_ok pid type content).2.1 = pipe ∧
    (NUL ∉ type → NUL ∉ content.getD ['N', 'U', 'L', 'L'] →
      NUL ∉ fmt_ld self ++ [':'] ++ type ++ [':'] ++ content.getD ['N', 'U', 'L', 'L']) ∧
    [MSG_ADD, MSG_REMOVE, MSG_INFO, MSG_ERROR, MSG_SUCCESS, MSG_LIST, MSG_SPAWN] =
      [['a'], ['r'], ['i'], ['e'], ['s'], ['l'], ['p']] ∧
    [MSG_ADD, MSG_REMOVE, MSG_INFO, MSG_ERROR, MSG_SUCCESS, MSG_LIST, MSG_SPAWN].Nodup := by
  refine ⟨?_, rfl, ?_, rfl, by decide⟩
  · cases content <;> cases kill_ok <;>
      simp [message_send, message_str, List.append_assoc]
  · intro ht hc hm
    simp only [List.mem_append, List.mem_singleton] at hm
    rcases hm with (((hm | hm) | hm) | hm) | hm
    · cases self with
      | ofNat n =>
        exact absurd ((toDigits_spec n).2.1 _ hm) (by decide)
      | negSucc n =>
        simp only [fmt_ld, List.mem_cons] at hm
        rcases hm with hm | hm
        · exact absurd hm (by decide)
        · exact absurd ((toDigits_spec (n + 1)).2.1 _ hm) (by decide)
    · exact absurd hm (by decide)
    · exact ht hm
    · exact absurd hm (by decide)
    · exact hc hm
/-! ## Reading frames -/

theorem read_until_nul_frame (text rest : List Char) (h : NUL ∉ text) :
    read_until_nul (text ++ NUL :: rest) = (text, rest, true) := by
  induction text with
  | nil => simp [read_until_nul]
  | cons c text ih =>
    have hc : c ≠ NUL := fun e => h (e ▸ List.mem_cons_self _ _)
    have ht : NUL ∉ text := fun hm => h (List.mem_cons_of_mem _ hm)
    have e : c :: text ++ NUL :: rest = c :: (text ++ NUL :: rest) := rfl
    rw [e]
    simp only [read_until_nul, if_neg hc]
    rw [ih ht]

theorem read_until_nul_none (text : List Char) (h : NUL ∉ text) :
    read_until_nul text = (text, [], false) := by
  induction text with
  | nil => rfl
  | cons c text ih =>
    have hc : c ≠ NUL := fun e => h (e ▸ List.mem_cons_self _ _)
    have ht : NUL ∉ text := fun hm => h (List.mem_cons_of_mem _ hm)
    simp only [read_until_nul, if_neg hc, ih ht]

/-- A complete frame at the head of the FIFO: it is taken out, parsed, and the flags
are reset. -/
theorem message_read_frame (text rest : List Char) (flag : Bool) (sender : Int)
    (h : NUL ∉ text) :
    message_read (bus.mk (text ++ NUL :: rest) flag sender) =
      ((match tokenize text [':'] with
        | [f0, f1, f2] => some (message_init (to_pid_t (atol f0)) f1 f2)
        | _ => none), bus.mk rest false (-1)) := by
  simp only [message_read, read_until_nul_frame text rest h, set_message_sender,
    reset_unread_flag]

/-- No NUL in the FIFO: everything is consumed, `NULL` is returned and the flags stay. -/
theorem message_read_incomplete (text : List Char) (flag : Bool) (sender : Int)
    (h : NUL ∉ text) :
    message_read (bus.mk text flag sender) = (none, bus.mk [] flag sender) := by
  simp only [message_read, read_until_nul_none text h]

theorem fmt_ld_chars (x : Int) : ∀ c ∈ fmt_ld x, isdigit c = true ∨ c = '-' := by
  intro c hc
  cases x with
  | ofNat n => exact Or.inl ((toDigits_spec n).2.1 c hc)
  | negSucc n =>
    simp only [fmt_ld, List.mem_cons] at hc
    rcases hc with hc | hc
    · exact Or.inr hc
    · exact Or.inl ((toDigits_spec (n + 1)).2.1 c hc)

theorem fmt_ld_no_colon_nul (x : Int) : ':' ∉ fmt_ld x ∧ NUL ∉ fmt_ld x := by
  constructor
  · intro h
    rcases fmt_ld_chars x _ h with h1 | h1
    · exact absurd h1 (by decide)
    · exact absurd h1 (by decide)
  · intro h
    rcases fmt_ld_chars x _ h with h1 | h1
    · exact absurd h1 (by decide)
    · exact absurd h1 (by decide)

theorem payload_ok_some (c : List Char) (h : payload_ok (some c) = true) :
    c ≠ [] ∧ ':' ∉ c ∧ NUL ∉ c := by
  simp only [payload_ok] at h
  have h2 : (c ≠ [] ∧ ':' ∉ c) ∧ NUL ∉ c := by simpa [List.isEmpty_iff] using h
  exact ⟨h2.1.1, h2.1.2, h2.2⟩

theorem message_types_ok (type : List Char) (h : type ∈ message_types) :
    type ≠ [] ∧ ':' ∉ type ∧ NUL ∉ type := by
  simp only [message_types, List.mem_cons, List.mem_singleton, List.not_mem_nil, or_false] at h
  rcases h with h | h | h | h | h | h | h <;> subst h <;> decide

/-- The string read back from a frame written by `message_send`. -/
theorem message_read_sent (self : Int) (type : List Char) (content : Option (List Char))
    (rest : List Char) (flag : Bool) (sender : Int) (hself : pid_t_range self)
    (ht : type ≠ [] ∧ ':' ∉ type ∧ NUL ∉ type) (hc : payload_ok content = true) :
    message_read (bus.mk (message_str self type content ++ [NUL] ++ rest) flag sender) =
      (some (message_t.mk self type (content.getD ['N', 'U', 'L', 'L'])),
        bus.mk rest false (-1)) := by
  have hcc : content.getD ['N', 'U', 'L', 'L'] ≠ [] ∧ ':' ∉ content.getD ['N', 'U', 'L', 'L'] ∧
      NUL ∉ content.getD ['N', 'U', 'L', 'L'] := by
    cases content with
    | none => exact ⟨by decide, by decide, by decide⟩
    | some c => exact payload_ok_some c hc
  have hstr : message_str self type content =
      fmt_ld self ++ ':' :: (type ++ ':' :: content.getD ['N', 'U', 'L', 'L']) := by
    cases content <;> rfl
  have hfree : ∀ (l : List Char), ':' ∉ l → ∀ x ∈ l, x ∉ [':'] := by
    intro l hl x hx hx2
    simp only [List.mem_singleton] at hx2
    rw [hx2] at hx
    exact hl hx
  have hnul : NUL ∉ message_str self type content := by
    rw [hstr]
    simp only [List.mem_append, List.mem_cons, not_or]
    exact ⟨(fmt_ld_no_colon_nul self).2, by decide, ht.2.2, by decide, hcc.2.2⟩
  have htok : tokenize (message_str self type content) [':'] =
      [fmt_ld self, type, content.getD ['N', 'U', 'L', 'L']] := by
    rw [hstr]
    exact tokenize_three [':'] _ _ _ ':' (List.mem_singleton_self _) (fmt_ld_ne_nil _) ht.1 hcc.1
      (hfree _ (fmt_ld_no_colon_nul self).1) (hfree _ ht.2.1) (hfree _ hcc.2.1)
  have e : message_str self type content ++ [NUL] ++ rest =
      message_str self type content ++ NUL :: rest := by simp
  rw [e, message_read_frame _ rest flag sender hnul, htok]
  simp only [atol_fmt_ld self hself, message_init]

theorem write_all_cons (pipe : List Char) (c : send_call) (calls : List send_call) :
    write_all pipe (c :: calls) =
      write_all (pipe ++ (message_str c.self c.type c.content ++ [NUL])) calls := by
  simp [write_all, message_send]

theorem write_all_append (calls : List send_call) :
    ∀ pipe, write_all pipe calls = pipe ++ write_all [] calls := by
  induction calls with
  | nil => intro pipe; simp [write_all]
  | cons c calls ih =>
    intro pipe
    rw [write_all_cons, write_all_cons, ih, ih ([] ++ _)]
    simp

/-- Reading back what was written, frame by frame. -/
theorem read_n_write_all (calls : List send_call)
    (h : ∀ c ∈ calls, pid_t_range c.self ∧ c.type ∈ message_types ∧ payload_ok c.content = true) :
    ∀ (rest : List Char) (flag : Bool) (sender : Int),
      (read_n calls.length (bus.mk (write_all [] calls ++ rest) flag sender)).1 =
        calls.map (fun c => some (message_t.mk c.self c.type (c.content.getD ['N', 'U', 'L', 'L'])))
      ∧ (read_n calls.length (bus.mk (write_all [] calls ++ rest) flag sender)).2.pipe = rest := by
  induction calls with
  | nil => intro rest flag sender; exact ⟨rfl, rfl⟩
  | cons c calls ih =>
    intro rest flag sender
    obtain ⟨h1, h2, h3⟩ := h c (List.mem_cons_self _ _)
    have e : write_all [] (c :: calls) ++ rest =
        message_str c.self c.type c.content ++ [NUL] ++ (write_all [] calls ++ rest) := by
      rw [write_all_cons, write_all_append]
      simp
    have hr := message_read_sent c.self c.type c.content (write_all [] calls ++ rest) flag sender
      h1 (message_types_ok _ h2) h3
    have ih2 := ih (fun x hx => h x (List.mem_cons_of_mem _ hx)) rest false (-1)
    simp only [List.length_cons, read_n, e, hr, List.map_cons]
    exact ⟨by rw [ih2.1], ih2.2⟩
/-! ## C12 -/

theorem write_all_concat (l1 l2 : List send_call) :
    write_all [] (l1 ++ l2) = write_all [] l1 ++ write_all [] l2 := by
  have : write_all [] (l1 ++ l2) = write_all (write_all [] l1) l2 := by
    simp [write_all, List.foldl_append]
  rw [this, write_all_append]

/-- C12 (as amended): for every sequence of `message_send` calls whose sender pid is a
`pid_t`, whose type is one of the seven types and whose content is absent (`NULL` on
the wire) or a non-empty string without `:`, writing the frames to the FIFO in order
and then calling `message_read` once per frame returns the messages with the same
sender pid, type and content, in the order written; after `i` reads exactly the
frames of the first `i` calls, each up to and including its NUL, have left the
FIFO. -/
theorem C12_read_back_frames (calls : List send_call) (flag : Bool) (sender : Int)
    (h : ∀ c ∈ calls,
      pid_t_range c.self ∧ c.type ∈ message_types ∧ payload_ok c.content = true) :
    (read_n calls.length (bus.mk (write_all [] calls) flag sender)).1 =
      calls.map (fun c =>
        some (message_t.mk c.self c.type (c.content.getD ['N', 'U', 'L', 'L']))) ∧
    ∀ i, i ≤ calls.length →
      (read_n i (bus.mk (write_all [] calls) flag sender)).2.pipe =
        write_all [] (calls.drop i) := by
  constructor
  · have := (read_n_write_all calls h [] flag sender).1
    rwa [List.append_nil] at this
  · intro i hi
    have hsplit : write_all [] calls = write_all [] (calls.take i) ++ write_all [] (calls.drop i) := by
      rw [← write_all_concat, List.take_append_drop]
    have hlen : (calls.take i).length = i := by
      rw [List.length_take]; omega
    have := (read_n_write_all (calls.take i)
      (fun c hc => h c (List.mem_of_mem_take hc)) (write_all [] (calls.drop i)) flag sender).2
    rw [hlen, ← hsplit] at this
    exact this

/-- C12, witness: an `ADD` with a node payload from process 5 and a `REMOVE` without
payload from process 6. -/
theorem C12_read_back_frames_witness :
    (read_n 2 (bus.mk (write_all []
      [send_call.mk 5 1 MSG_ADD (some "2;5;a".toList), send_call.mk 6 1 MSG_REMOVE none])
        true 6)).1 =
      [some (message_t.mk 5 MSG_ADD "2;5;a".toList), some (message_t.mk 6 MSG_REMOVE "NULL".toList)] :=
  (C12_read_back_frames
    [send_call.mk 5 1 MSG_ADD (some "2;5;a".toList), send_call.mk 6 1 MSG_REMOVE none] true 6
    (by
      intro c hc
      simp only [List.mem_cons, List.mem_singleton, List.not_mem_nil, or_false] at hc
      rcases hc with rfl | rfl
      · exact ⟨⟨by decide, by decide⟩, by decide, by decide⟩
      · exact ⟨⟨by decide, by decide⟩, by decide, by decide⟩)).1

/-- C12, counterexample: the empty string is a content without `:`; process 5 sends
`ADD` with it, the frame is `5:a:` and NUL, and `message_read` takes the frame out and
returns `NULL`. -/
theorem C12_counterexample :
    write_all [] [send_call.mk 5 1 MSG_ADD (some [])] = ['5', ':', 'a', ':', NUL] ∧
    message_read (bus.mk (write_all [] [send_call.mk 5 1 MSG_ADD (some [])]) true 5) =
      (none, bus.mk [] false (-1)) :=
  ⟨rfl, rfl⟩

/-! ## C13 -/

theorem fields_ne_nil (sep : Char) (s : List Char) : fields sep s ≠ [] := by
  cases s with
  | nil => simp [fields]
  | cons c s =>
    simp only [fields]
    split
    · simp
    · split <;> simp

theorem fields_cons_sep (sep : Char) (s : List Char) :
    fields sep (sep :: s) = [] :: fields sep s := by
  simp [fields]

theorem fields_cons_other (sep c : Char) (s : List Char) (h : c ≠ sep) :
    ∃ f fs, fields sep s = f :: fs ∧ fields sep (c :: s) = (c :: f) :: fs := by
  cases hf : fields sep s with
  | nil => exact absurd hf (fields_ne_nil sep s)
  | cons f fs => exact ⟨f, fs, rfl, by simp [fields, h, hf]⟩

/-- A separator-free token in front of a separator is the first field. -/
theorem fields_token_sep (sep : Char) (tok rest : List Char) (h : sep ∉ tok) :
    fields sep (tok ++ sep :: rest) = tok :: fields sep rest := by
  induction tok with
  | nil => exact fields_cons_sep sep rest
  | cons c tok ih =>
    have hc : c ≠ sep := fun e => h (e ▸ List.mem_cons_self _ _)
    have ht : sep ∉ tok := fun hm => h (List.mem_cons_of_mem _ hm)
    obtain ⟨f, fs, h1, h2⟩ := fields_cons_other sep c (tok ++ sep :: rest) hc
    rw [List.cons_append, h2]
    rw [ih ht] at h1
    cases h1
    rfl

theorem fields_token_end (sep : Char) (tok : List Char) (h : sep ∉ tok) :
    fields sep tok = [tok] := by
  induction tok with
  | nil => rfl
  | cons c tok ih =>
    have hc : c ≠ sep := fun e => h (e ▸ List.mem_cons_self _ _)
    have ht : sep ∉ tok := fun hm => h (List.mem_cons_of_mem _ hm)
    obtain ⟨f, fs, h1, h2⟩ := fields_cons_other sep c tok hc
    rw [h2]
    rw [ih ht] at h1
    cases h1
    rfl

theorem strtok_cons_sep (sep : Char) (s : List Char) :
    strtok [sep] (sep :: s) = strtok [sep] s := by
  simp [strtok]

theorem tokenize_loop_cons_sep (sep : Char) (s : List Char) (fuel : Nat) :
    tokenize_loop [sep] (fuel + 1) (sep :: s) = tokenize_loop [sep] (fuel + 1) s := by
  simp only [tokenize_loop, strtok_cons_sep]

/-- A text starts with a separator-free token that ends the text or is followed by a
separator. -/
theorem token_split (sep : Char) (s : List Char) :
    ∃ tok, sep ∉ tok ∧ (s = tok ∨ ∃ rest, s = tok ++ sep :: rest) := by
  induction s with
  | nil => exact ⟨[], by simp, Or.inl rfl⟩
  | cons c s ih =>
    by_cases hc : c = sep
    · exact ⟨[], by simp, Or.inr ⟨s, by rw [hc]; rfl⟩⟩
    · obtain ⟨tok, ht, hs⟩ := ih
      refine ⟨c :: tok, ?_, ?_⟩
      · intro hm
        rcases List.mem_cons.1 hm with e | e
        · exact hc e.symm
        · exact ht e
      · rcases hs with e | ⟨rest, e⟩
        · exact Or.inl (by rw [e])
        · exact Or.inr ⟨rest, by rw [e]; rfl⟩

/-- The tokens of `tokenize` are the non-empty fields. -/
theorem tokenize_loop_fields (sep : Char) :
    ∀ (n : Nat) (s : List Char) (fuel : Nat), s.length ≤ n → s.length < fuel →
      tokenize_loop [sep] fuel s = (fields sep s).filter (fun f => !f.isEmpty) := by
  intro n
  induction n with
  | zero =>
    intro s fuel hn hf
    have : s = [] := List.length_eq_zero.1 (by omega)
    subst this
    cases fuel with
    | zero => omega
    | succ fuel => rfl
  | succ n ih =>
    intro s fuel hn hf
    cases fuel with
    | zero => omega
    | succ fuel =>
      cases s with
      | nil => rfl
      | cons c s1 =>
        by_cases hc : c = sep
        · subst hc
          rw [tokenize_loop_cons_sep, fields_cons_sep]
          simp only [List.length_cons] at hn hf
          rw [ih s1 (fuel + 1) (by omega) (by omega)]
          rfl
        · obtain ⟨tok, ht, hs⟩ := token_split sep (c :: s1)
          have hne : tok ≠ [] := by
            intro e
            subst e
            rcases hs with e | ⟨rest, e⟩
            · cases e
            · simp only [List.nil_append, List.cons.injEq] at e
              exact hc e.1
          have hfree : ∀ x ∈ tok, x ∉ [sep] := by
            intro x hx hx2
            simp only [List.mem_singleton] at hx2
            exact ht (hx2 ▸ hx)
          have hfilter : (!tok.isEmpty) = true := by
            cases tok with
            | nil => exact absurd rfl hne
            | cons a t => rfl
          rcases hs with e | ⟨rest, e⟩
          · rw [e, fields_token_end sep tok ht]
            simp only [tokenize_loop, strtok_token_end [sep] tok hne hfree]
            cases fuel with
            | zero => simp [tokenize_loop, hfilter]
            | succ fuel => simp [tokenize_loop, strtok_nil, hfilter]
          · rw [e, fields_token_sep sep tok rest ht]
            simp only [tokenize_loop,
              strtok_token_delim [sep] tok rest sep (List.mem_singleton_self _) hne hfree]
            have hlen : rest.length < (c :: s1).length := by
              rw [e]; simp only [List.length_append, List.length_cons]; omega
            simp only [List.length_cons] at hn hf hlen
            rw [ih rest fuel (by omega) (by omega)]
            simp [hfilter]

theorem tokenize_fields (sep : Char) (s : List Char) :
    tokenize s [sep] = (fields sep s).filter (fun f => !f.isEmpty) :=
  tokenize_loop_fields sep s.length s (s.length + 1) (Nat.le_refl _) (Nat.lt_succ_self _)
/-- C13 (as amended): for every NUL-terminated frame at the head of the FIFO,
`message_read` returns a message if and only if the frame text has exactly three
non-empty `:`-separated fields, empty fields (from a leading, a trailing or a repeated
`:`) not being counted; the message carries these three fields, the first one read by
`atol`. In every case the frame is taken out of the FIFO with its NUL and the flags
are reset. -/
theorem C13_read_iff_three_nonempty_fields (text rest : List Char) (flag : Bool) (sender : Int)
    (h : NUL ∉ text) :
    ((message_read (bus.mk (text ++ NUL :: rest) flag sender)).1.isSome = true ↔
      ((fields ':' text).filter (fun f => !f.isEmpty)).length = 3) ∧
    (∀ f0 f1 f2, (fields ':' text).filter (fun f => !f.isEmpty) = [f0, f1, f2] →
      (message_read (bus.mk (text ++ NUL :: rest) flag sender)).1 =
        some (message_t.mk (to_pid_t (atol f0)) f1 f2)) ∧
    (message_read (bus.mk (text ++ NUL :: rest) flag sender)).2 = bus.mk rest false (-1) := by
  rw [message_read_frame text rest flag sender h, tokenize_fields]
  refine ⟨?_, ?_, rfl⟩
  · constructor
    · intro hs
      split at hs
      · rename_i f0 f1 f2 heq
        rw [heq]; rfl
      · cases hs
    · intro hl
      obtain ⟨f0, f1, f2, hf⟩ := List.length_eq_three.1 hl
      rw [hf]
      rfl
  · intro f0 f1 f2 hf
    rw [hf]
    rfl

/-- C13, witness: the frame `5:a:x` in front of other bytes. -/
theorem C13_read_iff_three_nonempty_fields_witness :
    NUL ∉ "5:a:x".toList ∧
    (message_read (bus.mk ("5:a:x".toList ++ NUL :: ['y']) true 5)).1 =
      some (message_t.mk 5 ['a'] ['x']) ∧
    (message_read (bus.mk ("5:a:x".toList ++ NUL :: ['y']) true 5)).2 = bus.mk ['y'] false (-1) :=
  ⟨by decide,
    (C13_read_iff_three_nonempty_fields "5:a:x".toList ['y'] true 5 (by decide)).2.1
      ['5'] ['a'] ['x'] rfl,
    (C13_read_iff_three_nonempty_fields "5:a:x".toList ['y'] true 5 (by decide)).2.2⟩

/-- C13, counterexample: the frame `5:a:` has exactly three `:`-separated fields (the
third is empty) and `message_read` returns `NULL`; the frame `5::a:b` has four fields
and `message_read` returns the message `(5, a, b)`. -/
theorem C13_counterexample :
    fields ':' "5:a:".toList = [['5'], ['a'], []] ∧
    (message_read (bus.mk ("5:a:".toList ++ [NUL]) true 5)).1 = none ∧
    fields ':' "5::a:b".toList = [['5'], [], ['a'], ['b']] ∧
    (message_read (bus.mk ("5::a:b".toList ++ [NUL]) true 5)).1 =
      some (message_t.mk 5 ['a'] ['b']) :=
  ⟨rfl, rfl, rfl, rfl⟩

/-! ## C14 -/

/-- C14, the failing input: with the flag set by a signal from process 7 and no byte
in the FIFO, `message_read` returns `NULL` through `if (!str_end)` and leaves
`unread_flag` set and `message_sender` at 7; the same holds when the FIFO holds bytes
without a NUL, which are consumed. A malformed complete frame does reset both. -/
theorem C14_incomplete_read_keeps_flags :
    message_read (bus.mk [] true 7) = (none, bus.mk [] true 7) ∧
    message_unread (message_read (bus.mk [] true 7)).2 = true ∧
    get_message_sender (message_read (bus.mk [] true 7)).2 = 7 ∧
    message_read (bus.mk ['5', ':', 'a'] true 7) = (none, bus.mk [] true 7) ∧
    message_read (bus.mk ['5', ':', 'a', NUL] true 7) = (none, bus.mk [] false (-1)) :=
  ⟨rfl, rfl, rfl, rfl, rfl⟩
/-! ## C15 to C18: the handlers behind `message_handler` -/

theorem message_handler_add (msg : message_t) (root : proc_node) (h : msg.type = MSG_ADD) :
    message_handler msg root = msg_add_handler msg root := by
  simp only [message_handler, if_pos h]

theorem message_handler_info (msg : message_t) (root : proc_node) (h : msg.type = MSG_INFO) :
    message_handler msg root = msg_info_handler msg root := by
  have h1 : ¬ msg.type = MSG_ADD := by rw [h]; decide
  simp only [message_handler, if_neg h1, if_pos h]

theorem message_handler_remove (msg : message_t) (root : proc_node)
    (h : msg.type = MSG_REMOVE) : message_handler msg root = msg_remove_handler msg root := by
  have h1 : ¬ msg.type = MSG_ADD := by rw [h]; decide
  have h2 : ¬ msg.type = MSG_INFO := by rw [h]; decide
  simp only [message_handler, if_neg h1, if_neg h2, if_pos h]

theorem message_handler_list (msg : message_t) (root : proc_node) (h : msg.type = MSG_LIST) :
    message_handler msg root = msg_list_handler msg root := by
  have h1 : ¬ msg.type = MSG_ADD := by rw [h]; decide
  have h2 : ¬ msg.type = MSG_INFO := by rw [h]; decide
  have h3 : ¬ msg.type = MSG_REMOVE := by rw [h]; decide
  simp only [message_handler, if_neg h1, if_neg h2, if_neg h3, if_pos h]

theorem send_success_ne_error (pid : Int) (c1 c2 : Option (List Char)) :
    [action.send pid MSG_ERROR c1] ≠ [action.send pid MSG_SUCCESS c2] := by
  intro h
  simp only [List.cons.injEq, action.send.injEq, and_true] at h
  exact absurd h.2.1 (by decide)

theorem add_fail_tree (root node : proc_node) (h : (proc_node_add root node).1 ≠ 0) :
    (proc_node_add root node).2 = root := by
  rcases add_status root node with ⟨-, ht⟩ | ⟨hs, -⟩
  · exact ht
  · exact absurd hs h

theorem msg_add_handler_none (msg : message_t) (root : proc_node)
    (h : proc_node_fromstr msg.content = none) :
    msg_add_handler msg root = (root, [action.send msg.pid_sender MSG_ERROR none]) := by
  simp only [msg_add_handler, h]

theorem msg_add_handler_ok (msg : message_t) (root node : proc_node)
    (h : proc_node_fromstr msg.content = some node) (hst : (proc_node_add root node).1 = 0) :
    msg_add_handler msg root =
      ((proc_node_add root node).2, [action.send msg.pid_sender MSG_SUCCESS none]) := by
  simp only [msg_add_handler, h, hst, ne_eq, not_true_eq_false, if_false]

theorem msg_add_handler_fail (msg : message_t) (root node : proc_node)
    (h : proc_node_fromstr msg.content = some node) (hst : (proc_node_add root node).1 ≠ 0) :
    msg_add_handler msg root = (root, [action.send msg.pid_sender MSG_ERROR none]) := by
  simp only [msg_add_handler, h, hst, ne_eq, not_false_eq_true, if_true,
    add_fail_tree root node hst]

/-- C15: for every tree and every `ADD` message the supervisor replies `OK` to the
sender if and only if the payload parses as a node and `proc_node_add(root, node)`
succeeds, and then the new tree is the result of that add; otherwise it replies `ERR`
(without payload) and the tree is unchanged. -/
theorem C15_add_reply (root : proc_node) (msg : message_t) (h : msg.type = MSG_ADD) :
    ((message_handler msg root).2 = [action.send msg.pid_sender MSG_SUCCESS none] ↔
      ∃ node, proc_node_fromstr msg.content = some node ∧ (proc_node_add root node).1 = 0) ∧
    (∀ node, proc_node_fromstr msg.content = some node → (proc_node_add root node).1 = 0 →
      (message_handler msg root).1 = (proc_node_add root node).2) ∧
    ((¬ ∃ node, proc_node_fromstr msg.content = some node ∧ (proc_node_add root node).1 = 0) →
      message_handler msg root = (root, [action.send msg.pid_sender MSG_ERROR none])) := by
  rw [message_handler_add msg root h]
  cases hs : proc_node_fromstr msg.content with
  | none =>
    rw [msg_add_handler_none msg root hs]
    refine ⟨⟨fun h1 => absurd h1 (send_success_ne_error _ _ _), ?_⟩, ?_, fun _ => rfl⟩
    · rintro ⟨node, hn, -⟩; cases hn
    · intro node hn; cases hn
  | some node =>
    by_cases hst : (proc_node_add root node).1 = 0
    · rw [msg_add_handler_ok msg root node hs hst]
      refine ⟨⟨fun _ => ⟨node, rfl, hst⟩, fun _ => rfl⟩, ?_, ?_⟩
      · intro n hn _
        cases hn; rfl
      · intro hno
        exact absurd ⟨node, rfl, hst⟩ hno
    · rw [msg_add_handler_fail msg root node hs hst]
      refine ⟨⟨fun h1 => absurd h1 (send_success_ne_error _ _ _), ?_⟩, ?_, fun _ => rfl⟩
      · rintro ⟨n, hn, hn2⟩
        cases hn
        exact absurd hn2 hst
      · intro n hn hn2
        cases hn
        exact absurd hn2 hst

/-- C15, witness: `ADD 2;1;a` from process 2 on the root-only tree with pid 1. -/
theorem C15_add_reply_witness :
    MSG_ADD = MSG_ADD ∧
    (message_handler (message_t.mk 2 MSG_ADD "2;1;a".toList) (proc_node_init 1 0 ['p'])).2 =
      [action.send 2 MSG_SUCCESS none] ∧
    (message_handler (message_t.mk 2 MSG_ADD "2;1;a".toList) (proc_node_init 1 0 ['p'])).1 =
      proc_node.mk 1 0 ['p'] [proc_node.mk 2 1 ['a'] []] :=
  ⟨rfl,
    (C15_add_reply (proc_node_init 1 0 ['p']) (message_t.mk 2 MSG_ADD "2;1;a".toList) rfl).1.2
      ⟨proc_node.mk 2 1 ['a'] [], rfl, rfl⟩,
    (C15_add_reply (proc_node_init 1 0 ['p']) (message_t.mk 2 MSG_ADD "2;1;a".toList) rfl).2.1
      (proc_node.mk 2 1 ['a'] []) rfl rfl⟩

/-- C16: for every tree and every `INFO` message the supervisor replies to the sender
with an `INFO` frame whose payload is `proc_node_tostr` of the node returned by
`proc_node_find_by_name(root, content)` when a node with that name exists, and with
`ERR` carrying `process not found` when none exists; the tree is unchanged in both
cases. -/
theorem C16_info_reply (root : proc_node) (msg : message_t) (h : msg.type = MSG_INFO) :
    (∃ ptr node, proc_node_find_by_name root msg.content = some ptr ∧
      deref root ptr = some node ∧ node.name = msg.content ∧
      message_handler msg root =
        (root, [action.send msg.pid_sender MSG_INFO (some (proc_node_tostr node))])) ∨
    ((∀ n ∈ preorder root, n.name ≠ msg.content) ∧
      proc_node_find_by_name root msg.content = none ∧
      message_handler msg root =
        (root, [action.send msg.pid_sender MSG_ERROR
          (some ['p', 'r', 'o', 'c', 'e', 's', 's', ' ', 'n', 'o', 't', ' ',
                 'f', 'o', 'u', 'n', 'd'])])) := by
  rw [message_handler_info msg root h]
  unfold msg_info_handler
  cases hf : proc_node_find_by_name root msg.content with
  | none =>
    right
    refine ⟨?_, rfl, rfl⟩
    intro n hn
    have := (find_by_name_none root msg.content).1 hf
    intro e
    exact this (List.mem_map.2 ⟨n, hn, e⟩)
  | some ptr =>
    left
    have hf2 := hf
    rw [find_by_name_eq] at hf2
    obtain ⟨node, hnode, hP⟩ := find_first_deref _ root ptr hf2
    refine ⟨ptr, node, rfl, hnode, by simpa using hP, ?_⟩
    simp only [Option.some_bind, Option.bind_eq_bind, hnode]

/-- C16, witness: `INFO a` from process 9 on the tree `1 → 2` whose node 2 is named `a`. -/
theorem C16_info_reply_witness :
    message_handler (message_t.mk 9 MSG_INFO ['a'])
        (proc_node.mk 1 0 ['p'] [proc_node.mk 2 1 ['a'] []]) =
      (proc_node.mk 1 0 ['p'] [proc_node.mk 2 1 ['a'] []],
        [action.send 9 MSG_INFO (some "2;1;a".toList)]) := by
  rcases C16_info_reply (proc_node.mk 1 0 ['p'] [proc_node.mk 2 1 ['a'] []])
    (message_t.mk 9 MSG_INFO ['a']) rfl with ⟨ptr, node, h1, h2, -, h4⟩ | ⟨-, h2, -⟩
  · have e : ptr = [0] := by
      have : proc_node_find_by_name (proc_node.mk 1 0 ['p'] [proc_node.mk 2 1 ['a'] []]) ['a'] =
          some [0] := rfl
      rw [this] at h1
      exact (Option.some.inj h1).symm
    subst e
    cases h2
    exact h4
  · cases h2
theorem remove_fail_tree (root : proc_node) (pid : Int)
    (h : (proc_node_remove root pid).1 ≠ 0) : (proc_node_remove root pid).2 = root := by
  rcases remove_cases root pid with e | ⟨_, _, _, _, _, -, -, -, -, -, -, e⟩
  · rw [e]
  · rw [e] at h
    exact absurd rfl h

theorem remove_with_children (root : proc_node) (pid : Int) (ptr : List Nat) (node : proc_node)
    (h1 : proc_node_find_by_pid root pid = some ptr) (h2 : deref root ptr = some node)
    (h3 : node.children ≠ []) : proc_node_remove root pid = (1, root) := by
  have : node.children.length ≠ 0 := fun h => h3 (List.length_eq_zero.1 h)
  simp only [proc_node_remove, h1, h2, this, ne_eq, not_false_eq_true, if_true]

/-- C17: for every tree and every `REMOVE` message the supervisor applies
`proc_node_remove` to the sender pid of the message, whatever the payload is, and
replies `OK` to the sender if and only if that removal succeeded, `ERR` with the
payload `failed to remove process from tree` otherwise; when the node found for the
sender pid has children the tree stays as it is and the reply is `ERR`. -/
theorem C17_remove_reply (root : proc_node) (msg : message_t) (h : msg.type = MSG_REMOVE) :
    (message_handler msg root).1 = (proc_node_remove root msg.pid_sender).2 ∧
    (∀ content, message_handler (message_t.mk msg.pid_sender msg.type content) root =
      message_handler msg root) ∧
    ((message_handler msg root).2 = [action.send msg.pid_sender MSG_SUCCESS none] ↔
      (proc_node_remove root msg.pid_sender).1 = 0) ∧
    ((proc_node_remove root msg.pid_sender).1 ≠ 0 →
      message_handler msg root =
        (root, [action.send msg.pid_sender MSG_ERROR
          (some "failed to remove process from tree".toList)])) ∧
    (∀ ptr node, proc_node_find_by_pid root msg.pid_sender = some ptr →
      deref root ptr = some node → node.children ≠ [] →
      message_handler msg root =
        (root, [action.send msg.pid_sender MSG_ERROR
          (some "failed to remove process from tree".toList)])) := by
  have hfail : (proc_node_remove root msg.pid_sender).1 ≠ 0 →
      message_handler msg root =
        (root, [action.send msg.pid_sender MSG_ERROR
          (some "failed to remove process from tree".toList)]) := by
    intro hst
    rw [message_handler_remove msg root h]
    simp only [msg_remove_handler, if_neg hst, remove_fail_tree root _ hst]
  refine ⟨?_, ?_, ?_, hfail, ?_⟩
  · rw [message_handler_remove msg root h]
    unfold msg_remove_handler
    split <;> rfl
  · intro content
    rw [message_handler_remove msg root h,
      message_handler_remove (message_t.mk msg.pid_sender msg.type content) root h]
    rfl
  · by_cases hst : (proc_node_remove root msg.pid_sender).1 = 0
    · refine ⟨fun _ => hst, fun _ => ?_⟩
      rw [message_handler_remove msg root h]
      unfold msg_remove_handler
      rw [if_pos hst]
    · rw [hfail hst]
      exact ⟨fun h1 => absurd h1 (send_success_ne_error _ _ _), fun h1 => absurd h1 hst⟩
  · intro ptr node h1 h2 h3
    apply hfail
    rw [remove_with_children root _ ptr node h1 h2 h3]
    show (1 : Int) ≠ 0
    decide

/-- C17, witness: in the tree `1 → 2 → 3` a `REMOVE` from 3 is answered `OK` and a
`REMOVE` from 2 is answered `ERR`. -/
theorem C17_remove_reply_witness :
    (message_handler (message_t.mk 3 MSG_REMOVE "NULL".toList)
      (proc_node.mk 1 0 ['p'] [proc_node.mk 2 1 ['a'] [proc_node.mk 3 2 ['b'] []]])).2 =
      [action.send 3 MSG_SUCCESS none] ∧
    message_handler (message_t.mk 2 MSG_REMOVE "NULL".toList)
      (proc_node.mk 1 0 ['p'] [proc_node.mk 2 1 ['a'] [proc_node.mk 3 2 ['b'] []]]) =
      (proc_node.mk 1 0 ['p'] [proc_node.mk 2 1 ['a'] [proc_node.mk 3 2 ['b'] []]],
        [action.send 2 MSG_ERROR (some "failed to remove process from tree".toList)]) :=
  ⟨(C17_remove_reply
      (proc_node.mk 1 0 ['p'] [proc_node.mk 2 1 ['a'] [proc_node.mk 3 2 ['b'] []]])
      (message_t.mk 3 MSG_REMOVE "NULL".toList) rfl).2.2.1.2 rfl,
    (C17_remove_reply
      (proc_node.mk 1 0 ['p'] [proc_node.mk 2 1 ['a'] [proc_node.mk 3 2 ['b'] []]])
      (message_t.mk 2 MSG_REMOVE "NULL".toList) rfl).2.2.2.2 [0]
      (proc_node.mk 2 1 ['a'] [proc_node.mk 3 2 ['b'] []]) rfl rfl (List.cons_ne_nil _ _)⟩

/-- C18: for every message whose type is none of ADD, INFO, REMOVE and LIST (so for the
types OK, ERR and SPAWN) `message_handler` replies `ERR` with the payload
`unrecognized message type` to the sender and leaves the tree unchanged; a message of
one of the four types goes to the handler of that type, and as the four types are
pairwise distinct every message takes exactly one of the five ways. -/
theorem C18_dispatch (root : proc_node) (msg : message_t) :
    ((msg.type ≠ MSG_ADD ∧ msg.type ≠ MSG_INFO ∧ msg.type ≠ MSG_REMOVE ∧ msg.type ≠ MSG_LIST) →
      message_handler msg root =
        (root, [action.send msg.pid_sender MSG_ERROR
          (some "unrecognized message type".toList)])) ∧
    ((msg.type = MSG_SUCCESS ∨ msg.type = MSG_ERROR ∨ msg.type = MSG_SPAWN) →
      message_handler msg root =
        (root, [action.send msg.pid_sender MSG_ERROR
          (some "unrecognized message type".toList)])) ∧
    (msg.type = MSG_ADD → message_handler msg root = msg_add_handler msg root) ∧
    (msg.type = MSG_INFO → message_handler msg root = msg_info_handler msg root) ∧
    (msg.type = MSG_REMOVE → message_handler msg root = msg_remove_handler msg root) ∧
    (msg.type = MSG_LIST → message_handler msg root = msg_list_handler msg root) ∧
    [MSG_ADD, MSG_INFO, MSG_REMOVE, MSG_LIST].Nodup := by
  have hother : (msg.type ≠ MSG_ADD ∧ msg.type ≠ MSG_INFO ∧ msg.type ≠ MSG_REMOVE ∧
      msg.type ≠ MSG_LIST) →
      message_handler msg root =
        (root, [action.send msg.pid_sender MSG_ERROR
          (some "unrecognized message type".toList)]) := by
    rintro ⟨h1, h2, h3, h4⟩
    simp only [message_handler, if_neg h1, if_neg h2, if_neg h3, if_neg h4]
  refine ⟨hother, ?_, message_handler_add msg root, message_handler_info msg root,
    message_handler_remove msg root, message_handler_list msg root, by decide⟩
  intro h
  apply hother
  rcases h with h | h | h <;> rw [h] <;> decide

/-- C18, witness: a `SPAWN` frame from process 7 on the root-only tree. -/
theorem C18_dispatch_witness :
    message_handler (message_t.mk 7 MSG_SPAWN "NULL".toList) (proc_node_init 1 0 ['p']) =
      (proc_node_init 1 0 ['p'],
        [action.send 7 MSG_ERROR (some "unrecognized message type".toList)]) :=
  (C18_dispatch (proc_node_init 1 0 ['p']) (message_t.mk 7 MSG_SPAWN "NULL".toList)).2.1
    (Or.inr (Or.inr rfl))

/-! ## C19 and C20: the stream of `msg_list_handler` -/

theorem list_trace_nil (s : Int) : list_trace s [] = [action.send s MSG_SUCCESS none] := rfl

theorem list_trace_cons (s : Int) (p : proc_node) (ps : List proc_node) :
    list_trace s (p :: ps) =
      action.send s MSG_INFO (some (proc_node_tostr p)) :: action.wait s :: list_trace s ps := rfl

theorem run_actions_send (pid : Int) (type : List Char) (content : Option (List Char))
    (rest : List action) (b : bus) (ns : List nudge) :
    run_actions (action.send pid type content :: rest) b ns =
      (action.send pid type content :: (run_actions rest b ns).1, (run_actions rest b ns).2) := rfl

theorem run_actions_wait_some (s : Int) (rest : List action) (b : bus) (ns ns1 : List nudge)
    (r : Option message_t × bus) (h : message_wait s b ns = some (r, ns1)) :
    run_actions (action.wait s :: rest) b ns = run_actions rest r.2 ns1 := by
  simp only [run_actions, h]

theorem run_actions_wait_none (s : Int) (rest : List action) (b : bus) (ns : List nudge)
    (h : message_wait s b ns = none) :
    run_actions (action.wait s :: rest) b ns = ([], false, b, []) := by
  simp only [run_actions, h]

theorem keeps_waiting_deliver (s : Int) (n : nudge) (b : bus) (h : n.si_pid = s) :
    keeps_waiting s (deliver n b) = false := by
  simp [keeps_waiting, deliver, set_unread_flag, message_unread, get_message_sender, h]

theorem keeps_waiting_deliver_other (s : Int) (n : nudge) (b : bus) (hs : s ≠ -1)
    (h : n.si_pid ≠ s) : keeps_waiting s (deliver n b) = true := by
  simp [keeps_waiting, deliver, set_unread_flag, message_unread, get_message_sender, hs,
    Ne.symm h]

theorem message_wait_ready (s : Int) (b : bus) (ns : List nudge)
    (h : keeps_waiting s b = false) : message_wait s b ns = some (message_read b, ns) := by
  cases ns <;> simp [message_wait, h]

theorem message_wait_step (s : Int) (b : bus) (n : nudge) (ns : List nudge)
    (h : keeps_waiting s b = true) :
    message_wait s b (n :: ns) = message_wait s (deliver n b) ns := by
  simp [message_wait, h]

theorem message_wait_from_sender (s : Int) (b : bus) (n : nudge) (ns : List nudge)
    (h : n.si_pid = s) :
    ∃ r, message_wait s b (n :: ns) = some (r, ns) ∨
      message_wait s b (n :: ns) = some (r, n :: ns) := by
  cases hk : keeps_waiting s b with
  | true =>
    refine ⟨message_read (deliver n b), Or.inl ?_⟩
    rw [message_wait_step s b n ns hk, message_wait_ready s _ ns (keeps_waiting_deliver s n b h)]
  | false => exact ⟨message_read b, Or.inr (message_wait_ready s b _ hk)⟩

theorem message_wait_blocked (s : Int) (hs : s ≠ -1) :
    ∀ (pre : List nudge) (b : bus), keeps_waiting s b = true →
      (∀ n ∈ pre, n.si_pid ≠ s) → message_wait s b pre = none := by
  intro pre
  induction pre with
  | nil => intro b hb _; simp [message_wait, hb]
  | cons n pre ih =>
    intro b hb hpre
    rw [message_wait_step s b n pre hb]
    exact ih _ (keeps_waiting_deliver_other s n b hs (hpre n (List.mem_cons_self _ _)))
      (fun x hx => hpre x (List.mem_cons_of_mem _ hx))

theorem message_wait_released (s : Int) (hs : s ≠ -1) (bytes : List Char) (post : List nudge) :
    ∀ (pre : List nudge) (b : bus), keeps_waiting s b = true →
      (∀ n ∈ pre, n.si_pid ≠ s) →
      message_wait s b (pre ++ nudge.mk s bytes :: post) =
        some (message_read (deliver (nudge.mk s bytes) (deliver_all pre b)), post) := by
  intro pre
  induction pre with
  | nil =>
    intro b hb _
    rw [List.nil_append, message_wait_step s b _ post hb,
      message_wait_ready s _ post (keeps_waiting_deliver s _ b rfl)]
    rfl
  | cons n pre ih =>
    intro b hb hpre
    rw [List.cons_append, message_wait_step s b n _ hb,
      ih _ (keeps_waiting_deliver_other s n b hs (hpre n (List.mem_cons_self _ _)))
        (fun x hx => hpre x (List.mem_cons_of_mem _ hx))]
    rfl

/-- With one signal of the caller for every entry the loop runs to its end. -/
theorem run_list_trace (s : Int) :
    ∀ (procs : List proc_node) (b : bus) (ns : List nudge),
      (∀ n ∈ ns, n.si_pid = s) → procs.length ≤ ns.length →
      (run_actions (list_trace s procs) b ns).1 =
        procs.map (fun p => action.send s MSG_INFO (some (proc_node_tostr p))) ++
          [action.send s MSG_SUCCESS none] ∧
      (run_actions (list_trace s procs) b ns).2.1 = true := by
  intro procs
  induction procs with
  | nil => intro b ns _ _; exact ⟨rfl, rfl⟩
  | cons p ps ih =>
    intro b ns hns hlen
    cases ns with
    | nil => simp at hlen
    | cons n ns =>
      rw [list_trace_cons, run_actions_send]
      obtain ⟨r, hr | hr⟩ := message_wait_from_sender s b n ns (hns n (List.mem_cons_self _ _))
      · rw [run_actions_wait_some s _ b _ _ r hr]
        have := ih r.2 ns (fun x hx => hns x (List.mem_cons_of_mem _ hx))
          (by simp only [List.length_cons] at hlen; omega)
        exact ⟨by rw [this.1]; rfl, this.2⟩
      · rw [run_actions_wait_some s _ b _ _ r hr]
        have := ih r.2 (n :: ns) hns
          (by simp only [List.length_cons] at hlen ⊢; omega)
        exact ⟨by rw [this.1]; rfl, this.2⟩

theorem get_array_take (t : proc_node) :
    (proc_node_get_array t).1.take (proc_node_get_array t).2 =
      (preorder t).map childless_copy := by
  have h := get_array_rec_spec t ([], 0, 0)
  have h1 : (proc_node_get_array t).1 = (preorder t).map childless_copy := by
    simpa [proc_node_get_array] using h.1
  have h2 : (proc_node_get_array t).2 = node_count t := by
    simpa [proc_node_get_array] using h.2
  rw [h1, h2, node_count_eq_length]
  exact List.take_of_length_le (by simp)

theorem tostr_childless_copy (n : proc_node) :
    proc_node_tostr (childless_copy n) = proc_node_tostr n := by
  cases n; rfl

theorem msg_list_handler_found (msg : message_t) (root node : proc_node) (ptr : List Nat)
    (h1 : proc_node_find_by_name root msg.content = some ptr)
    (h2 : deref root ptr = some node) :
    msg_list_handler msg root =
      (root, list_trace msg.pid_sender ((preorder node).map childless_copy)) := by
  simp only [msg_list_handler, h1, Option.some_bind, Option.bind_eq_bind, h2, get_array_take,
    list_trace]

theorem msg_list_handler_none (msg : message_t) (root : proc_node)
    (h1 : proc_node_find_by_name root msg.content = none) :
    msg_list_handler msg root =
      (root, [action.send msg.pid_sender MSG_ERROR (some "process not found".toList)]) := by
  simp only [msg_list_handler, h1, Option.none_bind, Option.bind_eq_bind]

/-- C19: for every tree and every `LIST` message, when `proc_node_find_by_name` finds a
node for the payload (it has the name of the payload) and the caller signals the
supervisor once for every `INFO` (for instance with an `OK` frame), the supervisor sends
to the caller exactly `k + 1` frames, `k` the number of nodes of the subtree: one `INFO`
with `proc_node_tostr` of every node of the subtree in pre-order, then one `OK`, and the
handler runs to its end; when no node has the name of the payload the supervisor sends
one `ERR` (`process not found`) and nothing else. The tree is unchanged. -/
theorem C19_list_stream (root : proc_node) (msg : message_t) (b : bus) (ns : List nudge)
    (h : msg.type = MSG_LIST) :
    (∀ ptr node, proc_node_find_by_name root msg.content = some ptr →
      deref root ptr = some node →
      (∀ n ∈ ns, n.si_pid = msg.pid_sender) → node_count node ≤ ns.length →
      node.name = msg.content ∧
      (run_actions (message_handler msg root).2 b ns).1 =
        (preorder node).map
          (fun n => action.send msg.pid_sender MSG_INFO (some (proc_node_tostr n))) ++
        [action.send msg.pid_sender MSG_SUCCESS none] ∧
      (run_actions (message_handler msg root).2 b ns).1.length = node_count node + 1 ∧
      (run_actions (message_handler msg root).2 b ns).2.1 = true) ∧
    (proc_node_find_by_name root msg.content = none →
      run_actions (message_handler msg root).2 b ns =
        ([action.send msg.pid_sender MSG_ERROR (some "process not found".toList)],
          true, b, ns)) ∧
    (proc_node_find_by_name root msg.content = none ↔
      ∀ n ∈ preorder root, n.name ≠ msg.content) ∧
    (message_handler msg root).1 = root := by
  rw [message_handler_list msg root h]
  refine ⟨?_, ?_, ?_, ?_⟩
  · intro ptr node h1 h2 hns hlen
    have hname : node.name = msg.content := by
      have hf := h1
      rw [find_by_name_eq] at hf
      obtain ⟨n, hn, hP⟩ := find_first_deref _ root ptr hf
      rw [h2] at hn
      cases hn
      simpa using hP
    rw [msg_list_handler_found msg root node ptr h1 h2]
    have hr := run_list_trace msg.pid_sender ((preorder node).map childless_copy) b ns hns
      (by rw [List.length_map, ← node_count_eq_length]; exact hlen)
    have e : ((preorder node).map childless_copy).map
        (fun p => action.send msg.pid_sender MSG_INFO (some (proc_node_tostr p))) =
        (preorder node).map
          (fun n => action.send msg.pid_sender MSG_INFO (some (proc_node_tostr n))) := by
      rw [List.map_map]
      apply List.map_congr_left
      intro n _
      show action.send msg.pid_sender MSG_INFO (some (proc_node_tostr (childless_copy n))) = _
      rw [tostr_childless_copy]
    rw [e] at hr
    refine ⟨hname, hr.1, ?_, hr.2⟩
    rw [hr.1, List.length_append, List.length_map, ← node_count_eq_length]
    rfl
  · intro h1
    rw [msg_list_handler_none msg root h1]
    rfl
  · rw [find_by_name_none]
    simp only [names, List.mem_map, not_exists, not_and]
  · unfold msg_list_handler
    split <;> rfl

/-- C19, witness: `LIST a` from process 9 on the tree `1 → 2 → 4` (node 2 is named `a`),
the caller answering `OK` twice. -/
theorem C19_list_stream_witness :
    (run_actions
      (message_handler (message_t.mk 9 MSG_LIST ['a'])
        (proc_node.mk 1 0 ['p'] [proc_node.mk 2 1 ['a'] [proc_node.mk 4 2 ['c'] []]])).2
      (bus.mk [] false (-1))
      (List.replicate 2 (nudge.mk 9 (message_str 9 MSG_SUCCESS none ++ [NUL])))).1 =
      [action.send 9 MSG_INFO (some "2;1;a".toList),
       action.send 9 MSG_INFO (some "4;2;c".toList),
       action.send 9 MSG_SUCCESS none] :=
  ((C19_list_stream
      (proc_node.mk 1 0 ['p'] [proc_node.mk 2 1 ['a'] [proc_node.mk 4 2 ['c'] []]])
      (message_t.mk 9 MSG_LIST ['a']) (bus.mk [] false (-1))
      (List.replicate 2 (nudge.mk 9 (message_str 9 MSG_SUCCESS none ++ [NUL]))) rfl).1
    [0] (proc_node.mk 2 1 ['a'] [proc_node.mk 4 2 ['c'] []]) rfl rfl
    (by intro n hn; rw [List.eq_of_mem_replicate hn]) (by decide)).2.1

/-- C20, counterexample: during `LIST a` from process 9 on the tree `1 → 2 → 4` the
caller answers the first `INFO` with an `ERR` frame; the supervisor reads that frame and
sends the second `INFO`: the stream has advanced. -/
theorem C20_counterexample :
    message_wait 9 (bus.mk [] false (-1))
        [nudge.mk 9 (message_str 9 MSG_ERROR none ++ [NUL])] =
      some ((some (message_t.mk 9 MSG_ERROR "NULL".toList), bus.mk [] false (-1)), []) ∧
    (run_actions
      (message_handler (message_t.mk 9 MSG_LIST ['a'])
        (proc_node.mk 1 0 ['p'] [proc_node.mk 2 1 ['a'] [proc_node.mk 4 2 ['c'] []]])).2
      (bus.mk [] false (-1))
      [nudge.mk 9 (message_str 9 MSG_ERROR none ++ [NUL])]).1 =
      [action.send 9 MSG_INFO (some "2;1;a".toList),
       action.send 9 MSG_INFO (some "4;2;c".toList)] := by
  constructor <;> rfl

/-- C20 (amended): while streaming a `LIST` reply to a caller other than `-1`, the
supervisor, waiting after the `INFO` of an entry, stays there as long as only other
processes signal it: it sends nothing more and the handler does not end. After the first
signal of the caller it reads one frame and goes on with the next entry (or the final
`OK`) whatever was written with that signal: a frame of any kind, `OK` or not. -/
theorem C20_advance_on_caller_signal (s : Int) (p : proc_node) (ps : List proc_node)
    (b : bus) (pre : List nudge) (hs : s ≠ -1) (hb : keeps_waiting s b = true)
    (hpre : ∀ n ∈ pre, n.si_pid ≠ s) :
    (run_actions (list_trace s (p :: ps)) b pre).1 =
      [action.send s MSG_INFO (some (proc_node_tostr p))] ∧
    (run_actions (list_trace s (p :: ps)) b pre).2.1 = false ∧
    (∀ (bytes : List Char) (post : List nudge),
      run_actions (list_trace s (p :: ps)) b (pre ++ nudge.mk s bytes :: post) =
        (action.send s MSG_INFO (some (proc_node_tostr p)) ::
          (run_actions (list_trace s ps)
            (message_read (deliver (nudge.mk s bytes) (deliver_all pre b))).2 post).1,
         (run_actions (list_trace s ps)
            (message_read (deliver (nudge.mk s bytes) (deliver_all pre b))).2 post).2)) ∧
    (∀ (msg : message_t) (root node : proc_node) (ptr : List Nat),
      proc_node_find_by_name root msg.content = some ptr → deref root ptr = some node →
      msg_list_handler msg root =
        (root, list_trace msg.pid_sender ((preorder node).map childless_copy))) := by
  refine ⟨?_, ?_, ?_, ?_⟩
  · rw [list_trace_cons, run_actions_send,
      run_actions_wait_none s _ b pre (message_wait_blocked s hs pre b hb hpre)]
  · rw [list_trace_cons, run_actions_send,
      run_actions_wait_none s _ b pre (message_wait_blocked s hs pre b hb hpre)]
  · intro bytes post
    rw [list_trace_cons, run_actions_send,
      run_actions_wait_some s _ b _ post _ (message_wait_released s hs bytes post pre b hb hpre)]
  · intro msg root node ptr h1 h2
    exact msg_list_handler_found msg root node ptr h1 h2

/-- C20 (amended), witness: the entry `2;1;a` is followed by the entry `4;2;c`; a signal
of process 5 does not release the supervisor. -/
theorem C20_advance_on_caller_signal_witness :
    (run_actions (list_trace 9 [proc_node_init 2 1 ['a'], proc_node_init 4 2 ['c']])
      (bus.mk [] false (-1)) [nudge.mk 5 []]).1 =
      [action.send 9 MSG_INFO (some (proc_node_tostr (proc_node_init 2 1 ['a'])))] ∧
    (run_actions (list_trace 9 [proc_node_init 2 1 ['a'], proc_node_init 4 2 ['c']])
      (bus.mk [] false (-1)) [nudge.mk 5 []]).2.1 = false :=
  ⟨(C20_advance_on_caller_signal 9 (proc_node_init 2 1 ['a']) [proc_node_init 4 2 ['c']]
      (bus.mk [] false (-1)) [nudge.mk 5 []] (by decide) rfl
      (by intro n hn; rw [List.mem_singleton.1 hn]; decide)).1,
   (C20_advance_on_caller_signal 9 (proc_node_init 2 1 ['a']) [proc_node_init 4 2 ['c']]
      (bus.mk [] false (-1)) [nudge.mk 5 []] (by decide) rfl
      (by intro n hn; rw [List.mem_singleton.1 hn]; decide)).2.1⟩

/-! ## C30: the probe before an `ADD` keeps the names distinct -/

theorem info_probe_error (root : proc_node) (sender : Int) (name : List Char) :
    (message_handler (message_t.mk sender MSG_INFO name) root).2 =
        [action.send sender MSG_ERROR (some "process not found".toList)] ↔
      proc_node_find_by_name root name = none := by
  rw [message_handler_info _ root rfl]
  unfold msg_info_handler
  cases hf : proc_node_find_by_name root name with
  | none => exact ⟨fun _ => rfl, fun _ => rfl⟩
  | some ptr =>
    have hf2 := hf
    rw [find_by_name_eq] at hf2
    obtain ⟨n, hn, -⟩ := find_first_deref _ root ptr hf2
    simp only [Option.some_bind, Option.bind_eq_bind, hn]
    constructor
    · intro h
      have h1 := List.head_eq_of_cons_eq h
      injection h1 with _ h2 _
      exact absurd h2 (by decide)
    · intro h
      cases h

/-- C30: if the names of a tree are pairwise distinct and `proc_node_find_by_name`
returns `NULL` for the name of a node (which is the case exactly when the `INFO` probe
for that name is answered `ERR`), then after a successful `proc_node_add` of the node
the names of the tree are still pairwise distinct; and `proc_node_remove` keeps the
names pairwise distinct whatever pid it is called with. -/
theorem C30_probe_keeps_names_distinct (root node : proc_node) (pid sender : Int)
    (h : (names root).Nodup) :
    (proc_node_find_by_name root node.name = none → (proc_node_add root node).1 = 0 →
      (names (proc_node_add root node).2).Nodup) ∧
    ((message_handler (message_t.mk sender MSG_INFO node.name) root).2 =
        [action.send sender MSG_ERROR (some "process not found".toList)] ↔
      proc_node_find_by_name root node.name = none) ∧
    (names (proc_node_remove root pid).2).Nodup :=
  ⟨fun hf _ => add_names root node h ((find_by_name_none root node.name).1 hf),
   info_probe_error root sender node.name, remove_names root pid h⟩

/-- C30, witness: the tree `1 → 2` with the names `p` and `a`, the new node `3;1;b` and
the removal of pid 2. -/
theorem C30_probe_keeps_names_distinct_witness :
    (names (proc_node_add (proc_node.mk 1 0 ['p'] [proc_node.mk 2 1 ['a'] []])
      (proc_node_init 3 1 ['b'])).2).Nodup ∧
    (names (proc_node_remove (proc_node.mk 1 0 ['p'] [proc_node.mk 2 1 ['a'] []]) 2).2).Nodup :=
  ⟨(C30_probe_keeps_names_distinct (proc_node.mk 1 0 ['p'] [proc_node.mk 2 1 ['a'] []])
      (proc_node_init 3 1 ['b']) 2 9 (by decide)).1 rfl rfl,
   (C30_probe_keeps_names_distinct (proc_node.mk 1 0 ['p'] [proc_node.mk 2 1 ['a'] []])
      (proc_node_init 3 1 ['b']) 2 9 (by decide)).2.2⟩

/-! ## C21 to C23: the child agent -/

theorem to_int_id (x : Int) (h1 : -(2 ^ 31) ≤ x) (h2 : x < 2 ^ 31) : to_int x = x := by
  unfold to_int
  omega

theorem child_clone_cases (st : child_state) (sender : Int) (env : clone_env)
    (hfork : env.fork_result ≠ 0)
    (hdef : env.name_built = true → env.info_sent = true → env.info_response ≠ none) :
    match child_clone st sender env with
    | none => False
    | some r =>
      r.1.clones_count =
        (if add_answered_ok env then to_int (st.clones_count + 1) else st.clones_count) ∧
      r.1.child_name = st.child_name ∧ r.1.pid_pmanager = st.pid_pmanager := by
  obtain ⟨nb, is, ir, fr, sp, as, ar⟩ := env
  simp only at hfork hdef
  cases nb with
  | false => simp [child_clone, add_answered_ok]
  | true =>
    cases is with
    | false => simp [child_clone, add_answered_ok]
    | true =>
      cases ir with
      | none => exact absurd rfl (hdef rfl rfl)
      | some r =>
        by_cases h1 : r.type = MSG_INFO
        · simp [child_clone, add_answered_ok, h1]
        · by_cases h2 : fr = -1
          · simp [child_clone, add_answered_ok, h1, h2]
          · cases as with
            | false => simp [child_clone, add_answered_ok, h1, h2, hfork, send_proc_to_pmanager]
            | true =>
              cases ar with
              | none =>
                simp [child_clone, add_answered_ok, h1, h2, hfork, send_proc_to_pmanager]
              | some r2 =>
                by_cases h3 : r2.type = MSG_SUCCESS
                · simp [child_clone, add_answered_ok, h1, h2, hfork, send_proc_to_pmanager, h3]
                · simp [child_clone, add_answered_ok, h1, h2, hfork, send_proc_to_pmanager, h3]

/-- One `SPAWN` request in the requesting process: the counter moves exactly when the
`ADD` was answered `OK`. -/
theorem child_clone_count (st : child_state) (sender : Int) (env : clone_env)
    (hfork : env.fork_result ≠ 0)
    (hdef : env.name_built = true → env.info_sent = true → env.info_response ≠ none) :
    ∃ st1 evs, child_clone st sender env = some (st1, evs) ∧
      st1.clones_count =
        (if add_answered_ok env then to_int (st.clones_count + 1) else st.clones_count) ∧
      st1.child_name = st.child_name ∧ st1.pid_pmanager = st.pid_pmanager := by
  have h := child_clone_cases st sender env hfork hdef
  cases hc : child_clone st sender env with
  | none => rw [hc] at h; exact h.elim
  | some r =>
    rw [hc] at h
    exact ⟨r.1, r.2, rfl, h⟩

/-- The whole trace of a spawn whose `ADD` is answered `OK`. -/
theorem child_clone_ok (st : child_state) (sender : Int) (env : clone_env)
    (h : add_answered_ok env = true) :
    child_clone st sender env =
      some (child_state.mk (to_int (st.clones_count + 1)) st.pid_pmanager st.child_name
          st.sigterm_flag st.sigterm_sender,
        [event.send st.pid_pmanager MSG_INFO (some (clone_name st)),
         event.wait st.pid_pmanager, event.fork env.fork_result,
         event.send st.pid_pmanager MSG_ADD
           (some (proc_node_tostr (proc_node_init env.fork_result env.self_pid (clone_name st)))),
         event.wait st.pid_pmanager,
         event.send sender MSG_SUCCESS none]) := by
  obtain ⟨nb, is, ir, fr, sp, as, ar⟩ := env
  cases ir with
  | none => simp [add_answered_ok] at h
  | some r =>
    cases ar with
    | none => simp [add_answered_ok] at h
    | some r2 =>
      simp only [add_answered_ok, Bool.and_eq_true, decide_eq_true_eq] at h
      obtain ⟨⟨⟨⟨⟨⟨h1, h2⟩, h3⟩, h4⟩, h5⟩, h6⟩, h7⟩ := h
      subst h1 h2 h6
      simp [child_clone, h3, h4, h5, h7, send_proc_to_pmanager, resume_process]

theorem spawn_all_count :
    ∀ (reqs : List (Int × clone_env)) (st : child_state),
      (∀ r ∈ reqs, r.2.fork_result ≠ 0) →
      (∀ r ∈ reqs, r.2.name_built = true → r.2.info_sent = true → r.2.info_response ≠ none) →
      0 ≤ st.clones_count → st.clones_count + reqs.length < 2 ^ 31 →
      ∃ st1 evs, spawn_all st reqs = some (st1, evs) ∧
        st1.clones_count =
          st.clones_count + ((reqs.filter (fun r => add_answered_ok r.2)).length : Int) ∧
        st1.child_name = st.child_name ∧ st1.pid_pmanager = st.pid_pmanager := by
  intro reqs
  induction reqs with
  | nil => intro st _ _ _ _; exact ⟨st, [], rfl, by simp, rfl, rfl⟩
  | cons r reqs ih =>
    intro st hf hd h0 hb
    obtain ⟨sender, env⟩ := r
    obtain ⟨st1, evs, e1, c1, n1, p1⟩ := child_clone_count st sender env
      (hf _ (List.mem_cons_self _ _)) (hd _ (List.mem_cons_self _ _))
    simp only [List.length_cons, Nat.cast_add, Nat.cast_one] at hb
    have hc : st1.clones_count =
        st.clones_count + (if add_answered_ok env then (1 : Int) else 0) := by
      rw [c1]
      split
      · rw [to_int_id _ (by omega) (by omega)]
      · simp
    have hle : st1.clones_count ≤ st.clones_count + 1 := by
      rw [hc]; split <;> omega
    have hge : 0 ≤ st1.clones_count := by
      rw [hc]; split <;> omega
    obtain ⟨st2, evs2, e2, c2, n2, p2⟩ := ih st1
      (fun x hx => hf x (List.mem_cons_of_mem _ hx))
      (fun x hx => hd x (List.mem_cons_of_mem _ hx)) hge (by omega)
    refine ⟨st2, evs ++ evs2, by simp only [spawn_all, e1, e2], ?_, by rw [n2, n1],
      by rw [p2, p1]⟩
    rw [c2, hc]
    by_cases hok : add_answered_ok env = true
    · rw [List.filter_cons_of_pos (by simpa using hok)]
      simp only [hok, if_true, List.length_cons, Nat.cast_add, Nat.cast_one]
      omega
    · rw [List.filter_cons_of_neg (by simpa using hok)]
      simp only [hok]
      simp

theorem clone_name_ok (st : child_state) (h : ';' ∉ st.child_name) :
    clone_name st ≠ [] ∧ ';' ∉ clone_name st := by
  constructor
  · simp [clone_name]
  · intro hm
    simp only [clone_name, List.mem_append, List.mem_cons] at hm
    rcases hm with hm | hm | hm
    · exact h hm
    · exact absurd hm (by decide)
    · exact fmt_ld_no_semicolon _ hm

/-- C21: for a child agent named `N` and every sequence of `SPAWN` requests handled by
it (with fewer than `2^31` requests, so that the `int` counter does not overflow, and
every response to a probe read), `clones_count` grows by the number of spawns whose
`ADD` was answered `OK`, the name and the pid of the supervisor stay; before every
request of the sequence the candidate name is `N`, an underscore and the decimal of
`clones_count + 1`, and a spawn whose `ADD` is answered `OK` sends `ADD` with the
string of the node made of the pid of the clone, the pid of the agent as ppid and the
candidate name (a string `proc_node_fromstr` reads back as that node), then raises the
counter by one; any other spawn leaves the counter and so the next candidate name as
they are. -/
theorem C21_clone_counter (st : child_state) (reqs : List (Int × clone_env))
    (hfork : ∀ r ∈ reqs, r.2.fork_result ≠ 0)
    (hdef : ∀ r ∈ reqs, r.2.name_built = true → r.2.info_sent = true →
      r.2.info_response ≠ none)
    (h0 : 0 ≤ st.clones_count) (hbound : st.clones_count + reqs.length < 2 ^ 31) :
    (∃ st1 evs, spawn_all st reqs = some (st1, evs) ∧
      st1.clones_count =
        st.clones_count + ((reqs.filter (fun r => add_answered_ok r.2)).length : Int) ∧
      st1.child_name = st.child_name ∧ st1.pid_pmanager = st.pid_pmanager) ∧
    (∀ pre sender env post, reqs = pre ++ (sender, env) :: post →
      ∃ sti evsi stj evsj, spawn_all st pre = some (sti, evsi) ∧
        sti.pid_pmanager = st.pid_pmanager ∧
        clone_name sti = st.child_name ++ '_' ::
          fmt_ld (st.clones_count +
            ((pre.filter (fun r => add_answered_ok r.2)).length : Int) + 1) ∧
        child_clone sti sender env = some (stj, evsj) ∧
        (add_answered_ok env = true →
          stj.clones_count = sti.clones_count + 1 ∧
          evsj = [event.send st.pid_pmanager MSG_INFO (some (clone_name sti)),
                  event.wait st.pid_pmanager, event.fork env.fork_result,
                  event.send st.pid_pmanager MSG_ADD
                    (some (proc_node_tostr
                      (proc_node_init env.fork_result env.self_pid (clone_name sti)))),
                  event.wait st.pid_pmanager,
                  event.send sender MSG_SUCCESS none] ∧
          (';' ∉ st.child_name → pid_t_range env.fork_result → pid_t_range env.self_pid →
            proc_node_fromstr (proc_node_tostr
                (proc_node_init env.fork_result env.self_pid (clone_name sti))) =
              some (proc_node_init env.fork_result env.self_pid (clone_name sti)))) ∧
        (add_answered_ok env = false →
          stj.clones_count = sti.clones_count ∧ clone_name stj = clone_name sti)) := by
  refine ⟨spawn_all_count reqs st hfork hdef h0 hbound, ?_⟩
  intro pre sender env post hsplit
  have hlen : pre.length + 1 ≤ reqs.length := by
    rw [hsplit, List.length_append, List.length_cons]; omega
  have hmem : ∀ r ∈ pre, r ∈ reqs := by
    intro r hr; rw [hsplit]; exact List.mem_append_left _ hr
  have hmem2 : (sender, env) ∈ reqs := by
    rw [hsplit]; exact List.mem_append_right _ (List.mem_cons_self _ _)
  obtain ⟨sti, evsi, e1, c1, n1, p1⟩ := spawn_all_count pre st
    (fun r hr => hfork r (hmem r hr)) (fun r hr => hdef r (hmem r hr)) h0 (by omega)
  have hfl : (pre.filter (fun r => add_answered_ok r.2)).length ≤ pre.length :=
    List.length_filter_le _ _
  have hrange : to_int (sti.clones_count + 1) = sti.clones_count + 1 :=
    to_int_id _ (by omega) (by omega)
  obtain ⟨stj, evsj, e2, c2, n2, p2⟩ := child_clone_count sti sender env
    (hfork _ hmem2) (hdef _ hmem2)
  refine ⟨sti, evsi, stj, evsj, e1, p1, ?_, e2, ?_, ?_⟩
  · simp only [clone_name, n1, hrange]
    rw [c1]
  · intro hok
    rw [hok, if_pos rfl, hrange] at c2
    refine ⟨c2, ?_, ?_⟩
    · have := child_clone_ok sti sender env hok
      rw [e2] at this
      injection this with this
      rw [← p1]
      exact (Prod.mk.inj this).2
    · intro hsemi hr1 hr2
      have hn := clone_name_ok sti (by rw [n1]; exact hsemi)
      exact fromstr_tostr (proc_node_init env.fork_result env.self_pid (clone_name sti))
        hr1 hr2 hn.1 hn.2
  · intro hok
    rw [hok] at c2
    simp only [Bool.false_eq_true, if_false] at c2
    exact ⟨c2, by simp only [clone_name, c2, n2]⟩

/-- C21, witness: the agent `alpha` (pid 5, supervisor 1) handles two `SPAWN` requests
of process 9; both probes are answered `ERR`, both `ADD` are answered `OK`. -/
theorem C21_clone_counter_witness :
    ∃ st1 evs,
      spawn_all (child_state.mk 0 1 "alpha".toList false 0)
        [(9, clone_env.mk true true (some (message_t.mk 1 MSG_ERROR "process not found".toList))
              6 5 true (some (message_t.mk 1 MSG_SUCCESS "NULL".toList))),
         (9, clone_env.mk true true (some (message_t.mk 1 MSG_ERROR "process not found".toList))
              7 5 true (some (message_t.mk 1 MSG_SUCCESS "NULL".toList)))] = some (st1, evs) ∧
      st1.clones_count = 0 + (2 : Nat) ∧ st1.child_name = "alpha".toList ∧
      st1.pid_pmanager = 1 :=
  (C21_clone_counter (child_state.mk 0 1 "alpha".toList false 0)
    [(9, clone_env.mk true true (some (message_t.mk 1 MSG_ERROR "process not found".toList))
          6 5 true (some (message_t.mk 1 MSG_SUCCESS "NULL".toList))),
     (9, clone_env.mk true true (some (message_t.mk 1 MSG_ERROR "process not found".toList))
          7 5 true (some (message_t.mk 1 MSG_SUCCESS "NULL".toList)))]
    (by intro r hr; simp only [List.mem_cons, List.mem_singleton, List.not_mem_nil,
          or_false] at hr; rcases hr with rfl | rfl <;> decide)
    (by intro r hr; simp only [List.mem_cons, List.mem_singleton, List.not_mem_nil,
          or_false] at hr; rcases hr with rfl | rfl <;> simp)
    (by decide) (by decide)).1

theorem getLast_opt_snoc {α : Type} (l : List α) (a : α) : (l ++ [a]).getLast? = some a := by
  simp

/-- C22: when `fork` fails (it returns `-1`) after the probe was answered with
something else than `INFO`, `child_clone` ends without having sent anything to the
process that asked for the clone: its trace is the probe, the wait and the `fork`, and
no `OK` to `sender` is in it. In every other branch run by the requesting process
(name not built, probe not sent, duplicate name, `ADD` not answered `OK`, `ADD`
answered `OK`) the last thing done is the `OK` to `sender`. -/
theorem C22_fork_failure_sends_no_ok (st : child_state) (sender : Int) :
    (∀ (response : message_t) (self_pid : Int) (add_sent : Bool)
        (add_response : Option message_t), response.type ≠ MSG_INFO →
      child_clone st sender
          (clone_env.mk true true (some response) (-1) self_pid add_sent add_response) =
        some (st, [event.send st.pid_pmanager MSG_INFO (some (clone_name st)),
                   event.wait st.pid_pmanager, event.fork (-1)]) ∧
      event.send sender MSG_SUCCESS none ∉
        [event.send st.pid_pmanager MSG_INFO (some (clone_name st)),
         event.wait st.pid_pmanager, event.fork (-1)]) ∧
    (∀ (env : clone_env) (st1 : child_state) (evs : List event),
      env.fork_result ≠ -1 → env.fork_result ≠ 0 →
      child_clone st sender env = some (st1, evs) →
      evs.getLast? = some (event.send sender MSG_SUCCESS none)) ∧
    (∀ (env : clone_env) (st1 : child_state) (evs : List event),
      (env.name_built = false ∨ env.info_sent = false ∨
        ∃ response, env.info_response = some response ∧ response.type = MSG_INFO) →
      child_clone st sender env = some (st1, evs) →
      evs.getLast? = some (event.send sender MSG_SUCCESS none)) := by
  refine ⟨?_, ?_, ?_⟩
  · intro response self_pid add_sent add_response h
    constructor
    · simp [child_clone, h]
    · simp
  · intro env st1 evs h1 h2 h
    obtain ⟨nb, is, ir, fr, sp, as, ar⟩ := env
    simp only at h1 h2
    cases nb with
    | false =>
      simp only [child_clone, Bool.not_false, if_true, Option.some.injEq, Prod.mk.injEq] at h
      rw [← h.2]; rfl
    | true =>
      cases is with
      | false =>
        simp only [child_clone, Bool.not_true, Bool.not_false, if_true, Bool.false_eq_true,
          if_false, Option.some.injEq, Prod.mk.injEq] at h
        rw [← h.2]; rfl
      | true =>
        cases ir with
        | none => simp [child_clone] at h
        | some r =>
          simp only [child_clone, Bool.not_true, Bool.false_eq_true, if_false, h1, h2] at h
          split at h
          · simp only [Option.some.injEq, Prod.mk.injEq] at h
            rw [← h.2]; exact getLast_opt_snoc _ _
          · split at h
            · simp only [Option.some.injEq, Prod.mk.injEq] at h
              rw [← h.2]; exact getLast_opt_snoc _ _
            · simp only [Option.some.injEq, Prod.mk.injEq] at h
              rw [← h.2]; exact getLast_opt_snoc _ _
  · intro env st1 evs hb h
    obtain ⟨nb, is, ir, fr, sp, as, ar⟩ := env
    cases nb with
    | false =>
      simp only [child_clone, Bool.not_false, if_true, Option.some.injEq, Prod.mk.injEq] at h
      rw [← h.2]; rfl
    | true =>
      cases is with
      | false =>
        simp only [child_clone, Bool.not_true, Bool.not_false, if_true, Bool.false_eq_true,
          if_false, Option.some.injEq, Prod.mk.injEq] at h
        rw [← h.2]; rfl
      | true =>
        simp only [Bool.true_eq_false, false_or] at hb
        obtain ⟨r, hr, ht⟩ := hb
        subst hr
        simp only [child_clone, Bool.not_true, Bool.false_eq_true, if_false, ht, if_true,
          Option.some.injEq, Prod.mk.injEq] at h
        rw [← h.2]; simp [resume_process]

/-- C23: on a `SIGTERM` from `si_pid` the handler sets the flag and the next round of
the loop of `child_init` runs `child_terminate`. When the `REMOVE` (with `NULL` as
payload) was sent and the supervisor's response was read, the process exits, with
status 0, if and only if the response is `OK`; in both cases its trace is the `REMOVE`,
the wait for the supervisor and then exactly one `OK` to the current `sigterm_sender`
(the sender of the last `SIGTERM` handled), followed by `exit(0)` when the response is
`OK`. When the response is not `OK` (`ERR` in particular) the flag is cleared, the
process goes on, and a later `SIGTERM` makes the loop run `child_terminate` again. -/
theorem C23_terminate (st : child_state) (si_pid : Int) (env : terminate_env)
    (response : message_t) (hsent : env.remove_sent = true)
    (hresp : env.response = some response) :
    (∃ st1 evs, child_terminate (sigterm_handler si_pid st) env = some (st1, evs) ∧
      evs = [event.send st.pid_pmanager MSG_REMOVE none, event.wait st.pid_pmanager,
             event.send (get_sigterm_sender st1) MSG_SUCCESS none] ++
            (if response.type = MSG_SUCCESS then [event.exit 0] else []) ∧
      get_sigterm_sender st1 = (si_pid :: env.sigterm_during_wait).getLast
        (List.cons_ne_nil _ _) ∧
      (exited evs = true ↔ response.type = MSG_SUCCESS) ∧
      (response.type ≠ MSG_SUCCESS → get_sigterm_flag st1 = false) ∧
      (response.type = MSG_ERROR → exited evs = false ∧ get_sigterm_flag st1 = false) ∧
      (∀ (later_pid : Int) (wenv : wake_env), wenv.unread = false →
        child_init_round (sigterm_handler later_pid st1) wenv =
          child_terminate (sigterm_handler later_pid st1) wenv.term)) ∧
    (∀ wenv : wake_env, wenv.unread = false → wenv.term = env →
      child_init_round (sigterm_handler si_pid st) wenv =
        child_terminate (sigterm_handler si_pid st) env) ∧
    (∀ wenv : wake_env, wenv.unread = false →
      child_init_round (set_sigterm_flag false st) wenv = some (set_sigterm_flag false st, [])) := by
  have hround : ∀ (s : child_state) (wenv : wake_env), wenv.unread = false →
      get_sigterm_flag s = true →
      child_init_round s wenv = child_terminate s wenv.term := by
    intro s wenv hu hf
    simp only [child_init_round, hf, if_true, hu, Bool.false_eq_true, if_false]
    cases child_terminate s wenv.term with
    | none => rfl
    | some r => simp
  have hlast : ∀ (l : List Int) (s : child_state) (p : Int),
      get_sigterm_sender (l.foldl (fun s pid => sigterm_handler pid s) (sigterm_handler p s)) =
        (p :: l).getLast (List.cons_ne_nil _ _) := by
    intro l
    induction l with
    | nil => intro s p; rfl
    | cons a l ih =>
      intro s p
      rw [List.foldl_cons, List.getLast_cons (List.cons_ne_nil _ _)]
      exact ih (sigterm_handler p s) a
  refine ⟨?_, ?_, ?_⟩
  · by_cases ht : response.type = MSG_SUCCESS
    · refine ⟨_, _, by simp only [child_terminate, hsent, hresp, if_true, ht]; rfl, ?_, ?_, ?_,
        ?_, ?_, ?_⟩
      · simp [ht, resume_process, sigterm_handler]
      · exact hlast _ st si_pid
      · simp [ht, exited, resume_process]
      · intro h; exact absurd ht h
      · intro h; rw [ht] at h; exact absurd h (by decide)
      · intro later_pid wenv hu
        exact hround _ wenv hu rfl
    · refine ⟨_, _, by simp only [child_terminate, hsent, hresp, if_true, ht, if_false]; rfl,
        ?_, ?_, ?_, ?_, ?_, ?_⟩
      · simp [ht, resume_process, sigterm_handler, set_sigterm_flag, get_sigterm_sender]
      · exact hlast _ st si_pid
      · simp [ht, exited, resume_process]
      · intro _; rfl
      · intro _; exact ⟨by simp [exited, resume_process], rfl⟩
      · intro later_pid wenv hu
        exact hround _ wenv hu rfl
  · intro wenv hu he
    rw [← he]
    exact hround _ wenv hu rfl
  · intro wenv hu
    simp [child_init_round, set_sigterm_flag, get_sigterm_flag, hu, exited]

/-- C23, witness: the agent `alpha` gets `SIGTERM` from process 9 and the supervisor
answers its `REMOVE` with `ERR`. -/
theorem C23_terminate_witness :
    ∃ st1 evs,
      child_terminate (sigterm_handler 9 (child_state.mk 0 1 "alpha".toList false 0))
        (terminate_env.mk true []
          (some (message_t.mk 1 MSG_ERROR "failed to remove process from tree".toList))) =
        some (st1, evs) ∧
      evs = [event.send 1 MSG_REMOVE none, event.wait 1,
             event.send (get_sigterm_sender st1) MSG_SUCCESS none] ++ [] ∧
      get_sigterm_sender st1 = 9 :=
  match (C23_terminate (child_state.mk 0 1 "alpha".toList false 0) 9
    (terminate_env.mk true []
      (some (message_t.mk 1 MSG_ERROR "failed to remove process from tree".toList)))
    (message_t.mk 1 MSG_ERROR "failed to remove process from tree".toList) rfl rfl).1 with
  | ⟨st1, evs, h1, h2, h3, _⟩ => ⟨st1, evs, h1, h2, h3⟩

/-! ## C24: `kill_proc_tree` walks the tree in post-order -/

theorem postorder_eq (t : proc_node) :
    postorder t = postorder_children t.children ++ [t] := by
  cases t; rfl

theorem postorder_children_cons (c : proc_node) (cs : List proc_node) :
    postorder_children (c :: cs) = postorder c ++ postorder_children cs := rfl

theorem postorder_children_append (A B : List proc_node) :
    postorder_children (A ++ B) = postorder_children A ++ postorder_children B := by
  induction A with
  | nil => rfl
  | cons a A ih =>
    rw [List.cons_append]
    simp only [postorder_children]
    rw [ih, List.append_assoc]

theorem kill_proc_tree_eq (ppid : Int) (kill_ok : Int → Bool) (t : proc_node) :
    kill_proc_tree ppid kill_ok t =
      kill_proc_tree_loop ppid kill_ok t.children ++
        (if t.pid ≠ ppid then
          (if kill_ok t.pid then [event.kill t.pid, event.wait t.pid] else [event.kill t.pid])
         else []) := by
  cases t; rfl

theorem kill_proc_tree_loop_append (ppid : Int) (kill_ok : Int → Bool) (A B : List proc_node) :
    kill_proc_tree_loop ppid kill_ok (A ++ B) =
      kill_proc_tree_loop ppid kill_ok A ++ kill_proc_tree_loop ppid kill_ok B := by
  induction A with
  | nil => rfl
  | cons a A ih =>
    rw [List.cons_append]
    simp only [kill_proc_tree_loop]
    rw [ih, List.append_assoc]

/-- The trace of `kill_proc_tree` is made of the blocks of the nodes in post-order. -/
theorem kill_proc_tree_postorder (ppid : Int) (kill_ok : Int → Bool) :
    ∀ t, kill_proc_tree ppid kill_ok t =
      ((postorder t).filter (fun n => decide (n.pid ≠ ppid))).flatMap
        (fun n => if kill_ok n.pid then [event.kill n.pid, event.wait n.pid]
                  else [event.kill n.pid]) := by
  apply proc_node_induction
  intro p q nm cs ih
  have hl : kill_proc_tree_loop ppid kill_ok cs =
      ((postorder_children cs).filter (fun n => decide (n.pid ≠ ppid))).flatMap
        (fun n => if kill_ok n.pid then [event.kill n.pid, event.wait n.pid]
                  else [event.kill n.pid]) := by
    induction cs with
    | nil => rfl
    | cons c cs ih2 =>
      simp only [kill_proc_tree_loop, postorder_children, List.filter_append,
        List.flatMap_append]
      rw [ih c (List.mem_cons_self _ _), ih2 (fun x hx => ih x (List.mem_cons_of_mem _ hx))]
  simp only [kill_proc_tree, postorder, List.filter_append, List.flatMap_append, hl]
  congr 1
  by_cases h : p = ppid
  · simp [h, List.filter_cons, proc_node.pid]
  · simp [h, List.filter_cons, proc_node.pid]

theorem signalled_append (A B : List event) :
    signalled (A ++ B) = signalled A ++ signalled B := by
  induction A with
  | nil => rfl
  | cons a A ih => cases a <;> simp [signalled, ih]

theorem signalled_blocks (kill_ok : Int → Bool) (l : List proc_node) :
    signalled (l.flatMap
        (fun n => if kill_ok n.pid then [event.kill n.pid, event.wait n.pid]
                  else [event.kill n.pid])) = l.map proc_node.pid := by
  induction l with
  | nil => rfl
  | cons a l ih =>
    simp only [List.flatMap_cons, signalled_append, ih, List.map_cons]
    by_cases h : kill_ok a.pid = true
    · simp [h, signalled]
    · simp [h, signalled]

theorem postorder_perm : ∀ t, (postorder t).Perm (preorder t) := by
  apply proc_node_induction
  intro p q nm cs ih
  have hl : (postorder_children cs).Perm (preorder_children cs) := by
    induction cs with
    | nil => exact List.Perm.refl _
    | cons c cs ih2 =>
      simp only [postorder_children, preorder_children]
      exact List.Perm.append (ih c (List.mem_cons_self _ _))
        (ih2 (fun x hx => ih x (List.mem_cons_of_mem _ hx)))
  simp only [postorder, preorder]
  exact (List.perm_append_singleton _ _).trans (List.Perm.cons _ hl)

/-- The block of a subtree is one piece of the trace; it ends with the node itself. -/
theorem kill_proc_tree_subtree (ppid : Int) (kill_ok : Int → Bool) :
    ∀ (r : List Nat) (t n : proc_node), deref t r = some n →
      ∃ e1 e2, kill_proc_tree ppid kill_ok t = e1 ++ kill_proc_tree ppid kill_ok n ++ e2 := by
  intro r
  induction r with
  | nil =>
    intro t n h
    rw [deref_nil] at h
    cases h
    exact ⟨[], [], by simp⟩
  | cons i r ih =>
    intro t n h
    rw [deref_cons] at h
    cases hc : t.children[i]? with
    | none => rw [hc] at h; cases h
    | some c =>
      rw [hc] at h
      obtain ⟨e1, e2, he⟩ := ih c n h
      obtain ⟨A, B, hAB, -, -⟩ := list_split_at t.children i c hc
      rw [kill_proc_tree_eq ppid kill_ok t, hAB, kill_proc_tree_loop_append]
      simp only [kill_proc_tree_loop, he]
      exact ⟨kill_proc_tree_loop ppid kill_ok A ++ e1,
        e2 ++ (kill_proc_tree_loop ppid kill_ok B ++
          (if t.pid ≠ ppid then
            (if kill_ok t.pid then [event.kill t.pid, event.wait t.pid] else [event.kill t.pid])
           else [])), by simp only [List.append_assoc]⟩

theorem postorder_subtree :
    ∀ (r : List Nat) (t n : proc_node), deref t r = some n →
      ∃ l1 l2, postorder t = l1 ++ postorder_children n.children ++ n :: l2 := by
  intro r
  induction r with
  | nil =>
    intro t n h
    rw [deref_nil] at h
    cases h
    exact ⟨[], [], by rw [postorder_eq]; simp⟩
  | cons i r ih =>
    intro t n h
    rw [deref_cons] at h
    cases hc : t.children[i]? with
    | none => rw [hc] at h; cases h
    | some c =>
      rw [hc] at h
      obtain ⟨l1, l2, he⟩ := ih c n h
      obtain ⟨A, B, hAB, -, -⟩ := list_split_at t.children i c hc
      rw [postorder_eq t, hAB, postorder_children_append, postorder_children_cons, he]
      exact ⟨postorder_children A ++ l1, l2 ++ postorder_children B ++ [t],
        by simp only [List.append_assoc, List.cons_append]⟩

/-- C24: for every local tree, `kill_proc_tree` sends `SIGTERM` in post-order: its
trace is, for the nodes in post-order (the subtrees of the children from the first
child to the last, then the node) whose pid is not that of the supervisor (`getppid()`),
one `kill` each, followed by the wait for the answer of that process when `kill`
returned 0; the pids signalled are those of these nodes, one signal per node, and a
node with the pid of the supervisor is left out. The part of the trace for the subtree
of a node is one piece that ends with the node itself, so a node is signalled after
all signals and waits of its descendants. -/
theorem C24_kill_postorder (ppid : Int) (kill_ok : Int → Bool) (t : proc_node) :
    kill_proc_tree ppid kill_ok t =
      ((postorder t).filter (fun n => decide (n.pid ≠ ppid))).flatMap
        (fun n => if kill_ok n.pid then [event.kill n.pid, event.wait n.pid]
                  else [event.kill n.pid]) ∧
    signalled (kill_proc_tree ppid kill_ok t) =
      ((postorder t).filter (fun n => decide (n.pid ≠ ppid))).map proc_node.pid ∧
    (postorder t).Perm (preorder t) ∧
    (∀ r n, deref t r = some n →
      ∃ l1 l2, postorder t = l1 ++ postorder_children n.children ++ n :: l2) ∧
    (∀ r n, deref t r = some n →
      ∃ e1 e2, kill_proc_tree ppid kill_ok t =
        e1 ++ (kill_proc_tree_loop ppid kill_ok n.children ++
          (if n.pid ≠ ppid then
            (if kill_ok n.pid then [event.kill n.pid, event.wait n.pid]
             else [event.kill n.pid])
           else [])) ++ e2) := by
  refine ⟨kill_proc_tree_postorder ppid kill_ok t, ?_, postorder_perm t,
    fun r n h => postorder_subtree r t n h, ?_⟩
  · rw [kill_proc_tree_postorder, signalled_blocks]
  · intro r n h
    obtain ⟨e1, e2, he⟩ := kill_proc_tree_subtree ppid kill_ok r t n h
    rw [kill_proc_tree_eq ppid kill_ok n] at he
    exact ⟨e1, e2, he⟩

/-! ## Writing through pointers, twice -/

theorem set_getElem_same {α : Type} : ∀ (l : List α) (i : Nat) (a : α), l[i]? = some a →
    l.set i a = l := by
  intro l
  induction l with
  | nil => intro i a _; rfl
  | cons x l ih =>
    intro i a h
    cases i with
    | zero =>
      simp only [List.getElem?_cons_zero, Option.some.injEq] at h
      rw [h]; rfl
    | succ i =>
      simp only [List.getElem?_cons_succ] at h
      simp only [List.set_cons_succ, ih i a h]

theorem eraseIdx_set_same {α : Type} : ∀ (l : List α) (i : Nat) (a : α),
    (l.set i a).eraseIdx i = l.eraseIdx i := by
  intro l
  induction l with
  | nil => intro i a; rfl
  | cons x l ih =>
    intro i a
    cases i with
    | zero => rfl
    | succ i => simp only [List.set_cons_succ, List.eraseIdx_cons_succ, ih i a]

theorem update_id : ∀ (p : List Nat) (t : proc_node), update t p (fun m => m) = t := by
  intro p
  induction p with
  | nil => intro t; exact update_nil t _
  | cons i p ih =>
    intro t
    cases t with
    | mk a b nm cs =>
      cases hc : cs[i]? with
      | none => simp only [update, hc]
      | some c =>
        simp only [update, hc, ih c]
        rw [set_getElem_same cs i c hc]

theorem update_congr (f g : proc_node → proc_node) :
    ∀ (p : List Nat) (t n : proc_node), deref t p = some n → f n = g n →
      update t p f = update t p g := by
  intro p
  induction p with
  | nil =>
    intro t n h e
    rw [deref_nil] at h
    cases h
    rw [update_nil, update_nil]
    exact e
  | cons i p ih =>
    intro t n h e
    cases t with
    | mk a b nm cs =>
      cases hc : cs[i]? with
      | none => simp only [update, hc]
      | some c =>
        simp only [deref, hc] at h
        simp only [update, hc, ih c n h e]

theorem update_update_append (f g : proc_node → proc_node) (s : List Nat) :
    ∀ (p : List Nat) (t : proc_node),
      update (update t p f) (p ++ s) g = update t p (fun m => update (f m) s g) := by
  intro p
  induction p with
  | nil => intro t; rw [update_nil, update_nil, List.nil_append]
  | cons i p ih =>
    intro t
    rw [List.cons_append]
    cases t with
    | mk a b nm cs =>
      cases hc : cs[i]? with
      | none => simp only [update, hc]
      | some c =>
        have hi : i < cs.length := (List.getElem?_eq_some_iff.1 hc).1
        simp only [update, hc, List.getElem?_set_self hi, List.set_set, ih c]

theorem update_append_update (f g : proc_node → proc_node) (s : List Nat) :
    ∀ (p : List Nat) (t : proc_node),
      update (update t (p ++ s) f) p g = update t p (fun m => g (update m s f)) := by
  intro p
  induction p with
  | nil => intro t; rw [update_nil, update_nil, List.nil_append]
  | cons i p ih =>
    intro t
    rw [List.cons_append]
    cases t with
    | mk a b nm cs =>
      cases hc : cs[i]? with
      | none => simp only [update, hc]
      | some c =>
        have hi : i < cs.length := (List.getElem?_eq_some_iff.1 hc).1
        simp only [update, hc, List.getElem?_set_self hi, List.set_set, ih c]

theorem deref_update_above (f : proc_node → proc_node) (s : List Nat) :
    ∀ (p : List Nat) (t : proc_node),
      deref (update t (p ++ s) f) p = (deref t p).map (fun m => update m s f) := by
  intro p
  induction p with
  | nil => intro t; rw [deref_nil, deref_nil, List.nil_append]; rfl
  | cons i p ih =>
    intro t
    rw [List.cons_append]
    cases t with
    | mk a b nm cs =>
      cases hc : cs[i]? with
      | none => simp only [update, deref, hc, Option.map_none']
      | some c =>
        have hi : i < cs.length := (List.getElem?_eq_some_iff.1 hc).1
        simp only [update, deref, hc, List.getElem?_set_self hi, ih c]

theorem find_by_pid_of_distinct (t : proc_node) (h : (pids t).Nodup) (r : List Nat)
    (n : proc_node) (hr : deref t r = some n) : proc_node_find_by_pid t n.pid = some r := by
  cases hf : proc_node_find_by_pid t n.pid with
  | none =>
    exact absurd rfl ((find_by_pid_none t n.pid).1 hf n ((mem_preorder t n).2 ⟨r, hr⟩))
  | some q =>
    obtain ⟨m, hm, hpid⟩ := find_by_pid_deref t n.pid q hf
    rw [distinct_pids_ptr t h q r m n hm hr hpid]

/-- The pids after a sequence of subtrees was appended below a node. -/
theorem pids_append_children (t : proc_node) (p : List Nat) (par : proc_node)
    (cs : List proc_node) (hp : deref t p = some par) :
    (pids (update t p (fun m => set_children (m.children ++ cs) m))).Perm
      (pids t ++ (preorder_children cs).map proc_node.pid) := by
  obtain ⟨l1, l2, h1, h2⟩ := preorder_update proc_node.pid (fun _ _ => rfl) p t par hp
  have h3 := h2 (fun m => set_children (m.children ++ cs) m)
  have e : (preorder (set_children (par.children ++ cs) par)).map proc_node.pid =
      (preorder par).map proc_node.pid ++ (preorder_children cs).map proc_node.pid := by
    rw [preorder_eq, preorder_eq par]
    simp only [set_children, proc_node.children, preorder_children_append, List.map_cons,
      List.map_append, proc_node.pid, List.cons_append]
  simp only [pids]
  rw [h3, h1, e]
  simp only [List.append_assoc]
  exact List.Perm.append_left _ (List.Perm.append_left _ List.perm_append_comm)

/-! ## C29: the local tree built from the stream of a subtree -/

theorem add_all_cons (t n : proc_node) (l : List proc_node) :
    add_all t (n :: l) = add_all (proc_node_add t n).2 l := rfl

theorem add_all_append (t : proc_node) (l1 l2 : List proc_node) :
    add_all t (l1 ++ l2) = add_all (add_all t l1) l2 :=
  List.foldl_append _ _ _ _

theorem set_children_append_nil (m : proc_node) : set_children (m.children ++ []) m = m := by
  cases m; simp [set_children, proc_node.pid, proc_node.ppid, proc_node.name, proc_node.children]

theorem set_children_append_append (m : proc_node) (A B : List proc_node) :
    set_children ((set_children (m.children ++ A) m).children ++ B)
      (set_children (m.children ++ A) m) = set_children (m.children ++ (A ++ B)) m := by
  cases m; simp [set_children, proc_node.pid, proc_node.ppid, proc_node.name, proc_node.children]

/-- Adding the nodes of a sequence of subtrees in pre-order below a node with the pid
they name appends the subtrees to the children of that node. -/
theorem add_all_children (a : Int) (cs : List proc_node)
    (ih : ∀ c ∈ cs, ∀ (T : proc_node) (q : List Nat) (par : proc_node),
      (pids T ++ pids c).Nodup → parenthood c = true → deref T q = some par →
      par.pid = c.ppid →
      add_all T (preorder c) = update T q (fun m => set_children (m.children ++ [c]) m)) :
    ∀ (T : proc_node) (q : List Nat) (par : proc_node),
      (pids T ++ (preorder_children cs).map proc_node.pid).Nodup →
      (∀ c ∈ cs, c.ppid = a ∧ parenthood c = true) → deref T q = some par → par.pid = a →
      add_all T (preorder_children cs) =
        update T q (fun m => set_children (m.children ++ cs) m) := by
  induction cs with
  | nil =>
    intro T q par _ _ hq _
    rw [update_congr (fun m => set_children (m.children ++ []) m) (fun m => m) q T par hq
      (set_children_append_nil par), update_id]
    rfl
  | cons c cs ih2 =>
    intro T q par hnd hcs hq hpid
    rw [preorder_children_cons, add_all_append]
    simp only [preorder_children_cons, List.map_append] at hnd
    have hc := hcs c (List.mem_cons_self _ _)
    have hnd1 : (pids T ++ pids c).Nodup := by
      rw [← List.append_assoc] at hnd
      exact (List.nodup_append.1 hnd).1
    rw [ih c (List.mem_cons_self _ _) T q par hnd1 hc.2 hq (by rw [hpid, hc.1])]
    have hperm := pids_append_children T q par [c] hq
    have e1 : (preorder_children [c]).map proc_node.pid = pids c := by
      simp [preorder_children, pids]
    rw [e1] at hperm
    have hnd2 : (pids (update T q (fun m => set_children (m.children ++ [c]) m)) ++
        (preorder_children cs).map proc_node.pid).Nodup := by
      have : (pids (update T q (fun m => set_children (m.children ++ [c]) m)) ++
          (preorder_children cs).map proc_node.pid).Perm
          (pids T ++ (pids c ++ (preorder_children cs).map proc_node.pid)) := by
        rw [← List.append_assoc]
        exact List.Perm.append_right _ hperm
      exact this.nodup_iff.2 hnd
    rw [ih2 (fun x hx => ih x (List.mem_cons_of_mem _ hx))
      (update T q (fun m => set_children (m.children ++ [c]) m)) q
      (set_children (par.children ++ [c]) par) hnd2
      (fun x hx => hcs x (List.mem_cons_of_mem _ hx))
      (deref_update_same T q _ par hq) (by rw [pid_set_children]; exact hpid)]
    have e2 := update_update_append (fun m => set_children (m.children ++ [c]) m)
      (fun m => set_children (m.children ++ cs) m) [] q T
    rw [List.append_nil] at e2
    rw [e2]
    apply update_congr _ _ q T par hq
    rw [update_nil, set_children_append_append]
    rfl

/-- Adding the nodes of a subtree in pre-order appends the subtree to the children of
the node that has the ppid of its root as pid. -/
theorem add_all_subtree :
    ∀ (c T : proc_node) (q : List Nat) (par : proc_node),
      (pids T ++ pids c).Nodup → parenthood c = true → deref T q = some par →
      par.pid = c.ppid →
      add_all T (preorder c) = update T q (fun m => set_children (m.children ++ [c]) m) := by
  apply proc_node_induction
  intro a b nm cs ih T q par hnd hpar hq hpid
  have hndT : (pids T).Nodup := (List.nodup_append.1 hnd).1
  have hfind : proc_node_find_by_pid T b = some q := by
    have := find_by_pid_of_distinct T hndT q par hq
    rw [hpid] at this
    exact this
  have hcs : ∀ c ∈ cs, c.ppid = a ∧ parenthood c = true := by
    rw [parenthood_eq] at hpar
    exact (parenthood_children_iff a cs).1 hpar
  rw [preorder_eq, add_all_cons]
  simp only [proc_node.children]
  have hadd := add_some T (proc_node.mk a b nm cs) q hfind
  simp only [proc_node.pid, proc_node.ppid, proc_node.name] at hadd
  rw [hadd]
  have hq1 : deref (update T q (fun p =>
        set_children (p.children ++ [proc_node_init a b nm]) p)) (q ++ [par.children.length]) =
      some (proc_node_init a b nm) := by
    rw [deref_update_append T q [par.children.length] _ par hq, deref_singleton]
    simp only [set_children, proc_node.children]
    exact List.getElem?_concat_length _ _
  have hperm := pids_append_children T q par [proc_node_init a b nm] hq
  have e1 : (preorder_children [proc_node_init a b nm]).map proc_node.pid = [a] := by
    simp [preorder_children, preorder, proc_node_init, proc_node.pid]
  rw [e1] at hperm
  have hnd2 : (pids (update T q (fun p =>
        set_children (p.children ++ [proc_node_init a b nm]) p)) ++
      (preorder_children cs).map proc_node.pid).Nodup := by
    have : (pids (update T q (fun p =>
          set_children (p.children ++ [proc_node_init a b nm]) p)) ++
        (preorder_children cs).map proc_node.pid).Perm
        (pids T ++ pids (proc_node.mk a b nm cs)) := by
      rw [pids_eq (proc_node.mk a b nm cs)]
      simp only [proc_node.pid, proc_node.children]
      have e : pids T ++ a :: (preorder_children cs).map proc_node.pid =
          (pids T ++ [a]) ++ (preorder_children cs).map proc_node.pid := by simp
      rw [e]
      exact List.Perm.append_right _ hperm
    exact this.nodup_iff.2 hnd
  rw [add_all_children a cs ih _ (q ++ [par.children.length]) (proc_node_init a b nm) hnd2 hcs
    hq1 rfl]
  rw [update_update_append]
  apply update_congr _ _ q T par hq
  have hset : ∀ (l : List proc_node) (x y : proc_node), (l ++ [x]).set l.length y = l ++ [y] := by
    intro l x y
    rw [List.set_append_right _ _ (Nat.le_refl _)]
    simp
  simp only [set_children, proc_node.pid, proc_node.ppid, proc_node.name, proc_node.children,
    update, List.getElem?_concat_length, proc_node_init, List.nil_append, hset]

/-- The nodes of a tree, added in pre-order to the copy of its root, give the tree. -/
theorem add_all_preorder (t : proc_node) (hd : (pids t).Nodup) (hp : parenthood t = true) :
    add_all (childless_copy t) (preorder_children t.children) = t := by
  cases t with
  | mk a b nm cs =>
    have hcs : ∀ c ∈ cs, c.ppid = a ∧ parenthood c = true := by
      rw [parenthood_eq] at hp
      exact (parenthood_children_iff a cs).1 hp
    have hnd : (pids (proc_node_init a b nm) ++ (preorder_children cs).map proc_node.pid).Nodup := by
      rw [pids_eq] at hd
      exact hd
    have := add_all_children a cs (fun c _ => add_all_subtree c) (proc_node_init a b nm) []
      (proc_node_init a b nm) hnd hcs (deref_nil _) rfl
    simp only [proc_node.children, childless_copy, proc_node.pid, proc_node.ppid,
      proc_node.name]
    rw [this, update_nil]
    rfl

theorem add_childless (T n : proc_node) :
    proc_node_add T (proc_node_init n.pid n.ppid n.name) = proc_node_add T n := by
  cases n; rfl

theorem rebuild_some :
    ∀ (nodes : List proc_node) (T : proc_node),
      (∀ n ∈ nodes, (pid_t_range n.pid ∧ pid_t_range n.ppid) ∧ n.name ≠ [] ∧ ';' ∉ n.name) →
      rebuild (some T) (nodes.map proc_node_tostr) = some (some (add_all T nodes)) := by
  intro nodes
  induction nodes with
  | nil => intro T _; rfl
  | cons n nodes ih =>
    intro T h
    obtain ⟨⟨h1, h2⟩, h3, h4⟩ := h n (List.mem_cons_self _ _)
    simp only [List.map_cons, rebuild, add_process_to_tree, fromstr_tostr n h1 h2 h3 h4,
      add_childless]
    rw [ih _ (fun x hx => h x (List.mem_cons_of_mem _ hx))]
    rfl

/-- The strings of the nodes of a tree in pre-order give the tree back. -/
theorem rebuild_preorder (t : proc_node) (hd : (pids t).Nodup) (hp : parenthood t = true)
    (hok : ∀ n ∈ preorder t, (pid_t_range n.pid ∧ pid_t_range n.ppid) ∧
      n.name ≠ [] ∧ ';' ∉ n.name) :
    rebuild none ((preorder t).map proc_node_tostr) = some (some t) := by
  obtain ⟨⟨h1, h2⟩, h3, h4⟩ := hok t (by rw [preorder_eq]; exact List.mem_cons_self _ _)
  rw [preorder_eq, List.map_cons]
  simp only [rebuild, add_process_to_tree, fromstr_tostr t h1 h2 h3 h4]
  rw [rebuild_some _ _ (fun n hn => hok n (by rw [preorder_eq]; exact List.mem_cons_of_mem _ hn))]
  exact congrArg (fun x => some (some x)) (add_all_preorder t hd hp)

/-- C29: for every tree with pairwise distinct pids that satisfies I2 (every child has
the pid of its parent as ppid), whose names are not empty and have no `;` (the pids and
ppids being `pid_t` values), calling `add_process_to_tree`, from the empty local tree
on and in order, with `proc_node_tostr` of every entry of `proc_node_get_array(root)`
gives a local tree equal to the original: the same pid, ppid and name at every node
and the same children in the same order. -/
theorem C29_rebuild_equals_original (root : proc_node) (hd : (pids root).Nodup)
    (hI2 : parenthood root = true)
    (hname : ∀ n ∈ preorder root, n.name ≠ [] ∧ ';' ∉ n.name)
    (hrange : ∀ n ∈ preorder root, pid_t_range n.pid ∧ pid_t_range n.ppid) :
    rebuild none
        (((proc_node_get_array root).1.take (proc_node_get_array root).2).map
          proc_node_tostr) = some (some root) := by
  rw [get_array_take, List.map_map]
  have e : (preorder root).map (proc_node_tostr ∘ childless_copy) =
      (preorder root).map proc_node_tostr := by
    apply List.map_congr_left
    intro n _
    exact tostr_childless_copy n
  rw [e]
  exact rebuild_preorder root hd hI2 (fun n hn => ⟨hrange n hn, hname n hn⟩)

/-- C29, witness: the tree `1 → 2 → {3, 4}` with the names `p`, `a`, `b`, `c`. -/
theorem C29_rebuild_equals_original_witness :
    rebuild none
        (((proc_node_get_array (proc_node.mk 1 0 ['p']
            [proc_node.mk 2 1 ['a'] [proc_node.mk 3 2 ['b'] [], proc_node.mk 4 2 ['c'] []]])).1.take
          (proc_node_get_array (proc_node.mk 1 0 ['p']
            [proc_node.mk 2 1 ['a']
              [proc_node.mk 3 2 ['b'] [], proc_node.mk 4 2 ['c'] []]])).2).map
          proc_node_tostr) =
      some (some (proc_node.mk 1 0 ['p']
        [proc_node.mk 2 1 ['a'] [proc_node.mk 3 2 ['b'] [], proc_node.mk 4 2 ['c'] []]])) :=
  C29_rebuild_equals_original
    (proc_node.mk 1 0 ['p']
      [proc_node.mk 2 1 ['a'] [proc_node.mk 3 2 ['b'] [], proc_node.mk 4 2 ['c'] []]])
    (by decide) rfl
    (by
      intro n hn
      simp only [preorder, preorder_children, List.cons_append, List.nil_append,
        List.append_nil, List.mem_cons, List.mem_singleton, List.not_mem_nil, or_false] at hn
      rcases hn with rfl | rfl | rfl | rfl <;> exact ⟨by decide, by decide⟩)
    (by
      intro n hn
      simp only [preorder, preorder_children, List.cons_append, List.nil_append,
        List.append_nil, List.mem_cons, List.mem_singleton, List.not_mem_nil, or_false] at hn
      rcases hn with rfl | rfl | rfl | rfl <;>
        exact ⟨⟨by decide, by decide⟩, ⟨by decide, by decide⟩⟩)

/-! ## C25: removing a subtree in post-order -/

theorem handle_all_append (root : proc_node) (l1 l2 : List message_t) :
    handle_all root (l1 ++ l2) = handle_all (handle_all root l1) l2 :=
  List.foldl_append _ _ _ _

theorem all_replied_ok_append :
    ∀ (l1 l2 : List message_t) (root : proc_node),
      all_replied_ok root (l1 ++ l2) =
        (all_replied_ok root l1 && all_replied_ok (handle_all root l1) l2) := by
  intro l1
  induction l1 with
  | nil => intro l2 root; rfl
  | cons m l1 ih =>
    intro l2 root
    rw [List.cons_append]
    simp only [all_replied_ok]
    rw [ih, Bool.and_assoc]
    rfl

theorem remove_request_ok (root root1 : proc_node) (pid : Int)
    (h : proc_node_remove root pid = (0, root1)) :
    message_handler (remove_request pid) root =
      (root1, [action.send pid MSG_SUCCESS none]) := by
  rw [message_handler_remove _ root rfl]
  simp only [msg_remove_handler, remove_request, h, if_true]

theorem remove_pids_sublist (root : proc_node) (pid : Int) :
    (pids (proc_node_remove root pid).2).Sublist (pids root) := by
  rcases remove_cases root pid with e | ⟨_, _, pptr, par, j, -, -, -, -, h5, -, e⟩
  · rw [e]
  · rw [e]
    exact preorder_erase_child_sublist proc_node.pid (fun _ _ => rfl) root pptr par j h5

/-- The supervisor keeps distinct pids and I2 while it handles `REMOVE` requests. -/
theorem handle_removes_invariants :
    ∀ (l : List Int) (root : proc_node), (pids root).Nodup → parenthood_at root →
      (pids (handle_all root (l.map remove_request))).Nodup ∧
      parenthood_at (handle_all root (l.map remove_request)) := by
  intro l
  induction l with
  | nil => intro root h1 h2; exact ⟨h1, h2⟩
  | cons pid l ih =>
    intro root h1 h2
    have e : handle_all root ((pid :: l).map remove_request) =
        handle_all (proc_node_remove root pid).2 (l.map remove_request) := by
      simp only [List.map_cons, handle_all, List.foldl_cons]
      rw [message_handler_tree]
      rfl
    rw [e]
    exact ih _ ((remove_pids_sublist root pid).nodup h1) (remove_parenthood_at root pid h2)

/-- A leaf below `p`, in a tree with distinct pids that satisfies I2, is removed by
`proc_node_remove` with its own pid. -/
theorem remove_leaf_at (T : proc_node) (p : List Nat) (i : Nat) (par c : proc_node)
    (hd : (pids T).Nodup) (hI2 : parenthood_at T) (hp : deref T p = some par)
    (hc : par.children[i]? = some c) (hleaf : c.children = []) :
    proc_node_remove T c.pid =
      (0, update T p (fun m => set_children (m.children.eraseIdx i) m)) := by
  have hci : deref T (p ++ [i]) = some c := by
    rw [deref_append, hp]
    simp only [Option.some_bind, Option.bind_eq_bind]
    rw [deref_singleton]
    exact hc
  have h1 := find_by_pid_of_distinct T hd (p ++ [i]) c hci
  have hppid : c.ppid = par.pid := hI2 p i par c hp hci
  have h4 : proc_node_find_by_pid T c.ppid = some p := by
    rw [hppid]
    exact find_by_pid_of_distinct T hd p par hp
  have h6 : remove_child_index par.children c.pid = some i := by
    cases hr : remove_child_index par.children c.pid with
    | none =>
      exact absurd rfl ((remove_child_index_none c.pid par.children).1 hr c
        (List.getElem?_mem hc))
    | some j =>
      obtain ⟨c1, hc1, hpid1, -⟩ := remove_child_index_some c.pid par.children j hr
      have hcj : deref T (p ++ [j]) = some c1 := by
        rw [deref_append, hp]
        simp only [Option.some_bind, Option.bind_eq_bind]
        rw [deref_singleton]
        exact hc1
      have := distinct_pids_ptr T hd (p ++ [j]) (p ++ [i]) c1 c hcj hci hpid1
      have hji : j = i := by simpa using this
      rw [hji]
  exact remove_of_found T c.pid (p ++ [i]) p c par i h1 hci hleaf h4 hp h6

theorem set_children_set_children (A B : List proc_node) (m : proc_node) :
    set_children B (set_children A m) = set_children B m := by
  cases m; rfl

/-- The children of a node, subtree after subtree in post-order, are all removed. -/
theorem remove_children_postorder (cs : List proc_node)
    (ih : ∀ c ∈ cs, ∀ (T : proc_node) (p : List Nat) (i : Nat) (par : proc_node),
      (pids T).Nodup → parenthood_at T → deref T p = some par → par.children[i]? = some c →
      all_replied_ok T (((postorder c).map proc_node.pid).map remove_request) = true ∧
      handle_all T (((postorder c).map proc_node.pid).map remove_request) =
        update T p (fun m => set_children (m.children.eraseIdx i) m)) :
    ∀ (T : proc_node) (p : List Nat) (par : proc_node) (rest : List proc_node),
      (pids T).Nodup → parenthood_at T → deref T p = some par → par.children = cs ++ rest →
      all_replied_ok T (((postorder_children cs).map proc_node.pid).map remove_request) = true ∧
      handle_all T (((postorder_children cs).map proc_node.pid).map remove_request) =
        update T p (fun m => set_children rest m) := by
  induction cs with
  | nil =>
    intro T p par rest _ _ hp hch
    refine ⟨rfl, ?_⟩
    have e : set_children rest par = par := by
      rw [List.nil_append] at hch
      rw [← hch]
      cases par; rfl
    rw [update_congr (fun m => set_children rest m) (fun m => m) p T par hp e, update_id]
    rfl
  | cons c cs ih2 =>
    intro T p par rest hd hI2 hp hch
    have hc0 : par.children[0]? = some c := by
      rw [hch, List.cons_append]; exact List.getElem?_cons_zero
    obtain ⟨a1, a2⟩ := ih c (List.mem_cons_self _ _) T p 0 par hd hI2 hp hc0
    have hinv := handle_removes_invariants ((postorder c).map proc_node.pid) T hd hI2
    rw [a2] at hinv
    have hp1 : deref (update T p (fun m => set_children (m.children.eraseIdx 0) m)) p =
        some (set_children (par.children.eraseIdx 0) par) := deref_update_same T p _ par hp
    have hch1 : (set_children (par.children.eraseIdx 0) par).children = cs ++ rest := by
      rw [hch]
      cases par; rfl
    obtain ⟨b1, b2⟩ := ih2 (fun x hx => ih x (List.mem_cons_of_mem _ hx)) _ p _ rest
      hinv.1 hinv.2 hp1 hch1
    simp only [postorder_children_cons, List.map_append]
    rw [all_replied_ok_append, handle_all_append, a1, a2, b1, b2]
    refine ⟨rfl, ?_⟩
    have e2 := update_update_append (fun m => set_children (m.children.eraseIdx 0) m)
      (fun m => set_children rest m) [] p T
    rw [List.append_nil] at e2
    rw [e2]
    apply update_congr _ _ p T par hp
    rw [update_nil, set_children_set_children]

/-- The nodes of a subtree below `p`, in post-order, are all removed, and the tree
loses that subtree. -/
theorem remove_subtree_postorder :
    ∀ (c T : proc_node) (p : List Nat) (i : Nat) (par : proc_node),
      (pids T).Nodup → parenthood_at T → deref T p = some par → par.children[i]? = some c →
      all_replied_ok T (((postorder c).map proc_node.pid).map remove_request) = true ∧
      handle_all T (((postorder c).map proc_node.pid).map remove_request) =
        update T p (fun m => set_children (m.children.eraseIdx i) m) := by
  apply proc_node_induction
  intro a b nm cs ih T p i par hd hI2 hp hc
  have hci : deref T (p ++ [i]) = some (proc_node.mk a b nm cs) := by
    rw [deref_append, hp]
    simp only [Option.some_bind, Option.bind_eq_bind]
    rw [deref_singleton]
    exact hc
  obtain ⟨a1, a2⟩ := remove_children_postorder cs ih T (p ++ [i]) (proc_node.mk a b nm cs) []
    hd hI2 hci (by simp [proc_node.children])
  have hinv := handle_removes_invariants ((postorder_children cs).map proc_node.pid) T hd hI2
  rw [a2] at hinv
  have hp1 : deref (update T (p ++ [i]) (fun m => set_children [] m)) p =
      some (update par [i] (fun m => set_children [] m)) := by
    rw [deref_update_above, hp]; rfl
  have hupd : update par [i] (fun m => set_children [] m) =
      set_children (par.children.set i (proc_node.mk a b nm [])) par := by
    rw [update_cons_some par i [] _ _ hc, update_nil]
    rfl
  have hc1 : (update par [i] (fun m => set_children [] m)).children[i]? =
      some (proc_node.mk a b nm []) := by
    rw [hupd]
    have hi : i < par.children.length := (List.getElem?_eq_some_iff.1 hc).1
    cases par
    exact List.getElem?_set_self hi
  have hrem := remove_leaf_at _ p i _ (proc_node.mk a b nm []) hinv.1 hinv.2 hp1 hc1 rfl
  simp only [proc_node.pid] at hrem
  rw [postorder_eq]
  simp only [proc_node.children, List.map_append, List.map_cons, List.map_nil, proc_node.pid]
  rw [all_replied_ok_append, handle_all_append, a1, a2]
  have hmsg := remove_request_ok _ _ a hrem
  constructor
  · simp only [all_replied_ok, hmsg, replied_ok, Bool.true_and, Bool.and_true, decide_eq_true_eq]
  · simp only [handle_all, List.foldl_cons, List.foldl_nil, hmsg]
    rw [update_append_update]
    apply update_congr _ _ p T par hp
    rw [hupd]
    cases par
    simp only [set_children, proc_node.children, proc_node.pid, proc_node.ppid, proc_node.name,
      eraseIdx_set_same]

/-! ## Trees the supervisor can hold -/

theorem fields_no_sep (sep : Char) : ∀ (s : List Char), ∀ f ∈ fields sep s, sep ∉ f := by
  intro s
  induction s with
  | nil =>
    intro f hf
    simp only [fields, List.mem_singleton] at hf
    rw [hf]; simp
  | cons c s ih =>
    intro f hf
    by_cases hc : c = sep
    · rw [hc, fields_cons_sep, List.mem_cons] at hf
      rcases hf with hf | hf
      · rw [hf]; simp
      · exact ih f hf
    · obtain ⟨g, gs, h1, h2⟩ := fields_cons_other sep c s hc
      rw [h2, List.mem_cons] at hf
      rcases hf with hf | hf
      · rw [hf]
        intro hm
        rcases List.mem_cons.1 hm with e | hm
        · exact hc e.symm
        · exact ih g (by rw [h1]; exact List.mem_cons_self _ _) hm
      · exact ih f (by rw [h1]; exact List.mem_cons_of_mem _ hf)

theorem tokenize_token (sep : Char) (s tok : List Char) (h : tok ∈ tokenize s [sep]) :
    tok ≠ [] ∧ sep ∉ tok := by
  rw [tokenize_fields, List.mem_filter] at h
  exact ⟨by simpa [List.isEmpty_iff] using h.2, fields_no_sep sep s tok h.1⟩

theorem to_pid_t_range (x : Int) : pid_t_range (to_pid_t x) := by
  unfold pid_t_range to_pid_t
  omega

theorem fromstr_fields_ok (s : List Char) (n : proc_node) (h : proc_node_fromstr s = some n) :
    fields_ok (n.pid, n.ppid, n.name) := by
  unfold proc_node_fromstr at h
  split at h
  · rename_i t0 t1 t2 ht
    injection h with h
    rw [← h]
    have h2 : t2 ∈ tokenize s [';'] := by rw [ht]; simp
    exact ⟨⟨to_pid_t_range _, to_pid_t_range _⟩, tokenize_token ';' s t2 h2⟩
  · cases h

theorem add_fields_ok (root node : proc_node)
    (h : ∀ n ∈ preorder root, fields_ok (n.pid, n.ppid, n.name))
    (hn : fields_ok (node.pid, node.ppid, node.name)) :
    ∀ n ∈ preorder (proc_node_add root node).2, fields_ok (n.pid, n.ppid, n.name) := by
  cases hf : proc_node_find_by_pid root node.ppid with
  | none => rw [add_none root node hf]; exact h
  | some p =>
    obtain ⟨par, hpar, -⟩ := find_by_pid_deref root node.ppid p hf
    rw [add_some root node p hf]
    intro n hmem
    have hperm := preorder_append_child (fun m => (m.pid, m.ppid, m.name)) (fun _ _ => rfl)
      root p par (proc_node_init node.pid node.ppid node.name) hpar rfl
    have h1 : (n.pid, n.ppid, n.name) ∈
        (preorder (update root p (fun m => set_children
          (m.children ++ [proc_node_init node.pid node.ppid node.name]) m))).map
          (fun m => (m.pid, m.ppid, m.name)) := List.mem_map.2 ⟨n, hmem, rfl⟩
    rcases List.mem_cons.1 (hperm.mem_iff.1 h1) with e | hm
    · rw [e]; exact hn
    · obtain ⟨m, hm1, hm2⟩ := List.mem_map.1 hm
      rw [← hm2]
      exact h m hm1

theorem remove_fields_ok (root : proc_node) (pid : Int)
    (h : ∀ n ∈ preorder root, fields_ok (n.pid, n.ppid, n.name)) :
    ∀ n ∈ preorder (proc_node_remove root pid).2, fields_ok (n.pid, n.ppid, n.name) := by
  rcases remove_cases root pid with e | ⟨_, _, pptr, par, j, -, -, -, -, h5, -, e⟩
  · rw [e]; exact h
  · rw [e]
    intro n hmem
    have hsub := preorder_erase_child_sublist (fun m => (m.pid, m.ppid, m.name))
      (fun _ _ => rfl) root pptr par j h5
    have h1 := hsub.subset (List.mem_map.2 ⟨n, hmem, rfl⟩)
    obtain ⟨m, hm1, hm2⟩ := List.mem_map.1 h1
    rw [← hm2]
    exact h m hm1

/-- What the supervisor keeps while it handles messages: I2 and fields that pass
through the strings. -/
theorem handle_all_invariants (msgs : List message_t) :
    ∀ root, parenthood_at root → (∀ n ∈ preorder root, fields_ok (n.pid, n.ppid, n.name)) →
      parenthood_at (handle_all root msgs) ∧
      ∀ n ∈ preorder (handle_all root msgs), fields_ok (n.pid, n.ppid, n.name) := by
  induction msgs with
  | nil => intro root h1 h2; exact ⟨h1, h2⟩
  | cons msg msgs ih =>
    intro root h1 h2
    have e : handle_all root (msg :: msgs) = handle_all (message_handler msg root).1 msgs := rfl
    rw [e]
    apply ih
    · rw [message_handler_tree]
      split
      · split
        · exact add_parenthood_at root _ h1
        · exact h1
      · split
        · exact remove_parenthood_at root _ h1
        · exact h1
    · rw [message_handler_tree]
      split
      · split
        · rename_i node hnode
          exact add_fields_ok root node h2 (fromstr_fields_ok _ node hnode)
        · exact h2
      · split
        · exact remove_fields_ok root _ h2
        · exact h2

theorem parenthood_at_subtree (t n : proc_node) (r : List Nat) (h : parenthood_at t)
    (hr : deref t r = some n) : parenthood_at n := by
  intro s i par m hs hsi
  have h1 : deref t (r ++ s) = some par := by
    rw [deref_append, hr]; exact hs
  have h2 : deref t ((r ++ s) ++ [i]) = some m := by
    rw [List.append_assoc, deref_append, hr]; exact hsi
  exact h (r ++ s) i par m h1 h2

theorem parenthood_of_parenthood_at : ∀ t, parenthood_at t → parenthood t = true := by
  apply proc_node_induction
  intro a b nm cs ih h
  rw [parenthood_eq]
  simp only [proc_node.pid, proc_node.children]
  rw [parenthood_children_iff]
  intro c hc
  obtain ⟨i, hi⟩ := List.getElem?_of_mem hc
  have hci : deref (proc_node.mk a b nm cs) [i] = some c := by
    rw [deref_singleton]; exact hi
  refine ⟨h [] i _ c (deref_nil _) hci, ih c hc (parenthood_at_subtree _ c [i] h hci)⟩

theorem subtree_pids_sublist (t n : proc_node) (r : List Nat) (hr : deref t r = some n) :
    (pids n).Sublist (pids t) := by
  obtain ⟨l1, l2, h1, -⟩ := preorder_update proc_node.pid (fun _ _ => rfl) r t n hr
  simp only [pids]
  rw [h1]
  exact (List.sublist_append_right _ _).trans (List.sublist_append_left _ _)

theorem subtree_mem_preorder (t n m : proc_node) (r : List Nat) (hr : deref t r = some n)
    (hm : m ∈ preorder n) : ∃ s, deref t (r ++ s) = some m := by
  obtain ⟨s, hs⟩ := (mem_preorder n m).1 hm
  exact ⟨s, by rw [deref_append, hr]; exact hs⟩

theorem info_payloads_list_trace (s : Int) :
    ∀ procs : List proc_node, info_payloads (list_trace s procs) = procs.map proc_node_tostr := by
  intro procs
  induction procs with
  | nil => rfl
  | cons p ps ih =>
    rw [list_trace_cons]
    simp only [info_payloads, if_true, ih, List.map_cons]

theorem postorder_children_perm (cs : List proc_node) :
    (postorder_children cs).Perm (preorder_children cs) := by
  induction cs with
  | nil => exact List.Perm.refl _
  | cons c cs ih =>
    simp only [postorder_children, preorder_children]
    exact List.Perm.append (postorder_perm c) ih

/-- The loop of `prmall.c` and `ptree.c` on the stream of a `LIST`: every string is
added and acknowledged, the final `OK` ends the loop. -/
theorem receive_tree_stream (ppid : Int) :
    ∀ (strs : List (List Char)) (root0 root1 : Option proc_node),
      rebuild root0 strs = some root1 →
      receive_tree ppid root0 (rounds_of (list_responses ppid strs)) =
        some (root1,
          strs.flatMap (fun _ => [event.wait ppid, event.send ppid MSG_SUCCESS none]) ++
            [event.wait ppid], some true) := by
  intro strs
  induction strs with
  | nil =>
    intro root0 root1 h
    simp only [rebuild, Option.some.injEq] at h
    rw [h]
    rfl
  | cons s strs ih =>
    intro root0 root1 h
    simp only [rebuild] at h
    cases ha : add_process_to_tree root0 s with
    | none => rw [ha] at h; cases h
    | some r1 =>
      rw [ha] at h
      have e : rounds_of (list_responses ppid (s :: strs)) =
          round.mk (some (message_t.mk ppid MSG_INFO s)) true ::
            rounds_of (list_responses ppid strs) := rfl
      rw [e]
      simp only [receive_tree, if_true, ha, ih r1 root1 h]
      rfl

/-- The whole of `rmall` on a tree with distinct pids that satisfies I2 and has fields
that pass through the strings. -/
theorem rmall_subtree (root node : proc_node) (ptr : List Nat) (caller : Int)
    (name : List Char) (kill_ok : Int → Bool)
    (hd : (pids root).Nodup) (hI2 : parenthood_at root)
    (hok : ∀ n ∈ preorder root, fields_ok (n.pid, n.ppid, n.name))
    (hf : proc_node_find_by_name root name = some ptr) (hn : deref root ptr = some node) :
    info_payloads (message_handler (message_t.mk caller MSG_LIST name) root).2 =
      (preorder node).map proc_node_tostr ∧
    rebuild none ((preorder node).map proc_node_tostr) = some (some node) ∧
    all_replied_ok root
      ((signalled (kill_proc_tree root.pid kill_ok node)).map remove_request) = true ∧
    handle_all root ((signalled (kill_proc_tree root.pid kill_ok node)).map remove_request) =
      without_subtree root ptr := by
  have h1 : info_payloads (message_handler (message_t.mk caller MSG_LIST name) root).2 =
      (preorder node).map proc_node_tostr := by
    rw [message_handler_list _ root rfl, msg_list_handler_found _ root node ptr hf hn,
      info_payloads_list_trace, List.map_map]
    apply List.map_congr_left
    intro n _
    exact tostr_childless_copy n
  have h2 : rebuild none ((preorder node).map proc_node_tostr) = some (some node) := by
    apply rebuild_preorder node ((subtree_pids_sublist root node ptr hn).nodup hd)
      (parenthood_of_parenthood_at node (parenthood_at_subtree root node ptr hI2 hn))
    intro n hmem
    obtain ⟨s, hs⟩ := subtree_mem_preorder root node n ptr hn hmem
    exact hok n ((mem_preorder root n).2 ⟨_, hs⟩)
  refine ⟨h1, h2, ?_⟩
  rw [kill_proc_tree_postorder, signalled_blocks]
  cases ptr with
  | nil =>
    rw [deref_nil] at hn
    cases hn
    have hfil : (postorder root).filter (fun n => decide (n.pid ≠ root.pid)) =
        postorder_children root.children := by
      rw [postorder_eq, List.filter_append]
      have e1 : [root].filter (fun n => decide (n.pid ≠ root.pid)) = [] := by
        simp [List.filter_cons]
      rw [e1, List.append_nil, List.filter_eq_self]
      intro m hm
      have hm1 : m.pid ∈ (preorder_children root.children).map proc_node.pid :=
        List.mem_map.2 ⟨m, (postorder_children_perm _).mem_iff.1 hm, rfl⟩
      rw [pids_eq] at hd
      simp only [decide_eq_true_eq]
      intro e
      rw [e] at hm1
      exact (List.nodup_cons.1 hd).1 hm1
    rw [hfil]
    have := remove_children_postorder root.children
      (fun c _ => remove_subtree_postorder c) root [] root [] hd hI2 (deref_nil _)
      (List.append_nil _).symm
    rw [update_nil] at this
    exact this
  | cons i r =>
    have hfil : (postorder node).filter (fun n => decide (n.pid ≠ root.pid)) =
        postorder node := by
      rw [List.filter_eq_self]
      intro m hm
      obtain ⟨s, hs⟩ := subtree_mem_preorder root node m (i :: r) hn
        ((postorder_perm node).mem_iff.1 hm)
      simp only [decide_eq_true_eq]
      intro e
      have := distinct_pids_ptr root hd (i :: r ++ s) [] m root hs (deref_nil _) e
      simp at this
    rw [hfil]
    have hsplit := List.dropLast_append_getLast (List.cons_ne_nil i r)
    rw [← hsplit] at hn
    obtain ⟨par, hpar, hc⟩ := deref_of_append root _ _ node hn
    rw [deref_singleton] at hc
    exact remove_subtree_postorder node root _ _ par hd hI2 hpar hc

/-- C25: for every tree the supervisor reaches from its first tree (the root named
`pmanager`) by handling messages, if its pids are pairwise distinct, and for every
name that `proc_node_find_by_name` finds in it, at the node `N`: the strings streamed
by `LIST` are those of the nodes of the subtree of `N` in pre-order, `prmall` rebuilds
from them a local tree equal to that subtree and signals its nodes in post-order; when
every process signalled sends its `REMOVE` in that order, every `REMOVE` is answered
`OK` (the target is a leaf when its turn comes) and the supervisor is left with the
original tree without the subtree of `N`; when `N` is the root only the root is
left. -/
theorem C25_rmall_removes_subtree (p q : Int) (msgs : List message_t) (root node : proc_node)
    (ptr : List Nat) (caller : Int) (name : List Char) (kill_ok : Int → Bool)
    (hroot : root = handle_all (proc_node_init p q "pmanager".toList) msgs)
    (hp : pid_t_range p) (hq : pid_t_range q) (hd : (pids root).Nodup)
    (hf : proc_node_find_by_name root name = some ptr) (hn : deref root ptr = some node) :
    info_payloads (message_handler (message_t.mk caller MSG_LIST name) root).2 =
      (preorder node).map proc_node_tostr ∧
    rebuild none ((preorder node).map proc_node_tostr) = some (some node) ∧
    prmall_main root.pid kill_ok name true
        (rounds_of (list_responses root.pid ((preorder node).map proc_node_tostr))) =
      some (event.send root.pid MSG_LIST (some name) ::
        (((preorder node).map proc_node_tostr).flatMap
            (fun _ => [event.wait root.pid, event.send root.pid MSG_SUCCESS none]) ++
          [event.wait root.pid]) ++
        kill_proc_tree root.pid kill_ok node ++ [event.exit 0]) ∧
    signalled (kill_proc_tree root.pid kill_ok node) =
      ((postorder node).filter (fun n => decide (n.pid ≠ root.pid))).map proc_node.pid ∧
    all_replied_ok root
      ((signalled (kill_proc_tree root.pid kill_ok node)).map remove_request) = true ∧
    handle_all root ((signalled (kill_proc_tree root.pid kill_ok node)).map remove_request) =
      without_subtree root ptr ∧
    (ptr = [] →
      handle_all root ((signalled (kill_proc_tree root.pid kill_ok node)).map remove_request) =
        proc_node.mk root.pid root.ppid root.name []) := by
  have hinv := handle_all_invariants msgs (proc_node_init p q "pmanager".toList)
    (init_parenthood_at _ _ _)
    (by
      intro n hmem
      simp only [proc_node_init, preorder, preorder_children, List.mem_singleton] at hmem
      rw [hmem]
      exact ⟨⟨hp, hq⟩, by show "pmanager".toList ≠ []; decide,
        by show ';' ∉ "pmanager".toList; decide⟩)
  rw [← hroot] at hinv
  obtain ⟨h1, h2, h3, h4⟩ := rmall_subtree root node ptr caller name kill_ok hd hinv.1 hinv.2 hf hn
  refine ⟨h1, h2, ?_, ?_, h3, h4, ?_⟩
  · simp only [prmall_main, if_true, receive_tree_stream root.pid _ none (some node) h2]
  · rw [kill_proc_tree_postorder, signalled_blocks]
  · intro e
    rw [h4, e]
    rfl

/-- C25, witness: the supervisor (pid 1) has registered `a` (pid 2) and its clone `a_1`
(pid 3); `rmall a` signals 3, then 2, and the two `REMOVE` leave the root alone. -/
theorem C25_rmall_removes_subtree_witness :
    signalled (kill_proc_tree 1 (fun _ => true)
      (proc_node.mk 2 1 ['a'] [proc_node.mk 3 2 ['a', '_', '1'] []])) = [3, 2] ∧
    all_replied_ok
      (proc_node.mk 1 0 "pmanager".toList
        [proc_node.mk 2 1 ['a'] [proc_node.mk 3 2 ['a', '_', '1'] []]])
      ((signalled (kill_proc_tree 1 (fun _ => true)
        (proc_node.mk 2 1 ['a'] [proc_node.mk 3 2 ['a', '_', '1'] []]))).map remove_request) =
      true ∧
    handle_all
      (proc_node.mk 1 0 "pmanager".toList
        [proc_node.mk 2 1 ['a'] [proc_node.mk 3 2 ['a', '_', '1'] []]])
      ((signalled (kill_proc_tree 1 (fun _ => true)
        (proc_node.mk 2 1 ['a'] [proc_node.mk 3 2 ['a', '_', '1'] []]))).map remove_request) =
      proc_node.mk 1 0 "pmanager".toList [] :=
  ⟨(C25_rmall_removes_subtree 1 0
      [message_t.mk 2 MSG_ADD "2;1;a".toList, message_t.mk 2 MSG_ADD "3;2;a_1".toList]
      (proc_node.mk 1 0 "pmanager".toList
        [proc_node.mk 2 1 ['a'] [proc_node.mk 3 2 ['a', '_', '1'] []]])
      (proc_node.mk 2 1 ['a'] [proc_node.mk 3 2 ['a', '_', '1'] []])
      [0] 9 ['a'] (fun _ => true) rfl ⟨by decide, by decide⟩ ⟨by decide, by decide⟩
      (by decide) rfl rfl).2.2.2.1,
   (C25_rmall_removes_subtree 1 0
      [message_t.mk 2 MSG_ADD "2;1;a".toList, message_t.mk 2 MSG_ADD "3;2;a_1".toList]
      (proc_node.mk 1 0 "pmanager".toList
        [proc_node.mk 2 1 ['a'] [proc_node.mk 3 2 ['a', '_', '1'] []]])
      (proc_node.mk 2 1 ['a'] [proc_node.mk 3 2 ['a', '_', '1'] []])
      [0] 9 ['a'] (fun _ => true) rfl ⟨by decide, by decide⟩ ⟨by decide, by decide⟩
      (by decide) rfl rfl).2.2.2.2.1,
   (C25_rmall_removes_subtree 1 0
      [message_t.mk 2 MSG_ADD "2;1;a".toList, message_t.mk 2 MSG_ADD "3;2;a_1".toList]
      (proc_node.mk 1 0 "pmanager".toList
        [proc_node.mk 2 1 ['a'] [proc_node.mk 3 2 ['a', '_', '1'] []]])
      (proc_node.mk 2 1 ['a'] [proc_node.mk 3 2 ['a', '_', '1'] []])
      [0] 9 ['a'] (fun _ => true) rfl ⟨by decide, by decide⟩ ⟨by decide, by decide⟩
      (by decide) rfl rfl).2.2.2.2.2.1⟩

/-! ## C28: what `message_wait` returns -/

theorem deliver_all_cons (n : nudge) (ns : List nudge) (b : bus) :
    deliver_all (n :: ns) b = deliver_all ns (deliver n b) := rfl

/-- When `message_wait` returns it has handled a first part of the signals, stopped
waiting, and read once. -/
theorem message_wait_some (s : Int) :
    ∀ (ns : List nudge) (b : bus) (r : Option message_t × bus) (rest : List nudge),
      message_wait s b ns = some (r, rest) →
      ∃ pre, ns = pre ++ rest ∧ keeps_waiting s (deliver_all pre b) = false ∧
        r = message_read (deliver_all pre b) := by
  intro ns
  induction ns with
  | nil =>
    intro b r rest h
    cases hk : keeps_waiting s b with
    | true => simp [message_wait, hk] at h
    | false =>
      simp only [message_wait, hk, Bool.false_eq_true, if_false, Option.some.injEq,
        Prod.mk.injEq] at h
      exact ⟨[], by rw [← h.2]; rfl, hk, h.1.symm⟩
  | cons n ns ih =>
    intro b r rest h
    cases hk : keeps_waiting s b with
    | true =>
      rw [message_wait_step s b n ns hk] at h
      obtain ⟨pre, h1, h2, h3⟩ := ih (deliver n b) r rest h
      exact ⟨n :: pre, by rw [h1]; rfl, h2, h3⟩
    | false =>
      rw [message_wait_ready s b _ hk] at h
      simp only [Option.some.injEq, Prod.mk.injEq] at h
      exact ⟨[], by rw [← h.2]; rfl, hk, h.1.symm⟩

theorem keeps_waiting_false (s : Int) (b : bus) (hs : s ≠ -1)
    (h : keeps_waiting s b = false) :
    message_unread b = true ∧ get_message_sender b = s := by
  simp only [keeps_waiting, Bool.or_eq_false_iff, Bool.not_eq_false', Bool.and_eq_false_iff,
    decide_eq_false_iff_not, ne_eq, not_not] at h
  refine ⟨h.1, ?_⟩
  rcases h.2 with e | e
  · exact e.symm
  · exact absurd e hs

theorem deliver_all_sender :
    ∀ (pre : List nudge) (b : bus) (last : nudge), pre.getLast? = some last →
      get_message_sender (deliver_all pre b) = last.si_pid := by
  intro pre
  induction pre with
  | nil => intro b last h; cases h
  | cons n pre ih =>
    intro b last h
    rw [deliver_all_cons]
    cases pre with
    | nil =>
      simp only [List.getLast?_singleton, Option.some.injEq] at h
      rw [← h]
      rfl
    | cons m pre =>
      rw [List.getLast?_cons_cons] at h
      exact ih (deliver n b) last h

/-- C28 (amended): when `message_wait(from)` with `from` other than `-1` returns, it
has handled a first part of the signals, the unread flag is set and the last signal
handled came from `from` (`message_sender` is `from`), and what it returns is the
result of one `message_read` at that moment: the oldest frame of the FIFO. For a
well-formed frame written by a process `self` the message returned has `self` as
sender, whoever the wait was for; it is `from` when the oldest frame was written by
`from`. -/
theorem C28_wait_reads_oldest_frame (sender : Int) (b : bus) (ns rest : List nudge)
    (r : Option message_t × bus) (hs : sender ≠ -1)
    (h : message_wait sender b ns = some (r, rest)) :
    ∃ pre, ns = pre ++ rest ∧
      message_unread (deliver_all pre b) = true ∧
      get_message_sender (deliver_all pre b) = sender ∧
      (∀ last, pre.getLast? = some last → last.si_pid = sender) ∧
      r = message_read (deliver_all pre b) ∧
      (∀ (self : Int) (type : List Char) (content : Option (List Char)) (tail : List Char),
        pid_t_range self → type ∈ message_types → payload_ok content = true →
        (deliver_all pre b).pipe = message_str self type content ++ [NUL] ++ tail →
        r.1 = some (message_t.mk self type (content.getD ['N', 'U', 'L', 'L'])) ∧
        (r.1 = some (message_t.mk sender type (content.getD ['N', 'U', 'L', 'L'])) ↔
          self = sender)) := by
  obtain ⟨pre, h1, h2, h3⟩ := message_wait_some sender ns b r rest h
  obtain ⟨h4, h5⟩ := keeps_waiting_false sender _ hs h2
  refine ⟨pre, h1, h4, h5, ?_, h3, ?_⟩
  · intro last hl
    rw [← deliver_all_sender pre b last hl]
    exact h5
  · intro self type content tail hself ht hc hpipe
    have hr : r.1 = some (message_t.mk self type (content.getD ['N', 'U', 'L', 'L'])) := by
      rw [h3]
      have e : deliver_all pre b =
          bus.mk (message_str self type content ++ [NUL] ++ tail)
            (deliver_all pre b).unread_flag (deliver_all pre b).message_sender := by
        rw [← hpipe]
      rw [e, message_read_sent self type content tail _ _ hself (message_types_ok type ht) hc]
    refine ⟨hr, ?_⟩
    rw [hr]
    constructor
    · intro e
      injection e with e
      injection e
    · intro e
      rw [e]

/-- C28 (amended), witness: process 9 has sent one `OK`, and `message_wait(9)`
returns it. -/
theorem C28_wait_reads_oldest_frame_witness :
    ∃ pre, [frame_nudge 9 MSG_SUCCESS none] = pre ++ [] ∧
      message_unread (deliver_all pre (bus.mk [] false (-1))) = true ∧
      get_message_sender (deliver_all pre (bus.mk [] false (-1))) = 9 :=
  match C28_wait_reads_oldest_frame 9 (bus.mk [] false (-1)) [frame_nudge 9 MSG_SUCCESS none] []
    (some (message_t.mk 9 MSG_SUCCESS "NULL".toList), bus.mk [] false (-1)) (by decide) rfl with
  | ⟨pre, h1, h2, h3, _⟩ => ⟨pre, h1, h2, h3⟩

/-- C28, counterexample: the processes 7 and 9 have each sent one `OK`, the frame of 7
first. `message_wait(9)` stops waiting at the signal of 9 and returns the oldest
frame, whose sender is 7. -/
theorem C28_counterexample :
    message_wait 9 (bus.mk [] false (-1))
        [frame_nudge 7 MSG_SUCCESS none, frame_nudge 9 MSG_SUCCESS none] =
      some ((some (message_t.mk 7 MSG_SUCCESS "NULL".toList),
             bus.mk (message_str 9 MSG_SUCCESS none ++ [NUL]) false (-1)), []) ∧
    (message_t.mk 7 MSG_SUCCESS "NULL".toList).pid_sender ≠ 9 := by
  constructor
  · rfl
  · decide

/-! ## C26 and C27: the stream of `LIST pmanager` and what `plist` and `ptree` print -/

theorem pid_ok_range (x : Int) (h : pid_ok x = true) : pid_t_range x := by
  simp only [pid_ok, Bool.and_eq_true, decide_eq_true_eq] at h
  exact h

theorem name_ok_spec (nm : List Char) (h : name_ok nm = true) :
    nm ≠ [] ∧ ';' ∉ nm ∧ ':' ∉ nm ∧ NUL ∉ nm := by
  simp only [name_ok] at h
  have h2 : ((nm ≠ [] ∧ ';' ∉ nm) ∧ ':' ∉ nm) ∧ NUL ∉ nm := by
    simpa [List.isEmpty_iff] using h
  exact ⟨h2.1.1.1, h2.1.1.2, h2.1.2, h2.2⟩

theorem tree_ok_spec (t : proc_node) (h : tree_ok t = true) :
    ∀ n ∈ preorder t, fields_ok (n.pid, n.ppid, n.name) ∧ ':' ∉ n.name ∧ NUL ∉ n.name := by
  intro n hn
  simp only [tree_ok, List.all_eq_true, Bool.and_eq_true] at h
  obtain ⟨⟨h1, h2⟩, h3⟩ := h n hn
  obtain ⟨a, b, c, d⟩ := name_ok_spec n.name h3
  exact ⟨⟨⟨pid_ok_range _ h1, pid_ok_range _ h2⟩, a, b⟩, c, d⟩

theorem tostr_payload_ok (n : proc_node) (h1 : ':' ∉ n.name) (h2 : NUL ∉ n.name) :
    payload_ok (some (proc_node_tostr n)) = true := by
  have ha := fmt_ld_no_colon_nul n.pid
  have hb := fmt_ld_no_colon_nul n.ppid
  have hne : proc_node_tostr n ≠ [] := by
    simp [proc_node_tostr]
  have hc : ':' ∉ proc_node_tostr n := by
    intro hm
    simp only [proc_node_tostr, List.mem_append, List.mem_cons] at hm
    rcases hm with hm | hm | hm | hm | hm
    · exact ha.1 hm
    · exact absurd hm (by decide)
    · exact hb.1 hm
    · exact absurd hm (by decide)
    · exact h1 hm
  have hd : NUL ∉ proc_node_tostr n := by
    intro hm
    simp only [proc_node_tostr, List.mem_append, List.mem_cons] at hm
    rcases hm with hm | hm | hm | hm | hm
    · exact ha.2 hm
    · exact absurd hm (by decide)
    · exact hb.2 hm
    · exact absurd hm (by decide)
    · exact h2 hm
  simp only [payload_ok]
  simp [List.isEmpty_iff, hne, hc, hd]

theorem frames_sends (s c : Int) (l : List (List Char × Option (List Char))) :
    frames s (l.map (fun x => action.send c x.1 x.2)) =
      l.map (fun x => frame_nudge s x.1 x.2) := by
  induction l with
  | nil => rfl
  | cons x l ih => simp only [List.map_cons, frames, ih]

/-- Frames that arrive one by one from `s` are read one by one. -/
theorem wait_n_frames (s : Int) (hs : pid_t_range s) :
    ∀ l : List (List Char × Option (List Char)),
      (∀ x ∈ l, x.1 ∈ message_types ∧ payload_ok x.2 = true) →
      wait_n s l.length (bus.mk [] false (-1)) (l.map (fun x => frame_nudge s x.1 x.2)) =
        l.map (fun x => some (message_t.mk s x.1 (x.2.getD ['N', 'U', 'L', 'L']))) := by
  intro l
  induction l with
  | nil => intro _; rfl
  | cons x l ih =>
    intro h
    obtain ⟨h1, h2⟩ := h x (List.mem_cons_self _ _)
    have hw : message_wait s (bus.mk [] false (-1))
        (frame_nudge s x.1 x.2 :: l.map (fun x => frame_nudge s x.1 x.2)) =
        some ((some (message_t.mk s x.1 (x.2.getD ['N', 'U', 'L', 'L'])),
          bus.mk [] false (-1)), l.map (fun x => frame_nudge s x.1 x.2)) := by
      rw [message_wait_step s (bus.mk [] false (-1)) _ _ rfl,
        message_wait_ready s _ _ (keeps_waiting_deliver s _ _ rfl)]
      have e : deliver (frame_nudge s x.1 x.2) (bus.mk [] false (-1)) =
          bus.mk (message_str s x.1 x.2 ++ [NUL] ++ []) true s := by
        simp [deliver, frame_nudge, set_unread_flag]
      rw [e, message_read_sent s x.1 x.2 [] true s hs (message_types_ok _ h1) h2]
    simp only [List.length_cons, List.map_cons, wait_n, hw]
    rw [ih (fun y hy => h y (List.mem_cons_of_mem _ hy))]

/-- From the supervisor to the reader: with one acknowledgement of the caller for
every `INFO`, the frames of the stream of a `LIST`, read one by one by a process that
waits for the supervisor, are the `INFO` messages of the nodes of the subtree in
pre-order and the final `OK`. -/
theorem list_stream_read (root node : proc_node) (ptr : List Nat) (caller : Int)
    (name : List Char) (b : bus) (hok : tree_ok root = true)
    (hf : proc_node_find_by_name root name = some ptr) (hn : deref root ptr = some node) :
    wait_n root.pid (node_count node + 1) (bus.mk [] false (-1))
      (frames root.pid
        (run_actions (message_handler (message_t.mk caller MSG_LIST name) root).2 b
          (List.replicate (node_count node) (frame_nudge caller MSG_SUCCESS none))).1) =
      list_responses root.pid ((preorder node).map proc_node_tostr) := by
  have hrootok := (tree_ok_spec root hok root (by
    rw [preorder_eq]; exact List.mem_cons_self _ _)).1.1.1
  rw [message_handler_list _ root rfl, msg_list_handler_found _ root node ptr hf hn]
  have hr := (run_list_trace caller ((preorder node).map childless_copy) b
    (List.replicate (node_count node) (frame_nudge caller MSG_SUCCESS none))
    (by intro n hn; rw [List.eq_of_mem_replicate hn]; rfl)
    (by rw [List.length_map, List.length_replicate, node_count_eq_length])).1
  simp only at hr
  rw [hr]
  have e1 : ((preorder node).map childless_copy).map
        (fun p => action.send caller MSG_INFO (some (proc_node_tostr p))) ++
      [action.send caller MSG_SUCCESS none] =
      (((preorder node).map (fun n => (MSG_INFO, some (proc_node_tostr n)))) ++
        [(MSG_SUCCESS, none)]).map
        (fun (x : List Char × Option (List Char)) => action.send caller x.1 x.2) := by
    simp only [List.map_append, List.map_map, List.map_cons, List.map_nil]
    congr 1
  rw [e1, frames_sends]
  have hlen : node_count node + 1 =
      (((preorder node).map (fun n => (MSG_INFO, some (proc_node_tostr n)))) ++
        [(MSG_SUCCESS, (none : Option (List Char)))]).length := by
    rw [List.length_append, List.length_map, node_count_eq_length]; rfl
  rw [hlen, wait_n_frames root.pid hrootok]
  · simp only [list_responses, List.map_append, List.map_map, List.map_cons, List.map_nil]
    rfl
  · intro x hx
    rcases List.mem_append.1 hx with hx | hx
    · obtain ⟨n, hn1, hn2⟩ := List.mem_map.1 hx
      rw [← hn2]
      obtain ⟨s, hs⟩ := subtree_mem_preorder root node n ptr hn hn1
      have := tree_ok_spec root hok n ((mem_preorder root n).2 ⟨_, hs⟩)
      exact ⟨by show MSG_INFO ∈ message_types; decide,
        tostr_payload_ok n this.2.1 this.2.2⟩
    · simp only [List.mem_singleton] at hx
      rw [hx]
      exact ⟨by show MSG_SUCCESS ∈ message_types; decide, rfl⟩

theorem find_by_name_root (root : proc_node) : proc_node_find_by_name root root.name = some [] := by
  cases root
  simp [proc_node_find_by_name, proc_node.name]

theorem print_proc_entry_tostr (n : proc_node) (h : fields_ok (n.pid, n.ppid, n.name)) :
    print_proc_entry (proc_node_tostr n) = [plist_row n] := by
  simp only [print_proc_entry, fromstr_tostr n h.1.1 h.1.2 h.2.1 h.2.2]
  rfl

/-- The loop of `plist.c` on the stream of a `LIST`: one row for every string, the
final `OK` ends the loop and the process exits with status 0. -/
theorem plist_loop_stream (ppid : Int) :
    ∀ nodes : List proc_node, (∀ n ∈ nodes, fields_ok (n.pid, n.ppid, n.name)) →
      plist_loop ppid (rounds_of (list_responses ppid (nodes.map proc_node_tostr))) =
        (nodes.map plist_row,
          nodes.flatMap (fun _ => [event.wait ppid, event.send ppid MSG_SUCCESS none]) ++
            [event.wait ppid, event.exit 0], some 0) := by
  intro nodes
  induction nodes with
  | nil => intro _; rfl
  | cons n nodes ih =>
    intro h
    have e : rounds_of (list_responses ppid ((n :: nodes).map proc_node_tostr)) =
        round.mk (some (message_t.mk ppid MSG_INFO (proc_node_tostr n))) true ::
          rounds_of (list_responses ppid (nodes.map proc_node_tostr)) := rfl
    rw [e]
    simp only [plist_loop, if_true, ih (fun x hx => h x (List.mem_cons_of_mem _ hx)),
      print_proc_entry_tostr n (h n (List.mem_cons_self _ _))]
    rfl

/-- C26 (amended): the stream of `LIST pmanager` has one `INFO` frame for every node
of the tree of the supervisor, the supervisor itself included and first, so one more
than there are other processes; `plist` reads these frames in order and prints, after
the header row, one row for every `INFO` frame: the rows of the nodes in pre-order, the
row of the supervisor first, and exits with status 0. (The fields of the nodes pass
through the frames: `tree_ok`.) -/
theorem C26_list_rows (root : proc_node) (caller : Int) (b : bus)
    (hname : root.name = "pmanager".toList) (hok : tree_ok root = true) :
    info_payloads (message_handler (message_t.mk caller MSG_LIST "pmanager".toList) root).2 =
      (preorder root).map proc_node_tostr ∧
    (info_payloads
      (message_handler (message_t.mk caller MSG_LIST "pmanager".toList) root).2).length =
      1 + (preorder_children root.children).length ∧
    wait_n root.pid (node_count root + 1) (bus.mk [] false (-1))
      (frames root.pid
        (run_actions (message_handler (message_t.mk caller MSG_LIST "pmanager".toList) root).2 b
          (List.replicate (node_count root) (frame_nudge caller MSG_SUCCESS none))).1) =
      list_responses root.pid ((preorder root).map proc_node_tostr) ∧
    plist_main root.pid true
        (rounds_of (list_responses root.pid ((preorder root).map proc_node_tostr))) =
      (plist_header :: (preorder root).map plist_row,
        event.send root.pid MSG_LIST (some "pmanager".toList) ::
          ((preorder root).flatMap
              (fun _ => [event.wait root.pid, event.send root.pid MSG_SUCCESS none]) ++
            [event.wait root.pid, event.exit 0]),
        some 0) ∧
    (plist_main root.pid true
        (rounds_of (list_responses root.pid ((preorder root).map proc_node_tostr)))).1.length =
      1 + node_count root := by
  have hf : proc_node_find_by_name root "pmanager".toList = some [] := by
    rw [← hname]; exact find_by_name_root root
  have hp : info_payloads
      (message_handler (message_t.mk caller MSG_LIST "pmanager".toList) root).2 =
      (preorder root).map proc_node_tostr := by
    rw [message_handler_list _ root rfl, msg_list_handler_found _ root root [] hf (deref_nil _),
      info_payloads_list_trace, List.map_map]
    apply List.map_congr_left
    intro n _
    exact tostr_childless_copy n
  have hm : plist_main root.pid true
      (rounds_of (list_responses root.pid ((preorder root).map proc_node_tostr))) =
      (plist_header :: (preorder root).map plist_row,
        event.send root.pid MSG_LIST (some "pmanager".toList) ::
          ((preorder root).flatMap
              (fun _ => [event.wait root.pid, event.send root.pid MSG_SUCCESS none]) ++
            [event.wait root.pid, event.exit 0]),
        some 0) := by
    simp only [plist_main, if_true,
      plist_loop_stream root.pid (preorder root) (fun n hn => (tree_ok_spec root hok n hn).1)]
  refine ⟨hp, ?_, list_stream_read root root [] caller _ b hok hf (deref_nil _), hm, ?_⟩
  · rw [hp, List.length_map, preorder_eq, List.length_cons]
    omega
  · rw [hm]
    simp only [List.length_cons, List.length_map, node_count_eq_length]
    omega

/-- C26 (amended), witness: the supervisor (pid 1) with the one process `a` (pid 2):
`plist` prints the header and two rows. -/
theorem C26_list_rows_witness :
    (plist_main 1 true
      (rounds_of (list_responses 1
        ((preorder (proc_node.mk 1 0 "pmanager".toList [proc_node.mk 2 1 ['a'] []])).map
          proc_node_tostr)))).1.length = 1 + 2 :=
  (C26_list_rows (proc_node.mk 1 0 "pmanager".toList [proc_node.mk 2 1 ['a'] []]) 9
    (bus.mk [] false (-1)) rfl (by decide)).2.2.2.2

/-- C26, counterexample: the supervisor (pid 1) has no children. The stream of
`LIST pmanager` has one `INFO` frame, that of the supervisor itself, and `plist`, fed
with the frames of the supervisor, prints the header row and one more row. -/
theorem C26_counterexample :
    info_payloads
      (message_handler (message_t.mk 9 MSG_LIST "pmanager".toList)
        (proc_node_init 1 0 "pmanager".toList)).2 = ["1;0;pmanager".toList] ∧
    (plist_main 1 true
      (rounds_of (wait_n 1 2 (bus.mk [] false (-1))
        (frames 1
          (run_actions
            (message_handler (message_t.mk 9 MSG_LIST "pmanager".toList)
              (proc_node_init 1 0 "pmanager".toList)).2
            (bus.mk [] false (-1)) [frame_nudge 9 MSG_SUCCESS none]).1)))).1 =
      [plist_header, plist_row (proc_node_init 1 0 "pmanager".toList)] := by
  constructor <;> rfl

theorem depth_names_eq (t : proc_node) (d : Nat) :
    depth_names t d = (d, t.name) :: depth_names_children t.children (d + 1) := by
  cases t; rfl

theorem print_tree_rec_eq (t : proc_node) (d : Nat) :
    proc_node_print_tree_rec t d =
      tree_line (d, t.name) ++ print_tree_rec_loop t.children (d + 1) := by
  cases t
  simp only [proc_node_print_tree_rec, tree_line, proc_node.name, proc_node.children,
    List.append_assoc]

/-- The output of `proc_node_print_tree_rec`, line by line. -/
theorem print_tree_rec_lines :
    ∀ (t : proc_node) (d : Nat),
      proc_node_print_tree_rec t d =
        tree_line (d, t.name) ++
          (depth_names_children t.children (d + 1)).flatMap (fun e => '\n' :: tree_line e) := by
  apply proc_node_induction
  intro a b nm cs ih d
  have hl : ∀ d1, print_tree_rec_loop cs d1 =
      (depth_names_children cs d1).flatMap (fun e => '\n' :: tree_line e) := by
    intro d1
    induction cs with
    | nil => rfl
    | cons c cs ih2 =>
      simp only [print_tree_rec_loop, depth_names_children, List.flatMap_append]
      rw [ih c (List.mem_cons_self _ _) d1, ih2 (fun x hx => ih x (List.mem_cons_of_mem _ hx)),
        depth_names_eq, List.flatMap_cons]
      simp only [List.cons_append, List.append_assoc]
  rw [print_tree_rec_eq]
  simp only [proc_node.children]
  rw [hl]

theorem depth_names_children_mem (cs : List proc_node) (d : Nat) (c : proc_node)
    (hc : c ∈ cs) : ∀ e ∈ depth_names c d, e ∈ depth_names_children cs d := by
  induction cs with
  | nil => cases hc
  | cons x cs ih =>
    intro e he
    simp only [depth_names_children, List.mem_append]
    rcases List.mem_cons.1 hc with h | h
    · left; rw [← h]; exact he
    · right; exact ih h e he

/-- The depth of a node in the output is the length of the pointer to it. -/
theorem depth_names_deref :
    ∀ (r : List Nat) (t : proc_node) (d : Nat) (n : proc_node), deref t r = some n →
      (d + r.length, n.name) ∈ depth_names t d := by
  intro r
  induction r with
  | nil =>
    intro t d n h
    rw [deref_nil] at h
    cases h
    rw [depth_names_eq]
    exact List.mem_cons_self _ _
  | cons i r ih =>
    intro t d n h
    rw [deref_cons] at h
    cases hc : t.children[i]? with
    | none => rw [hc] at h; cases h
    | some c =>
      rw [hc] at h
      have h1 := ih c (d + 1) n h
      rw [depth_names_eq]
      apply List.mem_cons_of_mem
      have e : d + (i :: r).length = d + 1 + r.length := by
        simp only [List.length_cons]; omega
      rw [e]
      exact depth_names_children_mem t.children (d + 1) c (List.getElem?_mem hc) _ h1

theorem depth_names_names : ∀ (t : proc_node) (d : Nat),
    (depth_names t d).map Prod.snd = names t := by
  apply proc_node_induction
  intro a b nm cs ih d
  have hl : ∀ d1, (depth_names_children cs d1).map Prod.snd =
      (preorder_children cs).map proc_node.name := by
    intro d1
    induction cs with
    | nil => rfl
    | cons c cs ih2 =>
      simp only [depth_names_children, preorder_children, List.map_append]
      rw [ih c (List.mem_cons_self _ _) d1, ih2 (fun x hx => ih x (List.mem_cons_of_mem _ hx))]
      rfl
  simp only [depth_names, names, preorder, List.map_cons, hl]
  rfl

/-- C27 (amended): for every tree of the supervisor with pairwise distinct pids that
satisfies I2 and whose fields pass through the frames, `ptree` rebuilds the tree from
the stream of `LIST pmanager` and prints the names of all nodes in pre-order (siblings
in the order of the children), each on its own line and indented by its depth, where
the supervisor itself is printed first, at depth 0, and its direct children are at
depth 1: the depth of a node is the length of the path from the root to it. A line is
as many tabs as the depth and the name, after the corner glyph and a blank below the
root. -/
theorem C27_tree_output (root : proc_node) (caller : Int) (b : bus)
    (hname : root.name = "pmanager".toList) (hok : tree_ok root = true)
    (hd : (pids root).Nodup) (hI2 : parenthood root = true) :
    wait_n root.pid (node_count root + 1) (bus.mk [] false (-1))
      (frames root.pid
        (run_actions (message_handler (message_t.mk caller MSG_LIST "pmanager".toList) root).2 b
          (List.replicate (node_count root) (frame_nudge caller MSG_SUCCESS none))).1) =
      list_responses root.pid ((preorder root).map proc_node_tostr) ∧
    ptree_main root.pid true
        (rounds_of (list_responses root.pid ((preorder root).map proc_node_tostr))) =
      some (proc_node_print_tree (some root),
        event.send root.pid MSG_LIST (some "pmanager".toList) ::
          (((preorder root).map proc_node_tostr).flatMap
              (fun _ => [event.wait root.pid, event.send root.pid MSG_SUCCESS none]) ++
            [event.wait root.pid]) ++ [event.exit 0]) ∧
    proc_node_print_tree (some root) =
      tree_line (0, root.name) ++
        (depth_names_children root.children 1).flatMap (fun e => '\n' :: tree_line e) ++
        ['\n'] ∧
    depth_names root 0 = (0, root.name) :: depth_names_children root.children 1 ∧
    (depth_names root 0).map Prod.snd = names root ∧
    (∀ r n, deref root r = some n → (r.length, n.name) ∈ depth_names root 0) ∧
    (∀ c ∈ root.children, (1, c.name) ∈ depth_names root 0) := by
  have hf : proc_node_find_by_name root "pmanager".toList = some [] := by
    rw [← hname]; exact find_by_name_root root
  have hreb := rebuild_preorder root hd hI2 (fun n hn => (tree_ok_spec root hok n hn).1)
  have hdepth : ∀ r n, deref root r = some n → (r.length, n.name) ∈ depth_names root 0 := by
    intro r n h
    have := depth_names_deref r root 0 n h
    rw [Nat.zero_add] at this
    exact this
  refine ⟨list_stream_read root root [] caller _ b hok hf (deref_nil _), ?_, ?_,
    depth_names_eq root 0, depth_names_names root 0, hdepth, ?_⟩
  · simp only [ptree_main, if_true, receive_tree_stream root.pid _ none (some root) hreb]
  · simp only [proc_node_print_tree]
    rw [print_tree_rec_lines]
  · intro c hc
    obtain ⟨i, hi⟩ := List.getElem?_of_mem hc
    exact hdepth [i] c (by rw [deref_singleton]; exact hi)

/-- C27 (amended), witness: the tree `pmanager → a → {b, c}`. -/
theorem C27_tree_output_witness :
    (depth_names (proc_node.mk 1 0 "pmanager".toList
      [proc_node.mk 2 1 ['a'] [proc_node.mk 3 2 ['b'] [], proc_node.mk 4 2 ['c'] []]]) 0).map
      Prod.snd =
    names (proc_node.mk 1 0 "pmanager".toList
      [proc_node.mk 2 1 ['a'] [proc_node.mk 3 2 ['b'] [], proc_node.mk 4 2 ['c'] []]]) :=
  (C27_tree_output (proc_node.mk 1 0 "pmanager".toList
      [proc_node.mk 2 1 ['a'] [proc_node.mk 3 2 ['b'] [], proc_node.mk 4 2 ['c'] []]])
    9 (bus.mk [] false (-1)) rfl (by decide) (by decide) rfl).2.2.2.2.1

/-- C27, counterexample: against `pmanager → a → {b, c}` the output of `ptree` starts
with the line of the supervisor at depth 0; `a` comes at depth 1 (one tab and the
glyph), `b` and `c` at depth 2. -/
theorem C27_counterexample :
    depth_names (proc_node.mk 1 0 "pmanager".toList
      [proc_node.mk 2 1 ['a'] [proc_node.mk 3 2 ['b'] [], proc_node.mk 4 2 ['c'] []]]) 0 =
      [(0, "pmanager".toList), (1, ['a']), (2, ['b']), (2, ['c'])] ∧
    (ptree_main 1 true
      (rounds_of (list_responses 1
        ((preorder (proc_node.mk 1 0 "pmanager".toList
          [proc_node.mk 2 1 ['a']
            [proc_node.mk 3 2 ['b'] [], proc_node.mk 4 2 ['c'] []]])).map
          proc_node_tostr)))).map Prod.fst =
      some ("pmanager".toList ++ '\n' ::
        ('\t' :: (BORDER_MODE ++ BCS_CBL ++ NORMAL_MODE ++ [' ', 'a'])) ++ '\n' ::
        ('\t' :: '\t' :: (BORDER_MODE ++ BCS_CBL ++ NORMAL_MODE ++ [' ', 'b'])) ++ '\n' ::
        ('\t' :: '\t' :: (BORDER_MODE ++ BCS_CBL ++ NORMAL_MODE ++ [' ', 'c'])) ++ ['\n']) := by
  constructor <;> rfl

end CustomShell
